import Mathlib

/-!
# saasquick: the MCTS code-synthesis engine of `server/utils/taskTreeUtils.js`

A shallow embedding of the search tree (`Node`, `MCTS`), the state merger
(`deepMerge`) and the response parser (`extractJsonFromText`,
`extractThinkingFromText`), with the properties the specification states
about them.

Conventions of the embedding

* JavaScript numbers are `JSNum`: `NaN`, the two infinities, and finite values.
  Finite arithmetic is exact rational arithmetic (no rounding, no overflow, a
  single zero); the special values follow IEEE-754.  `Math.log` and
  `Math.sqrt` on finite positive arguments are a parameter (`MathImpl`).
* `visits` is a natural number (the counter is exact below `2^53`).
* `Node` objects live in a store (`NodeStore`); a reference to a node is its
  index in the store, `null` is `none`.
* The texts handed to the response parser are lists of characters (`Text`).
* A file map is a tree of mappings with file contents at the leaves
  (`FileVal`); its keys are file paths (the two property names that a plain
  object treats specially, `__proto__` and `hasOwnProperty`, are not paths).
  `deepMerge` is given twice: as the value it returns (`deepMerge`) and with its
  effect on the objects it is handed (`deepMergeInPlace`, on an `ObjStore`).
* The checkpoint file is its decoded content (`SaveFile`, `Checkpoint`,
  `SavedNode`): states with their file maps written out, and numbers as JSON
  has them, finite or `null`.
-/

namespace SaasQuick

/-! ## JavaScript numbers -/

/-- A JavaScript number: `NaN`, `+Infinity`, `-Infinity` or a finite value. -/
inductive JSNum where
  | nan : JSNum
  | pinf : JSNum
  | ninf : JSNum
  | fin (q : ℚ) : JSNum
  deriving DecidableEq

namespace JSNum

/-- The number `n` as a JavaScript number. -/
def ofNat (n : Nat) : JSNum := fin (n : ℚ)

/-- JavaScript `a + b` on numbers. -/
def add : JSNum → JSNum → JSNum
  | nan, _ => nan
  | _, nan => nan
  | pinf, ninf => nan
  | ninf, pinf => nan
  | pinf, _ => pinf
  | _, pinf => pinf
  | ninf, _ => ninf
  | _, ninf => ninf
  | fin a, fin b => fin (a + b)

/-- The infinity with the sign of `positive`. -/
def signedInf (positive : Bool) : JSNum := if positive then pinf else ninf

/-- JavaScript `a * b` on numbers. -/
def mul : JSNum → JSNum → JSNum
  | nan, _ => nan
  | _, nan => nan
  | pinf, pinf => pinf
  | pinf, ninf => ninf
  | ninf, pinf => ninf
  | ninf, ninf => pinf
  | pinf, fin b => if b = 0 then nan else signedInf (0 < b)
  | ninf, fin b => if b = 0 then nan else signedInf (b < 0)
  | fin a, pinf => if a = 0 then nan else signedInf (0 < a)
  | fin a, ninf => if a = 0 then nan else signedInf (a < 0)
  | fin a, fin b => fin (a * b)

/-- JavaScript `a / b` on numbers (the zero of the model is `+0`). -/
def div : JSNum → JSNum → JSNum
  | nan, _ => nan
  | _, nan => nan
  | pinf, pinf => nan
  | pinf, ninf => nan
  | ninf, pinf => nan
  | ninf, ninf => nan
  | pinf, fin b => signedInf (0 ≤ b)
  | ninf, fin b => signedInf (b < 0)
  | fin _, pinf => fin 0
  | fin _, ninf => fin 0
  | fin a, fin b =>
    if b = 0 then (if a = 0 then nan else signedInf (0 < a)) else fin (a / b)

/-- JavaScript `a > b` on numbers: false as soon as one side is `NaN`. -/
def gt : JSNum → JSNum → Bool
  | nan, _ => false
  | _, nan => false
  | pinf, pinf => false
  | pinf, _ => true
  | _, pinf => false
  | ninf, _ => false
  | fin _, ninf => true
  | fin a, fin b => decide (b < a)

/-- A finite number: neither `NaN` nor an infinity. -/
def isFinite : JSNum → Bool
  | fin _ => true
  | _ => false

end JSNum

/-- The host's `Math.log` and `Math.sqrt` on finite arguments in their domain
(the language leaves their values implementation-approximated). -/
structure MathImpl where
  log : ℚ → ℚ
  sqrt : ℚ → ℚ

/-- JavaScript `Math.log(x)`. -/
def mathLog (m : MathImpl) : JSNum → JSNum
  | .nan => .nan
  | .ninf => .nan
  | .pinf => .pinf
  | .fin q => if q < 0 then .nan else if q = 0 then .ninf else .fin (m.log q)

/-- JavaScript `Math.sqrt(x)`. -/
def mathSqrt (m : MathImpl) : JSNum → JSNum
  | .nan => .nan
  | .ninf => .nan
  | .pinf => .pinf
  | .fin q => if q < 0 then .nan else .fin (m.sqrt q)

/-! ## The search tree -/

/-- A reference to a `Node` object: its index in the store. -/
abbrev NodeRef := Nat

/-- The fields of a `Node` object (`class Node`); `σ` is the type of states. -/
structure Node (σ : Type) where
  state : σ
  parent : Option NodeRef
  children : List NodeRef
  visits : Nat
  score : JSNum
  deriving DecidableEq

/-- The `Node` objects allocated so far. -/
abbrev NodeStore (σ : Type) := List (Node σ)

/-- The constructor `new Node(state, parent)`: no children, `visits = 0`, `score = 0`. -/
def Node.new {σ : Type} (state : σ) (parent : Option NodeRef) : Node σ :=
  { state := state, parent := parent, children := [], visits := 0, score := .fin 0 }

/-- The node `n` after one more visit that scored `x`:
`visits + 1` and `score + x`, every other field as it was. -/
abbrev Node.bump {σ : Type} (n : Node σ) (x : JSNum) : Node σ :=
  { n with visits := n.visits + 1, score := JSNum.add n.score x }

/-- `Node.backpropagate(score)`: bump `visits`, add to `score`, recurse into the
parent when there is one.  `fuel` bounds the depth of the recursion. -/
def backpropagate {σ : Type} : Nat → NodeStore σ → NodeRef → JSNum → Option (NodeStore σ)
  | 0, _, _, _ => none
  | fuel + 1, h, a, x =>
    match h[a]? with
    | none => none
    | some n =>
      let h1 := h.set a { n with visits := n.visits + 1, score := JSNum.add n.score x }
      match n.parent with
      | none => some h1
      | some p => backpropagate fuel h1 p x

/-- `Node.getUCBScore(explorationFactor)`.  An unvisited node scores
`Infinity`; otherwise the exploitation term `score / visits` plus
`explorationFactor * Math.sqrt(Math.log(parent.visits) / visits)`.  Reading
`this.parent.visits` when `parent` is `null` throws a `TypeError`. -/
def getUCBScore {σ : Type} (m : MathImpl) (h : NodeStore σ) (a : NodeRef)
    (explorationFactor : JSNum) : Except String JSNum :=
  match h[a]? with
  | none => .error "ReferenceError: no such node"
  | some n =>
    if n.visits = 0 then .ok .pinf
    else
      let exploitationTerm := JSNum.div n.score (JSNum.ofNat n.visits)
      match n.parent with
      | none => .error "TypeError: Cannot read properties of null (reading 'visits')"
      | some p =>
        match h[p]? with
        | none => .error "ReferenceError: no such node"
        | some pn =>
          let explorationTerm :=
            mathSqrt m (JSNum.div (mathLog m (JSNum.ofNat pn.visits)) (JSNum.ofNat n.visits))
          .ok (JSNum.add exploitationTerm (JSNum.mul explorationFactor explorationTerm))

/-- The chain of nodes from `a` up to the root, following `parent`:
`a`, its parent, ..., the root.  `none` when the chain does not end within
`fuel` steps (or leaves the store). -/
def parentChain {σ : Type} : Nat → NodeStore σ → NodeRef → Option (List NodeRef)
  | 0, _, _ => none
  | fuel + 1, h, a =>
    match h[a]? with
    | none => none
    | some n =>
      match n.parent with
      | none => some [a]
      | some p => (parentChain fuel h p).map (fun l => a :: l)

/-! ## Checkpoint serialisation -/

/-- The plain object `serializeNode` builds: `{ state, visits, score, children }`. -/
inductive SerializedNode (σ : Type) where
  | mk (state : σ) (visits : Nat) (score : JSNum) (children : List (SerializedNode σ)) :
      SerializedNode σ

/-- All the values of a list of optional values, when none is missing. -/
def allSome {α : Type} : List (Option α) → Option (List α)
  | [] => some []
  | none :: _ => none
  | some x :: rest =>
    match allSome rest with
    | none => none
    | some xs => some (x :: xs)

/-- `MCTS.serializeNode(node)`: the node's `state`, `visits`, `score` and the
serialisations of its children, in order.  `fuel` bounds the depth of the
recursion. -/
def serializeNode {σ : Type} : Nat → NodeStore σ → NodeRef → Option (SerializedNode σ)
  | 0, _, _ => none
  | fuel + 1, h, a =>
    match h[a]? with
    | none => none
    | some n =>
      match allSome (n.children.map (serializeNode fuel h)) with
      | none => none
      | some cs => some (SerializedNode.mk n.state n.visits n.score cs)

/-- Assignment to fields of the node object `a`. -/
def updateNode {σ : Type} (h : NodeStore σ) (a : NodeRef) (f : Node σ → Node σ) : NodeStore σ :=
  match h[a]? with
  | none => h
  | some n => h.set a (f n)

mutual
/-- `MCTS.deserializeNode(node, serializedNode)`: overwrite `state`, `visits`
and `score` of `node`, rebuild the children and assign them to `node.children`.
`empty` is the state `{}` that `new Node({})` starts from. -/
def deserializeNode {σ : Type} (empty : σ) (h : NodeStore σ) (a : NodeRef) :
    SerializedNode σ → NodeStore σ
  | .mk st v sc cs =>
    let h1 := updateNode h a (fun n => { n with state := st, visits := v, score := sc })
    let r := deserializeChildren empty h1 a cs
    updateNode r.1 a (fun n => { n with children := r.2 })
/-- The callback of `serializedNode.children.map(...)`, run over the list:
for each entry allocate `new Node({})`, deserialize into it, set its `parent`
to `node`; the result is the store and the list of the new children. -/
def deserializeChildren {σ : Type} (empty : σ) (h : NodeStore σ) (node : NodeRef) :
    List (SerializedNode σ) → NodeStore σ × List NodeRef
  | [] => (h, [])
  | childData :: rest =>
    let child := h.length
    let h1 := h ++ [Node.new empty none]
    let h2 := deserializeNode empty h1 child childData
    let h3 := updateNode h2 child (fun n => { n with parent := some node })
    let r := deserializeChildren empty h3 node rest
    (r.1, child :: r.2)
end

mutual
/-- The tree rooted at `a` in the store is `t`, node for node: same `state`,
`visits`, `score`, the same number of children in the same order, and every
child's `parent` is the node that lists it. -/
def represents {σ : Type} (h : NodeStore σ) : NodeRef → SerializedNode σ → Prop
  | a, .mk st v sc cs =>
    ∃ n, h[a]? = some n ∧ n.state = st ∧ n.visits = v ∧ n.score = sc ∧
      representsChildren h a n.children cs
/-- The children `refs` of `node` are the trees `ts`, pairwise and in order,
and each of them has `parent = node`. -/
def representsChildren {σ : Type} (h : NodeStore σ) (node : NodeRef) :
    List NodeRef → List (SerializedNode σ) → Prop
  | [], [] => True
  | c :: refs, t :: ts =>
    (∃ m, h[c]? = some m ∧ m.parent = some node) ∧ represents h c t ∧
      representsChildren h node refs ts
  | [], _ :: _ => False
  | _ :: _, [] => False
end

mutual
/-- As `represents`, and moreover every proper descendant of `a` is stored at
an address in `[lo, hi)`. -/
def builtIn {σ : Type} (h : NodeStore σ) (lo hi : Nat) : NodeRef → SerializedNode σ → Prop
  | a, .mk st v sc cs =>
    ∃ n, h[a]? = some n ∧ n.state = st ∧ n.visits = v ∧ n.score = sc ∧
      builtChildrenIn h lo hi a n.children cs
/-- As `representsChildren`, with the children and their descendants stored
at addresses in `[lo, hi)`. -/
def builtChildrenIn {σ : Type} (h : NodeStore σ) (lo hi : Nat) (node : NodeRef) :
    List NodeRef → List (SerializedNode σ) → Prop
  | [], [] => True
  | c :: refs, t :: ts =>
    lo ≤ c ∧ c < hi ∧ (∃ m, h[c]? = some m ∧ m.parent = some node) ∧ builtIn h lo hi c t ∧
      builtChildrenIn h lo hi node refs ts
  | [], _ :: _ => False
  | _ :: _, [] => False
end

/-! ## The state merger -/

/-- A value held in a file map: the content of a file, or a nested mapping
(an object whose keys are listed in enumeration order, no key twice). -/
inductive FileVal where
  | str (content : String) : FileVal
  | obj (entries : List (String × FileVal)) : FileVal

/-- The entries of a mapping. -/
abbrev Entries := List (String × FileVal)

/-- `target[key]`: the value of the property, `none` for `undefined`. -/
def getKey {β : Type} (key : String) : List (String × β) → Option β
  | [] => none
  | (k, v) :: rest => if k = key then some v else getKey key rest

/-- `target[key] = value`: overwrite the property where it stands, or add it
at the end. -/
def setKey {β : Type} (key : String) (value : β) : List (String × β) → List (String × β)
  | [] => [(key, value)]
  | (k, v) :: rest => if k = key then (k, value) :: rest else (k, v) :: setKey key value rest

/-- `x || {}`: the value itself when it is truthy, a new empty object when it
is `undefined` or the empty string. -/
def orEmpty : Option FileVal → FileVal
  | none => .obj []
  | some (.str s) => if s = "" then .obj [] else .str s
  | some (.obj m) => .obj m

mutual
/-- `Node.deepMerge(target, source)`, as the value it returns.  Unless both
are objects the result is `source`; otherwise the keys of `source` are merged
into `target` one after the other. -/
def deepMerge : FileVal → FileVal → FileVal
  | .str _, source => source
  | .obj _, .str s => .str s
  | .obj target, .obj source => .obj (mergeEntries target source)
/-- The `for (const key in source)` loop of `deepMerge`: when `source[key]` is
an object, `target[key] = deepMerge(target[key] || {}, source[key])`,
otherwise `target[key] = source[key]`. -/
def mergeEntries : Entries → Entries → Entries
  | target, [] => target
  | target, (key, value) :: rest =>
    match value with
    | .obj _ => mergeEntries (setKey key (deepMerge (orEmpty (getKey key target)) value) target) rest
    | .str _ => mergeEntries (setKey key value target) rest
end

/-- The value the loop body of `deepMerge` assigns to `target[key]`, from the
value `old` found there and the source value. -/
def assigned (old : Option FileVal) (value : FileVal) : FileVal :=
  match value with
  | .obj _ => deepMerge (orEmpty old) value
  | .str _ => value

/-- The keys of a mapping, in order. -/
def keysOf {β : Type} (m : List (String × β)) : List String := m.map Prod.fst

mutual
/-- No object of the value lists a key twice (true of every JavaScript object). -/
def uniqueKeys : FileVal → Bool
  | .str _ => true
  | .obj m => uniqueKeysEntries m
/-- No key twice among the entries, nor inside their values. -/
def uniqueKeysEntries : Entries → Bool
  | [] => true
  | (k, v) :: rest => !(rest.any (fun e => e.1 == k)) && uniqueKeys v && uniqueKeysEntries rest
end

/-- The nested mapping `target` holds at `key`, an empty mapping when it holds
none there (no value, or a file content). -/
def nestedAt (key : String) (target : Entries) : FileVal :=
  match getKey key target with
  | some (.obj m) => .obj m
  | _ => .obj []

mutual
/-- The value `t` already holds everything of `v`: merging `v` into `t`
changes nothing. -/
def absorbs : FileVal → FileVal → Prop
  | t, .str x => t = .str x
  | t, .obj sv => ∃ tv, t = .obj tv ∧ absorbsEntries tv sv
/-- Every entry of the second mapping is absorbed by the value the first
mapping holds at its key. -/
def absorbsEntries : Entries → Entries → Prop
  | _, [] => True
  | tv, (k, v) :: rest => (∃ t, getKey k tv = some t ∧ absorbs t v) ∧ absorbsEntries tv rest
end

/-! ## File maps as objects: `applyAction` -/

/-- A reference to an object of the store: its index. -/
abbrev ObjRef := Nat

/-- A value as a property holds it: a string, or a reference to an object. -/
inductive JSVal where
  | str (content : String) : JSVal
  | ref (o : ObjRef) : JSVal
  deriving DecidableEq

/-- The own properties of an object, in enumeration order. -/
abbrev JSObj := List (String × JSVal)

/-- The objects allocated so far. -/
abbrev ObjStore := List JSObj

/-- `o[key] = value` on the object `o` of the store. -/
def setProp (h : ObjStore) (o : ObjRef) (key : String) (value : JSVal) : ObjStore :=
  match h[o]? with
  | none => h
  | some props => h.set o (setKey key value props)

/-- `x || {}` in the store: `x` itself when it is truthy, else a newly
allocated empty object. -/
def orNewObject (h : ObjStore) : Option JSVal → ObjStore × JSVal
  | none => (h ++ [[]], .ref h.length)
  | some (.str s) => if s = "" then (h ++ [[]], .ref h.length) else (h, .str s)
  | some (.ref o) => (h, .ref o)

/-- The `for (const key in source)` loop of `deepMerge` on the objects
`target` and `source` of the store, `recur` being `deepMerge` itself. -/
def mergeKeysInPlace (recur : ObjStore → JSVal → JSVal → Option (ObjStore × JSVal))
    (target source : ObjRef) : List String → ObjStore → Option ObjStore
  | [], h => some h
  | key :: rest, h =>
    match h[source]? with
    | none => none
    | some sprops =>
      match getKey key sprops with
      | none => mergeKeysInPlace recur target source rest h
      | some (.str s) => mergeKeysInPlace recur target source rest (setProp h target key (.str s))
      | some (.ref sv) =>
        match h[target]? with
        | none => none
        | some tprops =>
          let r := orNewObject h (getKey key tprops)
          match recur r.1 r.2 (.ref sv) with
          | none => none
          | some (h2, merged) =>
            mergeKeysInPlace recur target source rest (setProp h2 target key merged)

/-- `Node.deepMerge(target, source)` with its effect on the store: it assigns
into the object `target` itself and returns it.  `fuel` bounds the depth of the
recursion. -/
def deepMergeInPlace : Nat → ObjStore → JSVal → JSVal → Option (ObjStore × JSVal)
  | 0, _, _, _ => none
  | _ + 1, h, .str _, source => some (h, source)
  | _ + 1, h, .ref _, .str s => some (h, .str s)
  | fuel + 1, h, .ref t, .ref s =>
    match h[s]? with
    | none => none
    | some sprops =>
      match mergeKeysInPlace (deepMergeInPlace fuel) t s (keysOf sprops) h with
      | none => none
      | some h' => some (h', .ref t)

mutual
/-- The objects `JSON.parse` allocates for a decoded value, and the value. -/
def allocVal : ObjStore → FileVal → ObjStore × JSVal
  | h, .str s => (h, .str s)
  | h, .obj entries =>
    let r := allocEntries h entries
    (r.1 ++ [r.2], .ref r.1.length)
/-- The properties of a decoded object, their values allocated in order. -/
def allocEntries : ObjStore → Entries → ObjStore × JSObj
  | h, [] => (h, [])
  | h, (k, v) :: rest =>
    let r1 := allocVal h v
    let r2 := allocEntries r1.1 rest
    (r2.1, (k, r1.2) :: r2.2)
end

/-- The properties `props` read as a mapping, `recur` reading their values. -/
def readProps (recur : JSVal → Option FileVal) : JSObj → Option Entries
  | [] => some []
  | (k, v) :: rest =>
    match recur v, readProps recur rest with
    | some tv, some es => some ((k, tv) :: es)
    | _, _ => none

/-- The file map a value of the store stands for, read down to depth `fuel`. -/
def readVal : Nat → ObjStore → JSVal → Option FileVal
  | 0, _, _ => none
  | _ + 1, _, .str s => some (.str s)
  | fuel + 1, h, .ref o =>
    match h[o]? with
    | none => none
    | some props =>
      match readProps (readVal fuel h) props with
      | none => none
      | some es => some (.obj es)

mutual
/-- The nesting depth of a value held in a file map: `0` for a file content,
one more than its deepest value for a mapping. -/
def fileDepth : FileVal → Nat
  | .str _ => 0
  | .obj es => entriesDepth es + 1
/-- The depth of the deepest value among the entries. -/
def entriesDepth : Entries → Nat
  | [] => 0
  | (_, v) :: rest => max (fileDepth v) (entriesDepth rest)
end

mutual
/-- The value `v` of the store is the file map `fv`: the same text, or an
object stored at an address in `[lo, hi)` whose properties are the entries of
`fv`, key for key and in the same order. -/
def holds (h : ObjStore) (lo hi : Nat) : JSVal → FileVal → Prop
  | .str s, .str content => s = content
  | .str _, .obj _ => False
  | .ref _, .str _ => False
  | .ref o, .obj es => lo ≤ o ∧ o < hi ∧ ∃ props, h[o]? = some props ∧ holdsProps h lo hi props es
/-- The properties `props` are the entries `es`, key for key and in order. -/
def holdsProps (h : ObjStore) (lo hi : Nat) : JSObj → Entries → Prop
  | [], [] => True
  | [], _ :: _ => False
  | _ :: _, [] => False
  | (k, v) :: ps, (key, fv) :: es => k = key ∧ holds h lo hi v fv ∧ holdsProps h lo hi ps es
end

/-- The function `recur` copies a file map of depth at most `f`: called on an
empty object `t` and on an object `s` that is the mapping `es` (stored in
`[lo, hi)`, apart from `t`), it returns `t`, whose properties are then `es`
held in objects allocated from `c` on, and it leaves every other object as it
was. -/
def copiesMaps (recur : ObjStore → JSVal → JSVal → Option (ObjStore × JSVal)) (f : Nat) : Prop :=
  ∀ (es : Entries) (h : ObjStore) (lo hi c t s : Nat),
    holds h lo hi (.ref s) (.obj es) → uniqueKeysEntries es = true → entriesDepth es + 1 ≤ f →
    h[t]? = some [] → (t < lo ∨ hi ≤ t) → t < c → hi ≤ c → c ≤ h.length →
    ∃ h' tprops, recur h (.ref t) (.ref s) = some (h', .ref t) ∧
      h.length ≤ h'.length ∧ (∀ b : Nat, b < h.length → b ≠ t → h'[b]? = h[b]?) ∧
      h'[t]? = some tprops ∧ holdsProps h' c h'.length tprops es

/-- A project state: the brief, the file map (`code`, a reference to an
object of the store, `none` when undefined) and the optional `error`. -/
structure ProjectState where
  problemStatement : String
  projectType : String
  code : Option JSVal
  error : Option String
  deriving DecidableEq

/-- One attempt of `applyAction` up to the merge: the gateway call, the tag
extraction and the JSON decoding either throw (with a message) or yield the
object `updatedCode`. -/
inductive Attempt where
  | threw (message : String) : Attempt
  | decoded (updatedCode : Entries) : Attempt

/-- The retry bound of `applyAction`. -/
def maxRetries : Nat := 4

/-- The `while (retries < maxRetries)` loop of `applyAction`, with `k` turns
left.  A decoded attempt merges `updatedCode` into `this.state.code || {}` and
returns `{...this.state, code: mergedCode}`; a failed one counts a retry and,
at the bound, returns `{...this.state, error: ...}`. -/
def applyActionFrom (fuel : Nat) (attempts : Nat → Attempt) (state : ProjectState) :
    Nat → Nat → ObjStore → Option (ObjStore × ProjectState)
  | 0, _, h =>
    some (h, { state with error := some "Failed to apply action after exhausting all retries" })
  | k + 1, retries, h =>
    match attempts retries with
    | .decoded delta =>
      let parsed := allocVal h (.obj delta)
      let target := orNewObject parsed.1 state.code
      match deepMergeInPlace fuel target.1 target.2 parsed.2 with
      | none => none
      | some (h3, mergedCode) => some (h3, { state with code := some mergedCode })
    | .threw message =>
      if retries + 1 = maxRetries then
        some (h, { state with
          error := some ("Failed to apply action after 4 attempts: " ++ message) })
      else applyActionFrom fuel attempts state k (retries + 1) h

/-- `Node.applyAction(action, llm, io)` on the node's state and the store. -/
def applyAction (fuel : Nat) (attempts : Nat → Attempt) (state : ProjectState)
    (h : ObjStore) : Option (ObjStore × ProjectState) :=
  applyActionFrom fuel attempts state maxRetries 0 h

/-! ## The response parser -/

/-- A JavaScript string, as the list of its characters. -/
abbrev Text := List Char

/-- The characters `String.prototype.trim` strips: the white space and line
terminator code points of the language. -/
def isTrimmed (c : Char) : Bool :=
  let n := c.toNat
  n = 0x09 || n = 0x0A || n = 0x0B || n = 0x0C || n = 0x0D || n = 0x20 || n = 0xA0 ||
  n = 0x1680 || (0x2000 ≤ n && n ≤ 0x200A) || n = 0x2028 || n = 0x2029 || n = 0x202F ||
  n = 0x205F || n = 0x3000 || n = 0xFEFF

/-- `s.trim()`: without its leading and trailing white space. -/
def trim (s : Text) : Text :=
  ((s.dropWhile isTrimmed).reverse.dropWhile isTrimmed).reverse

/-- The text before and the text after the first occurrence of `pat`, `none`
when `pat` does not occur. -/
def splitAtFirst (pat : Text) : Text → Option (Text × Text)
  | [] => if pat = [] then some ([], []) else none
  | c :: cs =>
    if pat.isPrefixOf (c :: cs) then some ([], (c :: cs).drop pat.length)
    else
      match splitAtFirst pat cs with
      | none => none
      | some (before, after) => some (c :: before, after)

/-- `text.match(/OPEN(.*?)CLOSE/s)` for two literal tags: group 1 of the
leftmost match, `none` when the regular expression does not match.  The match
starts at the first position where `OPEN` stands and some `CLOSE` follows; the
lazy group then ends at the first `CLOSE`. -/
def matchBetween (opn cls : Text) : Text → Option Text
  | [] => none
  | c :: cs =>
    if opn.isPrefixOf (c :: cs) then
      match splitAtFirst cls ((c :: cs).drop opn.length) with
      | some (group, _) => some group
      | none => matchBetween opn cls cs
    else matchBetween opn cls cs

/-- The sentinel tags. -/
def jsonOpen : Text := "<json>".toList
def jsonClose : Text := "</json>".toList
def thinkingOpen : Text := "<thinking>".toList
def thinkingClose : Text := "</thinking>".toList

/-- `extractJsonFromText(text)`: the trimmed group when the expression matches
and the group is not the empty string (`match && match[1]`), else `'{}'`. -/
def extractJsonFromText (text : Text) : Text :=
  match matchBetween jsonOpen jsonClose text with
  | some group => if group ≠ [] then trim group else "{}".toList
  | none => "{}".toList

/-- `extractThinkingFromText(text)`: the trimmed group when the expression
matches and the group is not the empty string, else `''`. -/
def extractThinkingFromText (text : Text) : Text :=
  match matchBetween thinkingOpen thinkingClose text with
  | some group => if group ≠ [] then trim group else []
  | none => []

/-! ## The engine and its gateway -/

/-- A JavaScript value as `JSON.parse` builds it or a property read yields it. -/
inductive JSValue where
  | undefined : JSValue
  | null : JSValue
  | bool (b : Bool) : JSValue
  | num (n : JSNum) : JSValue
  | str (s : String) : JSValue
  | arr (items : List JSValue) : JSValue
  | obj (props : List (String × JSValue)) : JSValue

/-- The truthiness of a value (`if (v)`, `!v`, `v && ...`). -/
def JSValue.truthy : JSValue → Bool
  | .undefined => false
  | .null => false
  | .bool b => b
  | .num n => !(n = .nan || n = .fin 0)
  | .str s => !(s = "")
  | .arr _ => true
  | .obj _ => true

/-- Whether `typeof v === 'object'`. -/
def JSValue.typeofObject : JSValue → Bool
  | .null => true
  | .arr _ => true
  | .obj _ => true
  | _ => false

/-- The property read `v.name` for a name that is no built-in property: a
`TypeError` on `null` and `undefined`, the own property of an object,
`undefined` otherwise. -/
def JSValue.prop (name : String) : JSValue → Except String JSValue
  | .undefined =>
    .error ("TypeError: Cannot read properties of undefined (reading '" ++ name ++ "')")
  | .null => .error ("TypeError: Cannot read properties of null (reading '" ++ name ++ "')")
  | .obj props =>
    match getKey name props with
    | some v => .ok v
    | none => .ok .undefined
  | _ => .ok .undefined

mutual
/-- The file map a decoded value is, when it is built from strings and
objects only. -/
def JSValue.toFileVal : JSValue → Option FileVal
  | .str s => some (.str s)
  | .obj props =>
    match JSValue.toEntries props with
    | some es => some (.obj es)
    | none => none
  | _ => none
/-- The entries of a decoded object, when all its values are file maps. -/
def JSValue.toEntries : List (String × JSValue) → Option Entries
  | [] => some []
  | (k, v) :: rest =>
    match JSValue.toFileVal v, JSValue.toEntries rest with
    | some fv, some es => some ((k, fv) :: es)
    | _, _ => none
end

mutual
/-- A file map as a decoded value. -/
def FileVal.toJS : FileVal → JSValue
  | .str s => .str s
  | .obj es => .obj (entriesToJS es)
/-- The entries of a file map as the properties of a decoded object. -/
def entriesToJS : Entries → List (String × JSValue)
  | [] => []
  | (k, v) :: rest => (k, FileVal.toJS v) :: entriesToJS rest
end

/-- Arithmetic negation of a number. -/
def JSNum.neg : JSNum → JSNum
  | .nan => .nan
  | .pinf => .ninf
  | .ninf => .pinf
  | .fin q => .fin (-q)

/-- The value of a decimal digit. -/
def digitValue (c : Char) : Option Nat :=
  if 48 ≤ c.toNat ∧ c.toNat ≤ 57 then some (c.toNat - 48) else none

/-- The decimal digits a text starts with, and the text after them. -/
def takeDigits : Text → List Nat × Text
  | [] => ([], [])
  | c :: cs =>
    match digitValue c with
    | some d => ((d :: (takeDigits cs).1), (takeDigits cs).2)
    | none => ([], c :: cs)

/-- The number a list of decimal digits writes. -/
def digitsValue (ds : List Nat) : Nat := ds.foldl (fun acc d => 10 * acc + d) 0

/-- The exponent an `ExponentPart` at the start of the text denotes, `0` when
the text starts with none. -/
def exponentOf : Text → Int
  | [] => 0
  | c :: rest =>
    if c = 'e' ∨ c = 'E' then
      match rest with
      | '+' :: ds => if (takeDigits ds).1 = [] then 0 else (digitsValue (takeDigits ds).1 : Int)
      | '-' :: ds => if (takeDigits ds).1 = [] then 0 else -(digitsValue (takeDigits ds).1 : Int)
      | ds => if (takeDigits ds).1 = [] then 0 else (digitsValue (takeDigits ds).1 : Int)
    else 0

/-- The value of the longest `StrUnsignedDecimalLiteral` the text starts with,
`NaN` when it starts with none. -/
def unsignedDecimal (s : Text) : JSNum :=
  if "Infinity".toList.isPrefixOf s then .pinf
  else
    match (takeDigits s).2 with
    | '.' :: rest =>
      if (takeDigits s).1 = [] ∧ (takeDigits rest).1 = [] then .nan
      else
        .fin (((digitsValue (takeDigits s).1 : ℚ) +
            (digitsValue (takeDigits rest).1 : ℚ) / (10 : ℚ) ^ (takeDigits rest).1.length) *
          (10 : ℚ) ^ exponentOf (takeDigits rest).2)
    | rest =>
      if (takeDigits s).1 = [] then .nan
      else .fin ((digitsValue (takeDigits s).1 : ℚ) * (10 : ℚ) ^ exponentOf rest)

/-- The host's `parseFloat(text)`: leading white space is skipped, the longest
prefix that is a decimal literal is read (exactly), `NaN` when there is none. -/
def parseFloat (s : Text) : JSNum :=
  match s.dropWhile isTrimmed with
  | '+' :: rest => unsignedDecimal rest
  | '-' :: rest => JSNum.neg (unsignedDecimal rest)
  | rest => unsignedDecimal rest

/-- What a prompt asks the model gateway for. -/
inductive Request where
  | initialState : Request
  | propose : Request
  | apply (action : JSValue) : Request
  | evaluate : Request
  | terminal : Request

/-- The world outside the engine.  `gateway n r` is the answer to the `n`-th
gateway call (counted from 0) when it carries the request `r`: the text of
the completion, or an exception with its message.  `parse` is the host's
`JSON.parse` (`none` when it throws a `SyntaxError`), `clean` is
`cleanJsonString`, `random k n` is `Math.floor(Math.random() * n)` at the
`k`-th draw, `math` gives `Math.log` and `Math.sqrt`. -/
structure Env where
  gateway : Nat → Request → Except String Text
  parse : Text → Option JSValue
  clean : Text → Text
  random : Nat → Nat → Nat
  math : MathImpl

/-- A state as a checkpoint file holds it: the file map is written out. -/
structure SavedState where
  problemStatement : String
  projectType : String
  code : Option FileVal
  error : Option String

/-- A number as `JSON.stringify` writes it: a finite number is written as it
is; `NaN`, `Infinity` and `-Infinity` are written as `null` (`none`). -/
def JSNum.toJSON : JSNum → Option ℚ
  | .fin q => some q
  | _ => none

/-- What `JSON.parse` gives back where a number was written: the number, or
`null`.  The code assigns it as it is to `score` and `bestScore`; the only
operations it then applies to these fields are `+`, `/` and `>`, which convert
`null` to `0`, and the model holds the number `0` in the place of that `null`. -/
def JSNum.ofJSON : Option ℚ → JSNum
  | some q => .fin q
  | none => .fin 0

/-- A node of the tree in a checkpoint file:
`{ state, visits, score, children }`, with the state written out and the score
a number or `null`. -/
inductive SavedNode where
  | mk (state : SavedState) (visits : Nat) (score : Option ℚ) (children : List SavedNode) :
      SavedNode

/-- The content of a checkpoint file: `{ rootNode, bestNode, bestScore, iteration }`. -/
structure Checkpoint where
  rootNode : SavedNode
  bestNode : Option SavedNode
  bestScore : Option ℚ
  iteration : Nat

/-- The checkpoint file of a job: absent, present with a content that is not
the JSON of a checkpoint (`JSON.parse` throws on it, or it has no `rootNode`),
or present and holding a checkpoint. -/
inductive SaveFile where
  | absent : SaveFile
  | malformed : SaveFile
  | saved (cp : Checkpoint) : SaveFile

/-- An event emitted on the progress sink (`io.emit`). -/
inductive Event where
  | phase (label : String) : Event
  | iteration (i numIterations : Nat) : Event
  | thinking (text : Text) : Event
  | terminalCheck (text : Text) : Event
  | progress (percent : JSNum) : Event
  | error (message : String) : Event
  | projectGenerated (projectId : String) (url error : Option String) : Event

/-- Everything a run reads and writes: the `Node` objects, the file-map
objects, the number of gateway calls and of random draws made so far, the
events emitted so far, the `bestNode` and `bestScore` of the controller, and
the checkpoint file. -/
structure World where
  nodes : NodeStore ProjectState
  objs : ObjStore
  calls : Nat
  draws : Nat
  events : List Event
  bestNode : Option NodeRef
  bestScore : JSNum
  saved : SaveFile

/-- How a call ends: it returns a value, it throws, or the model gives no
answer (a recursion budget is used up, or a decoded payload holds values that
are no file maps). -/
inductive Outcome (α : Type) where
  | ok (value : α) (w : World) : Outcome α
  | thrown (message : String) (w : World) : Outcome α
  | stuck : Outcome α

/-- The `while (retries < maxRetries)` loop of `getAvailableActions`, with `k`
turns left.  The gateway call and the reasoning extraction stand before the
`try`; a payload that `JSON.parse` accepts is returned as it is. -/
def getAvailableActionsFrom (env : Env) : Nat → Nat → World → Outcome JSValue
  | 0, _, w => .ok .undefined w
  | k + 1, retries, w =>
    match env.gateway w.calls .propose with
    | .error message => .thrown message { w with calls := w.calls + 1 }
    | .ok actionsText =>
      match env.parse (extractJsonFromText actionsText) with
      | some actions =>
        .ok actions { w with
          calls := w.calls + 1,
          events := w.events ++ [.thinking (extractThinkingFromText actionsText)] }
      | none =>
        if retries + 1 = maxRetries then
          .ok (.arr []) { w with
            calls := w.calls + 1,
            events := w.events ++ [.thinking (extractThinkingFromText actionsText)] }
        else
          getAvailableActionsFrom env k (retries + 1) { w with
            calls := w.calls + 1,
            events := w.events ++ [.thinking (extractThinkingFromText actionsText)] }

/-- `Node.getAvailableActions(llm, io)`. -/
def getAvailableActions (env : Env) (w : World) : Outcome JSValue :=
  getAvailableActionsFrom env maxRetries 0 w

/-- The choice of `updatedCode` in `applyAction`: `parsedResponse.code` when it
is a truthy object, else `parsedResponse` when it is an object, else an error. -/
def updatedCodeOf (parsedResponse : JSValue) : Except String JSValue :=
  match JSValue.prop "code" parsedResponse with
  | .error message => .error message
  | .ok code =>
    if code.truthy && code.typeofObject then .ok code
    else if parsedResponse.typeofObject then .ok parsedResponse
    else .error "Invalid code object in LLM response"

/-- The `try` block of `applyAction` from the gateway's answer to
`updatedCode`: the reasoning text it emits (when it gets that far) and the
object to merge, or the message of the exception. -/
def applyAttempt (env : Env) (reply : Except String Text) : Option Text × Except String JSValue :=
  match reply with
  | .error message => (none, .error message)
  | .ok responseText =>
    match matchBetween jsonOpen jsonClose responseText with
    | none => (none, .error "No JSON found in the response")
    | some group =>
      let thinkingText :=
        match matchBetween thinkingOpen thinkingClose responseText with
        | some t => trim t
        | none => []
      match env.parse (trim group) with
      | some parsedResponse => (some thinkingText, updatedCodeOf parsedResponse)
      | none =>
        match env.parse (env.clean (trim group)) with
        | some parsedResponse => (some thinkingText, updatedCodeOf parsedResponse)
        | none =>
          (some thinkingText, .error "Invalid JSON format in LLM response, even after cleanup")

/-- The events of a world, with the reasoning text of an attempt added when
the attempt emitted it. -/
def withThinking (events : List Event) : Option Text → List Event
  | none => events
  | some t => events ++ [.thinking t]

/-- The end of the `try` block of `applyAction`:
`mergedCode = this.deepMerge(this.state.code || {}, updatedCode)` and the state
`{...this.state, code: mergedCode}`, with the objects after the merge.  `none`
when `updatedCode` is no file map, or the budget of `deepMerge` is used up. -/
def mergeInto (fuel : Nat) (state : ProjectState) (updatedCode : JSValue) (objs : ObjStore) :
    Option (ProjectState × ObjStore) :=
  match JSValue.toFileVal updatedCode with
  | some (.obj delta) =>
    let parsed := allocVal objs (.obj delta)
    let target := orNewObject parsed.1 state.code
    match deepMergeInPlace fuel target.1 target.2 parsed.2 with
    | none => none
    | some (h3, mergedCode) => some ({ state with code := some mergedCode }, h3)
  | _ => none

/-- The `while (retries < maxRetries)` loop of `applyAction` with its gateway,
`k` turns left. -/
def applyActionViaFrom (env : Env) (fuel : Nat) (state : ProjectState) (action : JSValue) :
    Nat → Nat → World → Outcome ProjectState
  | 0, _, w =>
    .ok { state with error := some "Failed to apply action after exhausting all retries" } w
  | k + 1, retries, w =>
    match applyAttempt env (env.gateway w.calls (.apply action)) with
    | (thinking, .ok updatedCode) =>
      match mergeInto fuel state updatedCode w.objs with
      | none => .stuck
      | some (newState, h3) =>
        .ok newState { w with
          calls := w.calls + 1, events := withThinking w.events thinking, objs := h3 }
    | (thinking, .error message) =>
      if retries + 1 = maxRetries then
        .ok { state with
            error := some ("Failed to apply action after 4 attempts: " ++ message) }
          { w with calls := w.calls + 1, events := withThinking w.events thinking }
      else
        applyActionViaFrom env fuel state action k (retries + 1) { w with
          calls := w.calls + 1, events := withThinking w.events thinking }

/-- `Node.applyAction(action, llm, io)` on the node's state, with its gateway. -/
def applyActionVia (env : Env) (fuel : Nat) (state : ProjectState) (action : JSValue)
    (w : World) : Outcome ProjectState :=
  applyActionViaFrom env fuel state action maxRetries 0 w

/-- Whether a decoded value is an object (`null` is none). -/
def JSValue.isObject : JSValue → Bool
  | .arr _ => true
  | .obj _ => true
  | _ => false

/-- The ways an attempt of `applyAction` fails before the merge: the gateway
raises; or the answer has no `<json>` block; or its payload is not valid JSON,
also after `cleanJsonString`; or the payload decodes (as it is, or once
cleaned) to a value that is not an object. -/
def attemptFails (env : Env) (reply : Except String Text) : Prop :=
  (∃ message, reply = .error message) ∨
  (∃ text, reply = .ok text ∧ matchBetween jsonOpen jsonClose text = none) ∨
  (∃ text group, reply = .ok text ∧ matchBetween jsonOpen jsonClose text = some group ∧
    env.parse (trim group) = none ∧ env.parse (env.clean (trim group)) = none) ∨
  (∃ text group v, reply = .ok text ∧ matchBetween jsonOpen jsonClose text = some group ∧
    (env.parse (trim group) = some v ∨
      (env.parse (trim group) = none ∧ env.parse (env.clean (trim group)) = some v)) ∧
    v.isObject = false)

/-- `Node.evaluateState(state, llm, io)`: the number `parseFloat` reads in the
payload of the gateway's answer, `0` when anything in the `try` throws (the
gateway call, or the test `isNaN(score)`). -/
def evaluateState (env : Env) (w : World) : JSNum × World :=
  match env.gateway w.calls .evaluate with
  | .error _ => (.fin 0, { w with calls := w.calls + 1 })
  | .ok responseText =>
    let score := parseFloat (extractJsonFromText responseText)
    (if score = .nan then .fin 0 else score,
      { w with
        calls := w.calls + 1,
        events := w.events ++ [.thinking (extractThinkingFromText responseText)] })

/-- `isTerminalState(state, llm, io)`: the `isTerminal` member of the decoded
payload, `false` when anything in the `try` throws. -/
def isTerminalState (env : Env) (w : World) : JSValue × World :=
  match env.gateway w.calls .terminal with
  | .error _ => (.bool false, { w with calls := w.calls + 1 })
  | .ok responseText =>
    let w1 := { w with
      calls := w.calls + 1,
      events := w.events ++ [.terminalCheck (extractThinkingFromText responseText)] }
    match env.parse (extractJsonFromText responseText) with
    | none => (.bool false, w1)
    | some result =>
      match JSValue.prop "isTerminal" result with
      | .error _ => (.bool false, w1)
      | .ok v => (v, w1)

/-- The values `for (const action of actions)` runs over: the items of an
array, the characters of a string; no other value is iterable. -/
def iterate : JSValue → Except String (List JSValue)
  | .arr items => .ok items
  | .str s => .ok (s.data.map (fun c => .str (String.singleton c)))
  | _ => .error "TypeError: actions is not iterable"

/-- The loop of `Node.expand` over the actions: apply the action to the
node's state, make `new Node(newState, this)`, push it to `this.children`. -/
def expandLoop (env : Env) (fuel : Nat) (node : NodeRef) : List JSValue → World → Outcome Unit
  | [], w => .ok () w
  | action :: rest, w =>
    match w.nodes[node]? with
    | none => .stuck
    | some n =>
      match applyActionVia env fuel n.state action w with
      | .stuck => .stuck
      | .thrown message w1 => .thrown message w1
      | .ok newState w1 =>
        expandLoop env fuel node rest { w1 with
          nodes := updateNode (w1.nodes ++ [Node.new newState (some node)]) node
            (fun m => { m with children := m.children ++ [w1.nodes.length] }) }

/-- `Node.expand(llm, io)`. -/
def expand (env : Env) (fuel : Nat) (node : NodeRef) (w : World) : Outcome Unit :=
  match getAvailableActions env w with
  | .stuck => .stuck
  | .thrown message w1 => .thrown message w1
  | .ok actions w1 =>
    match iterate actions with
    | .error message => .thrown message w1
    | .ok items => expandLoop env fuel node items w1

/-- `actions[Math.floor(Math.random() * actions.length)]` at the `draw`-th
random draw, for the values whose `length` is built in; `none` for an object
(whose `length` is a member of its own, or `undefined`). -/
def pickAction (env : Env) (draw : Nat) : JSValue → Option (Except String JSValue)
  | .undefined =>
    some (.error "TypeError: Cannot read properties of undefined (reading 'length')")
  | .null => some (.error "TypeError: Cannot read properties of null (reading 'length')")
  | .arr items => some (.ok (items.getD (env.random draw items.length) .undefined))
  | .str s =>
    some (.ok (match s.data.get? (env.random draw s.length) with
      | some c => .str (String.singleton c)
      | none => .undefined))
  | .bool _ => some (.ok .undefined)
  | .num _ => some (.ok .undefined)
  | .obj _ => none

/-- The `while (!(await isTerminalState(state, llm, io)))` loop of
`Node.simulate` and the evaluation that follows it; `turns` bounds the number
of turns of the loop.  Actions are proposed for, and applied to, `this.state`. -/
def simulateLoop (env : Env) (fuel : Nat) (node : NodeRef) : Nat → World → Outcome JSNum
  | 0, _ => .stuck
  | turns + 1, w =>
    if (isTerminalState env w).1.truthy then
      .ok (evaluateState env (isTerminalState env w).2).1
        (evaluateState env (isTerminalState env w).2).2
    else
      match getAvailableActions env (isTerminalState env w).2 with
      | .stuck => .stuck
      | .thrown message w1 => .thrown message w1
      | .ok actions w1 =>
        match pickAction env w1.draws actions with
        | none => .stuck
        | some (.error message) => .thrown message { w1 with draws := w1.draws + 1 }
        | some (.ok randomAction) =>
          match w1.nodes[node]? with
          | none => .stuck
          | some n =>
            match applyActionVia env fuel n.state randomAction
                { w1 with draws := w1.draws + 1 } with
            | .stuck => .stuck
            | .thrown message w2 => .thrown message w2
            | .ok _ w2 => simulateLoop env fuel node turns w2

/-- `Node.simulate(llm, io)`. -/
def simulate (env : Env) (fuel : Nat) (node : NodeRef) (w : World) : Outcome JSNum :=
  simulateLoop env fuel node fuel w

/-- The loop of `Node.getBestChild` over the children, from the best score
and the best child found so far. -/
def bestChildLoop {σ : Type} (m : MathImpl) (h : NodeStore σ) (explorationFactor : JSNum) :
    List NodeRef → JSNum → Option NodeRef → Except String (Option NodeRef)
  | [], _, bestChild => .ok bestChild
  | child :: rest, bestScore, bestChild =>
    match getUCBScore m h child explorationFactor with
    | .error message => .error message
    | .ok score =>
      if JSNum.gt score bestScore then bestChildLoop m h explorationFactor rest score (some child)
      else bestChildLoop m h explorationFactor rest bestScore bestChild

/-- `Node.getBestChild(explorationFactor)`: `none` is `null`. -/
def getBestChild {σ : Type} (m : MathImpl) (h : NodeStore σ) (a : NodeRef)
    (explorationFactor : JSNum) : Except String (Option NodeRef) :=
  match h[a]? with
  | none => .error "ReferenceError: no such node"
  | some n => bestChildLoop m h explorationFactor n.children .ninf none

/-- The selection loop of `MCTS.search`:
`while (node.children.length > 0) node = node.getBestChild(...)`.  The outer
`none` is a used-up budget. -/
def select {σ : Type} (m : MathImpl) (explorationFactor : JSNum) (h : NodeStore σ) :
    Nat → NodeRef → Option (Except String NodeRef)
  | 0, _ => none
  | fuel + 1, a =>
    match h[a]? with
    | none => none
    | some n =>
      if n.children = [] then some (.ok a)
      else
        match getBestChild m h a explorationFactor with
        | .error message => some (.error message)
        | .ok none => some (.error "TypeError: Cannot read properties of null (reading 'children')")
        | .ok (some b) => select m explorationFactor h fuel b

/-- The state `{}` of `new Node({})`. -/
def emptyState : ProjectState :=
  { problemStatement := "", projectType := "", code := none, error := none }

/-- A state as `JSON.stringify` writes it: the file map read from the store. -/
def saveStateValue (fuel : Nat) (objs : ObjStore) (st : ProjectState) : Option SavedState :=
  match st.code with
  | none =>
    some { problemStatement := st.problemStatement, projectType := st.projectType,
           code := none, error := st.error }
  | some v =>
    match readVal fuel objs v with
    | none => none
    | some fv =>
      some { problemStatement := st.problemStatement, projectType := st.projectType,
             code := some fv, error := st.error }

mutual
/-- A serialized tree as `JSON.stringify` writes it. -/
def saveTree (fuel : Nat) (objs : ObjStore) : SerializedNode ProjectState →
    Option SavedNode
  | .mk st v sc cs =>
    match saveStateValue fuel objs st, saveTrees fuel objs cs with
    | some st', some cs' => some (.mk st' v (JSNum.toJSON sc) cs')
    | _, _ => none
/-- The serialized children as `JSON.stringify` writes them. -/
def saveTrees (fuel : Nat) (objs : ObjStore) : List (SerializedNode ProjectState) →
    Option (List SavedNode)
  | [] => some []
  | t :: ts =>
    match saveTree fuel objs t, saveTrees fuel objs ts with
    | some t', some ts' => some (t' :: ts')
    | _, _ => none
end

/-- A saved state as `JSON.parse` builds it: the file map in new objects. -/
def loadStateValue (objs : ObjStore) (st : SavedState) : ObjStore × ProjectState :=
  match st.code with
  | none =>
    (objs, { problemStatement := st.problemStatement, projectType := st.projectType,
             code := none, error := st.error })
  | some fv =>
    ((allocVal objs fv).1,
      { problemStatement := st.problemStatement, projectType := st.projectType,
        code := some (allocVal objs fv).2, error := st.error })

mutual
/-- A saved tree as `JSON.parse` builds it. -/
def loadTree (objs : ObjStore) : SavedNode →
    ObjStore × SerializedNode ProjectState
  | .mk st v sc cs =>
    ((loadTrees (loadStateValue objs st).1 cs).1,
      .mk (loadStateValue objs st).2 v (JSNum.ofJSON sc)
        (loadTrees (loadStateValue objs st).1 cs).2)
/-- The saved children as `JSON.parse` builds them. -/
def loadTrees (objs : ObjStore) : List SavedNode →
    ObjStore × List (SerializedNode ProjectState)
  | [] => (objs, [])
  | t :: ts =>
    ((loadTrees (loadTree objs t).1 ts).1, (loadTree objs t).2 :: (loadTrees (loadTree objs t).1 ts).2)
end

/-- The parameters of the controller (`new MCTS(explorationFactor, saveInterval, savePath)`). -/
structure Controller where
  explorationFactor : JSNum
  saveInterval : Nat

/-- `MCTS.saveState(rootNode, iteration)`: write the checkpoint (as
`JSON.stringify` writes it: scores that are no finite numbers become `null`),
then log the code of `this.bestNode` (a `TypeError` when there is none). -/
def saveState (fuel : Nat) (root : NodeRef) (iteration : Nat) (w : World) : Outcome Unit :=
  match serializeNode fuel w.nodes root with
  | none => .stuck
  | some rootTree =>
    match saveTree fuel w.objs rootTree with
    | none => .stuck
    | some savedRoot =>
      match w.bestNode with
      | none =>
        .thrown "TypeError: Cannot read properties of null (reading 'state')"
          { w with saved := .saved ⟨savedRoot, none, JSNum.toJSON w.bestScore, iteration⟩ }
      | some b =>
        match serializeNode fuel w.nodes b with
        | none => .stuck
        | some bestTree =>
          match saveTree fuel w.objs bestTree with
          | none => .stuck
          | some savedBest =>
            .ok () { w with
              saved := .saved ⟨savedRoot, some savedBest, JSNum.toJSON w.bestScore, iteration⟩ }

/-- `MCTS.loadStateIfExists(rootNode)`: when the file exists, decode it,
deserialize its `rootNode` into `rootNode`, restore `bestScore`, and rebuild
`bestNode` in a `new Node({})` when the file holds one. -/
def loadStateIfExists (root : NodeRef) (w : World) : Outcome Unit :=
  match w.saved with
  | .absent => .ok () w
  | .malformed => .thrown "SyntaxError: Unexpected token in JSON" w
  | .saved cp =>
    let r := loadTree w.objs cp.rootNode
    let nodes1 := deserializeNode emptyState w.nodes root r.2
    match cp.bestNode with
    | none =>
      .ok () { w with objs := r.1, nodes := nodes1, bestScore := JSNum.ofJSON cp.bestScore }
    | some best =>
      .ok () { w with
        objs := (loadTree r.1 best).1,
        nodes := deserializeNode emptyState (nodes1 ++ [Node.new emptyState none])
          nodes1.length (loadTree r.1 best).2,
        bestScore := JSNum.ofJSON cp.bestScore,
        bestNode := some nodes1.length }

/-- One turn of the `for` loop of `MCTS.search`: the two events, selection,
expansion, simulation, backpropagation, the update of the best node, and the
checkpoint. -/
def iteration (env : Env) (fuel : Nat) (ctl : Controller) (root : NodeRef)
    (numIterations i : Nat) (w : World) : Outcome Unit :=
  match select env.math ctl.explorationFactor w.nodes fuel root with
  | none => .stuck
  | some (.error message) =>
    .thrown message { w with events := w.events ++
      [.iteration (i + 1) numIterations,
       .progress (JSNum.mul (JSNum.div (JSNum.ofNat i) (JSNum.ofNat numIterations))
         (JSNum.ofNat 100))] }
  | some (.ok node) =>
    match expand env fuel node { w with events := w.events ++
        [.iteration (i + 1) numIterations,
         .progress (JSNum.mul (JSNum.div (JSNum.ofNat i) (JSNum.ofNat numIterations))
           (JSNum.ofNat 100))] } with
    | .stuck => .stuck
    | .thrown message w1 => .thrown message w1
    | .ok _ w1 =>
      match simulate env fuel node w1 with
      | .stuck => .stuck
      | .thrown message w2 => .thrown message w2
      | .ok score w2 =>
        match backpropagate fuel w2.nodes node score with
        | none => .stuck
        | some nodes' =>
          if (i + 1) % ctl.saveInterval = 0 then
            saveState fuel root (i + 1)
              (if JSNum.gt score w2.bestScore then
                { w2 with nodes := nodes', bestScore := score, bestNode := some node }
              else { w2 with nodes := nodes' })
          else
            .ok ()
              (if JSNum.gt score w2.bestScore then
                { w2 with nodes := nodes', bestScore := score, bestNode := some node }
              else { w2 with nodes := nodes' })

/-- The iterations `is`, one after the other, up to the first that does not
return. -/
def runIterations (env : Env) (fuel : Nat) (ctl : Controller) (root : NodeRef)
    (numIterations : Nat) : List Nat → World → Outcome Unit
  | [], w => .ok () w
  | i :: rest, w =>
    match iteration env fuel ctl root numIterations i w with
    | .stuck => .stuck
    | .thrown message w1 => .thrown message w1
    | .ok _ w1 => runIterations env fuel ctl root numIterations rest w1

/-- The loop `for (let i = currentIteration; i < numIterations; i++)` of
`MCTS.search`, with `turns` turns left at most. -/
def searchLoop (env : Env) (fuel : Nat) (ctl : Controller) (root : NodeRef)
    (numIterations : Nat) : Nat → Nat → World → Outcome Unit
  | 0, _, w => .ok () w
  | turns + 1, i, w =>
    if i < numIterations then
      match iteration env fuel ctl root numIterations i w with
      | .stuck => .stuck
      | .thrown message w1 => .thrown message w1
      | .ok _ w1 => searchLoop env fuel ctl root numIterations turns (i + 1) w1
    else .ok () w

/-- The end of `MCTS.search`: the event `progress 100`, and
`return this.bestNode.state` (a `TypeError` when `bestNode` is `null`). -/
def searchEnd (w : World) : Outcome ProjectState :=
  match w.bestNode with
  | none =>
    .thrown "TypeError: Cannot read properties of null (reading 'state')"
      { w with events := w.events ++ [.progress (JSNum.ofNat 100)] }
  | some b =>
    match w.nodes[b]? with
    | none => .stuck
    | some n => .ok n.state { w with events := w.events ++ [.progress (JSNum.ofNat 100)] }

/-- `MCTS.search(currentIteration, initialState, numIterations, llm, io)`:
a new root, the checkpoint loaded into it when there is one, the iterations
from `currentIteration` up to `numIterations - 1`, and the state of the best
node. -/
def search (env : Env) (fuel : Nat) (ctl : Controller) (currentIteration : Nat)
    (initialState : ProjectState) (numIterations : Nat) (w : World) : Outcome ProjectState :=
  match loadStateIfExists w.nodes.length
      { w with nodes := w.nodes ++ [Node.new initialState none] } with
  | .stuck => .stuck
  | .thrown message w1 => .thrown message w1
  | .ok _ w1 =>
    match searchLoop env fuel ctl w.nodes.length numIterations
        (numIterations - currentIteration) currentIteration w1 with
    | .stuck => .stuck
    | .thrown message w2 => .thrown message w2
    | .ok _ w2 => searchEnd w2

/-- The text a decoded object holds under `name`, `""` when it holds none. -/
def textProp (name : String) (props : List (String × JSValue)) : String :=
  match getKey name props with
  | some (.str s) => s
  | _ => ""

/-- The loop `while (retry)` of `solveProblem` that asks the gateway for the
initial state, with `turns` turns at most.  The gateway call stands outside the
inner `try`; a payload that does not decode, or decodes to `null` (on which
`initialState.code = {}` throws), is asked for again.  Only a decoded object is
covered: it becomes the state, its `code` a new empty object. -/
def generateInitialState (env : Env) : Nat → World → Outcome ProjectState
  | 0, _ => .stuck
  | turns + 1, w =>
    match env.gateway w.calls .initialState with
    | .error message => .thrown message { w with calls := w.calls + 1 }
    | .ok text =>
      match env.parse (extractJsonFromText text) with
      | none =>
        generateInitialState env turns { w with
          calls := w.calls + 1,
          events := w.events ++ [.thinking (extractThinkingFromText text)] }
      | some .null =>
        generateInitialState env turns { w with
          calls := w.calls + 1,
          events := w.events ++ [.thinking (extractThinkingFromText text)] }
      | some (.obj props) =>
        .ok { problemStatement := textProp "problemStatement" props,
              projectType := textProp "projectType" props,
              code := some (.ref w.objs.length),
              error := none }
          { w with
            calls := w.calls + 1,
            events := w.events ++ [.thinking (extractThinkingFromText text)],
            objs := w.objs ++ [[]] }
      | some _ => .stuck

/-- The controller of a job: `new MCTS(1.4, 1, savePath)`. -/
def jobController : Controller := { explorationFactor := .fin (7 / 5), saveInterval := 1 }

/-- The number of iterations of a job (the `10` of `solveProblem`). -/
def jobIterations : Nat := 10

/-- The `catch` blocks of `solveProblem`: the event `error`, and no result. -/
def jobFailed (w : World) : Outcome (Option ProjectState) :=
  .ok none { w with
    events := w.events ++ [.error "An error occurred while solving the problem."] }

/-- The search of a job: a new controller (no best node, best score
`-Infinity`), and `mcts.search(currentIteration, initialState, 10, ...)`; an
exception ends the job in the `catch`. -/
def jobSearch (env : Env) (fuel : Nat) (currentIteration : Nat) (initialState : ProjectState)
    (w : World) : Outcome (Option ProjectState) :=
  match search env fuel jobController currentIteration initialState jobIterations
      { w with bestNode := none, bestScore := .ninf } with
  | .stuck => .stuck
  | .thrown _ w1 => jobFailed w1
  | .ok finalState w1 => .ok (some finalState) w1

/-- The `state` of the root of a saved tree (`stateData.rootNode.state`). -/
def SavedNode.rootState : SavedNode → SavedState
  | .mk st _ _ _ => st

/-- `solveProblem(problemStatement, projectType, io, projectId)` up to the
return of `mcts.search`: the first two events; then, when the checkpoint file
exists, `initialState = stateData.rootNode.state` and
`currentIteration = stateData.iteration` from the decoded file (the decoding
is not guarded), else the initial state from the gateway and iteration `0`;
then the search.  The value is the final state, `none` when the job ended in a
`catch` with the event `error`. -/
def solveProblem (env : Env) (fuel : Nat) (w : World) : Outcome (Option ProjectState) :=
  match w.saved with
  | .malformed =>
    jobFailed { w with events := w.events ++
      [.phase "Analyzing problem statement...", .progress (.fin 0)] }
  | .saved cp =>
    jobSearch env fuel cp.iteration
      (loadStateValue w.objs (SavedNode.rootState cp.rootNode)).2
      { w with
        events := w.events ++ [.phase "Analyzing problem statement...", .progress (.fin 0)],
        objs := (loadStateValue w.objs (SavedNode.rootState cp.rootNode)).1 }
  | .absent =>
    match generateInitialState env fuel { w with events := w.events ++
        [.phase "Analyzing problem statement...", .progress (.fin 0)] } with
    | .stuck => .stuck
    | .thrown _ w1 => jobFailed w1
    | .ok initialState w1 =>
      jobSearch env fuel 0 initialState { w1 with
        events := w1.events ++ [.phase "Initial state generated successfully."] }

/-- The first three steps of a turn of the loop of `search`: selection,
expansion and simulation.  The value is the selected leaf with the score of
the simulation. -/
def simulated (env : Env) (fuel : Nat) (ctl : Controller) (root : NodeRef)
    (numIterations i : Nat) (w : World) : Outcome (NodeRef × JSNum) :=
  match select env.math ctl.explorationFactor w.nodes fuel root with
  | none => .stuck
  | some (.error message) =>
    .thrown message { w with events := w.events ++
      [.iteration (i + 1) numIterations,
       .progress (JSNum.mul (JSNum.div (JSNum.ofNat i) (JSNum.ofNat numIterations))
         (JSNum.ofNat 100))] }
  | some (.ok node) =>
    match expand env fuel node { w with events := w.events ++
        [.iteration (i + 1) numIterations,
         .progress (JSNum.mul (JSNum.div (JSNum.ofNat i) (JSNum.ofNat numIterations))
           (JSNum.ofNat 100))] } with
    | .stuck => .stuck
    | .thrown message w1 => .thrown message w1
    | .ok _ w1 =>
      match simulate env fuel node w1 with
      | .stuck => .stuck
      | .thrown message w2 => .thrown message w2
      | .ok score w2 => .ok (node, score) w2

/-- The scores of the simulations of the iterations `is`, run one after the
other (up to the first iteration that does not return). -/
def simulationScores (env : Env) (fuel : Nat) (ctl : Controller) (root : NodeRef)
    (numIterations : Nat) : List Nat → World → List JSNum
  | [], _ => []
  | i :: rest, w =>
    match simulated env fuel ctl root numIterations i w,
      iteration env fuel ctl root numIterations i w with
    | .ok (_, score) _, .ok _ w1 =>
      score :: simulationScores env fuel ctl root numIterations rest w1
    | _, _ => []

/-- The sum of the `visits` of the nodes `cs`. -/
def visitsSum {σ : Type} (h : NodeStore σ) : List NodeRef → Nat
  | [] => 0
  | c :: cs =>
    (match h[c]? with
      | some m => m.visits
      | none => 0) + visitsSum h cs

/-- The nodes stored from `root` on form a tree under `root`: the root has no
parent; no node lists a child twice; every child is stored after the node that
lists it and has that node as its `parent`; every node but the root has a
parent, stored before it and not before the root. -/
def treeShape {σ : Type} (h : NodeStore σ) (root : NodeRef) : Prop :=
  (∃ r, h[root]? = some r ∧ r.parent = none) ∧
  ∀ (a : Nat) (n : Node σ), root ≤ a → h[a]? = some n →
    n.children.Nodup ∧
    (∀ c ∈ n.children, a < c ∧ ∃ m, h[c]? = some m ∧ m.parent = some a) ∧
    (a ≠ root → ∃ p, n.parent = some p ∧ root ≤ p ∧ p < a)

/-- The visit counts of the nodes stored from `root` on: a node has at least
as many visits as its children together, and at least one when it has a child. -/
def visitsInv {σ : Type} (h : NodeStore σ) (root : NodeRef) : Prop :=
  ∀ (a : Nat) (n : Node σ), root ≤ a → h[a]? = some n →
    visitsSum h n.children ≤ n.visits ∧ (n.children ≠ [] → 1 ≤ n.visits)

mutual
/-- The number of nodes on the longest path from the root of a tree down to a
leaf, less one. -/
def treeDepth {σ : Type} : SerializedNode σ → Nat
  | .mk _ _ _ cs => forestDepth cs
/-- One more than the depth of the deepest of the trees, `0` for no tree. -/
def forestDepth {σ : Type} : List (SerializedNode σ) → Nat
  | [] => 0
  | t :: ts => max (treeDepth t + 1) (forestDepth ts)
end

mutual
/-- Every node of the tree has a finite score, and at least one visit when it
has a child. -/
def searchable {σ : Type} : SerializedNode σ → Prop
  | .mk _ v sc cs => (∃ q : ℚ, sc = .fin q) ∧ (cs ≠ [] → 1 ≤ v) ∧ searchableAll cs
/-- Every tree of the list is `searchable`. -/
def searchableAll {σ : Type} : List (SerializedNode σ) → Prop
  | [] => True
  | t :: ts => searchable t ∧ searchableAll ts
end

/-- The node `c` is listed among the children of the node `a`. -/
def childOf {σ : Type} (h : NodeStore σ) (a c : NodeRef) : Prop :=
  ∃ n, h[a]? = some n ∧ c ∈ n.children

mutual
/-- The nodes reached from `a` along `children` form the finite tree `t`: the
node at `a` has the `state`, `visits` and `score` of the root of `t`, and its
children are, one for one and in order, the roots of the subtrees of `t`.
Nothing is asked of the `parent` fields. -/
def depicts {σ : Type} (h : NodeStore σ) : NodeRef → SerializedNode σ → Prop
  | a, .mk st v sc cs =>
    ∃ n, h[a]? = some n ∧ n.state = st ∧ n.visits = v ∧ n.score = sc ∧
      depictsChildren h n.children cs
/-- The nodes `refs` are the roots of the trees `ts`, one for one and in order. -/
def depictsChildren {σ : Type} (h : NodeStore σ) :
    List NodeRef → List (SerializedNode σ) → Prop
  | [], [] => True
  | c :: refs, t :: ts => depicts h c t ∧ depictsChildren h refs ts
  | [], _ :: _ => False
  | _ :: _, [] => False
end

/-- The state `st` of a node is the saved state `sv` read into the store: the
same texts, and as file map a value that holds the saved file map in objects
of the store (no file map where none was saved). -/
def restoredState (objs : ObjStore) (st : ProjectState) (sv : SavedState) : Prop :=
  st.problemStatement = sv.problemStatement ∧ st.projectType = sv.projectType ∧
  st.error = sv.error ∧
  match st.code, sv.code with
  | none, none => True
  | some v, some fv => holds objs 0 objs.length v fv
  | _, _ => False

mutual
/-- The tree `t` is the saved tree `s` read into the store, node for node:
the saved state, the saved visit count, the saved score (`0` for a saved
`null`), and the saved children, one for one and in order. -/
def restored (objs : ObjStore) : SerializedNode ProjectState → SavedNode → Prop
  | .mk st v sc cs, .mk sv sv_visits sv_score sv_children =>
    restoredState objs st sv ∧ v = sv_visits ∧ sc = JSNum.ofJSON sv_score ∧
      restoredAll objs cs sv_children
/-- The trees `ts` are the saved trees `ss`, one for one and in order. -/
def restoredAll (objs : ObjStore) : List (SerializedNode ProjectState) → List SavedNode → Prop
  | [], [] => True
  | t :: ts, s :: ss => restored objs t s ∧ restoredAll objs ts ss
  | [], _ :: _ => False
  | _ :: _, [] => False
end

/-! ## The alternate implementations -/

/-- The `isTerminalState(state)` of the alternate implementations
(`taskTreeUtilsClaude.js`, `taskTreeUtilGoogle.js`, `taskTreeUtilsOAI.js`):
`state.code !== undefined`. -/
def Alt.isTerminalState (state : ProjectState) : Bool :=
  state.code.isSome

/-- The loop `for (const key in source)` of the alternate `deepMerge` over the
characters of a string `source`, from index `i` on: `target[i] = source[i]`. -/
def Alt.assignChars (target : Entries) : Nat → List Char → Entries
  | _, [] => target
  | i, c :: cs => Alt.assignChars (setKey (toString i) (.str (String.singleton c)) target) (i + 1) cs

mutual
/-- The function `deepMerge(target, source)` of the alternate implementations
(`taskTreeUtilsClaude.js`, `taskTreeUtilGoogle.js`), as the value it returns.
It has no guard on `target`: the loop over the keys of `source` assigns into
`target` and `target` is returned; on a `target` that is a string the
assignments have no effect. -/
def Alt.deepMerge : FileVal → FileVal → FileVal
  | .str t, _ => .str t
  | .obj target, .str s => .obj (Alt.assignChars target 0 s.data)
  | .obj target, .obj source => .obj (Alt.mergeEntries target source)
/-- The loop of the alternate `deepMerge`: when `source[key]` is an object (and
no array), `target[key] = deepMerge(target[key] || {}, source[key])`, otherwise
`target[key] = source[key]`. -/
def Alt.mergeEntries : Entries → Entries → Entries
  | target, [] => target
  | target, (key, value) :: rest =>
    match value with
    | .obj _ =>
      Alt.mergeEntries
        (setKey key (Alt.deepMerge (orEmpty (getKey key target)) value) target) rest
    | .str _ => Alt.mergeEntries (setKey key value target) rest
end

mutual
/-- No path holds a non-empty string in `target` and a nested mapping in
`source`. -/
def noClash : FileVal → FileVal → Bool
  | .str t, .obj _ => t = ""
  | .str _, .str _ => true
  | .obj _, .str _ => true
  | .obj target, .obj source => noClashEntries target source
/-- No key of `source` leads to such a path. -/
def noClashEntries : Entries → Entries → Bool
  | _, [] => true
  | target, (key, value) :: rest =>
    (match getKey key target with
      | none => true
      | some old => noClash old value) && noClashEntries target rest
end

/-! ## Delivery -/

/-- The object store service as `uploadProjectToS3` uses it: the outcome of
`s3.upload(...).promise()` and of `s3.getSignedUrl(...)`, an exception being
given by its message. -/
structure ObjectStore where
  upload : Except String Unit
  getSignedUrl : Except String String

/-- `uploadProjectToS3(projectId, fileStream)`: upload, then the signed URL;
an exception of either is thrown again. -/
def uploadProjectToS3 (s3 : ObjectStore) : Except String String :=
  match s3.upload with
  | .error message => .error message
  | .ok _ => s3.getSignedUrl

/-- `handleProjectGeneration(projectId, io, fileStream)`: the events it emits,
after those emitted so far.  `try` emits `project_generated` with the URL,
`catch` emits it with `error.message || 'An unknown error occurred'`, and
`finally` emits the progress `100` and the last phase. -/
def handleProjectGeneration (projectId : String) (s3 : ObjectStore) (events : List Event) :
    List Event :=
  match uploadProjectToS3 s3 with
  | .ok url =>
    events ++ [.projectGenerated projectId (some url) none,
      .progress (JSNum.ofNat 100), .phase "Project generation complete"]
  | .error message =>
    events ++ [.projectGenerated projectId none
        (some (if message = "" then "An unknown error occurred" else message)),
      .progress (JSNum.ofNat 100), .phase "Project generation complete"]

/-! ## Sample data -/

/-- A chain of three nodes: root `0`, its child `1`, its grandchild `2`. -/
def sampleTree : NodeStore String :=
  [ { state := "root", parent := none, children := [1], visits := 3, score := .fin 2 },
    { state := "mid", parent := some 0, children := [2], visits := 1, score := .fin 1 },
    { state := "leaf", parent := some 1, children := [], visits := 0, score := .fin 0 } ]

/-- What `serializeNode` returns on the root of `sampleTree`. -/
def sampleSerialized : SerializedNode String :=
  .mk "root" 3 (.fin 2) [.mk "mid" 1 (.fin 1) [.mk "leaf" 0 (.fin 0) []]]

/-- A file map: two files, one directory, and a file where the delta has a
directory. -/
def sampleFiles : Entries :=
  [ ("README.md", .str "# todo"),
    ("server/server.js", .str "old"),
    ("client", .obj [("App.js", .str "app")]),
    ("docs", .str "notes") ]

/-- A delta: overwrites a file, extends a directory, replaces a file by a
directory, adds a directory. -/
def sampleDelta : Entries :=
  [ ("server/server.js", .str "new"),
    ("client", .obj [("index.js", .str "index")]),
    ("docs", .obj [("api.md", .str "api")]),
    ("models", .obj [("User.js", .str "user")]) ]

/-- Rational stand-ins for `Math.log` and `Math.sqrt` (the bounds
`log q ≤ q - 1` and `sqrt q ≤ (q + 1) / 2`). -/
def sampleMath : MathImpl :=
  { log := fun q => q - 1, sqrt := fun q => (q + 1) / 2 }

/-- A store as a damaged checkpoint can leave it: a child with `visits = 1`
under a root with `visits = 0`. -/
def sampleOdd : NodeStore String :=
  [ { state := "root", parent := none, children := [1], visits := 0, score := .fin 0 },
    { state := "child", parent := some 0, children := [], visits := 1, score := .fin 1 } ]

/-- A store whose object `0` is the file map of a node. -/
def sampleStore : ObjStore := [[("server/server.js", .str "old")]]

/-- The state of that node. -/
def sampleState : ProjectState :=
  { problemStatement := "todo list app", projectType := "web", code := some (.ref 0),
    error := none }

/-- A gateway whose first reply decodes to a delta of two files. -/
def sampleAttempts : Nat → Attempt :=
  fun _ => .decoded [("server/server.js", .str "new"), ("README.md", .str "# todo")]

/-- `JSON.parse` on the payloads of the sample replies (on each of them it
gives what the host's `JSON.parse` gives). -/
def sampleParse (t : Text) : Option JSValue :=
  if t = "{}".toList then some (.obj [])
  else if t = "[\"create server/server.js\"]".toList then
    some (.arr [.str "create server/server.js"])
  else if t = "\x7b\"code\": \x7b\"server/server.js\": \"...\"\x7d\x7d".toList then
    some (.obj [("code", .obj [("server/server.js", .str "...")])])
  else if t = "\x7b\"isTerminal\": true\x7d".toList then some (.obj [("isTerminal", .bool true)])
  else if t = "\"no\"".toList then some (.str "no")
  else none

/-- An environment around a gateway, with `sampleParse`, a `cleanJsonString`
that changes nothing, the first index as every random choice, and `sampleMath`. -/
def sampleEnv (gateway : Nat → Request → Except String Text) : Env :=
  { gateway := gateway, parse := sampleParse, clean := fun t => t,
    random := fun _ _ => 0, math := sampleMath }

/-- A world at the start of a job: one file-map object `{}`, no node, no
gateway call made, no checkpoint. -/
def sampleWorld : World :=
  { nodes := [], objs := [[]], calls := 0, draws := 0, events := [],
    bestNode := none, bestScore := .ninf, saved := .absent }

/-- A gateway that answers every request with a refusal without any tag. -/
def refusingGateway : Nat → Request → Except String Text :=
  fun _ _ => .ok "I cannot help with that.".toList

/-- A gateway that answers every request with a `<json>` block that is no JSON. -/
def garbageGateway : Nat → Request → Except String Text :=
  fun _ _ => .ok "<thinking>hm</thinking><json>not json at all</json>".toList

/-- A gateway that raises on every call. -/
def failingGateway : Nat → Request → Except String Text :=
  fun _ _ => .error "503 Service Unavailable"

/-- A gateway that raises on its first two calls and then answers with a delta
of one file. -/
def recoveringGateway : Nat → Request → Except String Text :=
  fun n _ =>
    if n < 2 then .error "timeout"
    else .ok "<json>\x7b\"code\": \x7b\"server/server.js\": \"...\"\x7d\x7d</json>".toList

/-- A gateway that scores every state `7`. -/
def generousGateway : Nat → Request → Except String Text :=
  fun _ _ => .ok "<thinking>superb</thinking><json>7</json>".toList

/-- A gateway that scores every state `0.9`. -/
def fairGateway : Nat → Request → Except String Text :=
  fun _ _ => .ok "<thinking>good</thinking><json>0.9</json>".toList

/-- A gateway for one full iteration: it proposes the one action
`create server/server.js`, answers the apply request with the delta
`{"server/server.js": "..."}`, judges every state terminal and scores it `0.9`. -/
def helpfulGateway : Nat → Request → Except String Text
  | _, .initialState => .ok "<json>\x7b\x7d</json>".toList
  | _, .propose =>
    .ok "<thinking>one file</thinking><json>[\"create server/server.js\"]</json>".toList
  | _, .apply _ =>
    .ok "<json>\x7b\"code\": \x7b\"server/server.js\": \"...\"\x7d\x7d</json>".toList
  | _, .terminal => .ok "<json>\x7b\"isTerminal\": true\x7d</json>".toList
  | _, .evaluate => .ok "<thinking>good</thinking><json>0.9</json>".toList

/-- A state whose file map is the (empty) object `0` of `sampleWorld`. -/
def freshState : ProjectState :=
  { problemStatement := "todo list app", projectType := "web", code := some (.ref 0),
    error := none }

/-- A saved state with one file. -/
def savedSample : SavedState :=
  { problemStatement := "todo list app", projectType := "web",
    code := some (.obj [("server/server.js", .str "...")]), error := none }

/-- A checkpoint written after iteration 5: a root visited 5 times with one
child, best score `0.7`. -/
def sampleCheckpoint : Checkpoint :=
  { rootNode := .mk savedSample 5 (some (7 / 2)) [.mk savedSample 4 (some (14 / 5)) []],
    bestNode := some (.mk savedSample 5 (some (7 / 2)) [.mk savedSample 4 (some (14 / 5)) []]),
    bestScore := some (7 / 10),
    iteration := 5 }

/-- The world of a job that finds `sampleCheckpoint` on disk. -/
def resumedWorld : World :=
  { nodes := [], objs := [], calls := 0, draws := 0, events := [],
    bestNode := none, bestScore := .ninf, saved := .saved sampleCheckpoint }

/-- The world of a job that finds a checkpoint file that is no JSON. -/
def brokenWorld : World :=
  { nodes := [], objs := [], calls := 0, draws := 0, events := [],
    bestNode := none, bestScore := .ninf, saved := .malformed }

/-- `sampleParse`, and the payload `{"isTerminal": "false"}` decoded. -/
def stringlyParse (t : Text) : Option JSValue :=
  if t = "\x7b\"isTerminal\": \"false\"\x7d".toList then
    some (.obj [("isTerminal", .str "false")])
  else sampleParse t

/-- An environment whose gateway gives the string `"false"` as its terminal
verdict. -/
def stringlyEnv : Env :=
  { gateway := fun _ _ => .ok "<json>\x7b\"isTerminal\": \"false\"\x7d</json>".toList,
    parse := stringlyParse, clean := fun t => t, random := fun _ _ => 0, math := sampleMath }

/-- The world of a search that has made its root: the node `0` holds
`freshState`, whose file map is the object `0`. -/
def rootedWorld : World :=
  { nodes := [Node.new freshState none], objs := [[]], calls := 0, draws := 0, events := [],
    bestNode := none, bestScore := .ninf, saved := .absent }

/-- A tree of four nodes with a branching root: the root `0` has the children
`1` and `2`, the node `1` has the child `3`; the visit counts are mixed. -/
def sampleBushy : NodeStore String :=
  [ { state := "root", parent := none, children := [1, 2], visits := 4, score := .fin 3 },
    { state := "left", parent := some 0, children := [3], visits := 2, score := .fin 1 },
    { state := "right", parent := some 0, children := [], visits := 1, score := .fin (1 / 2) },
    { state := "below", parent := some 1, children := [], visits := 0, score := .fin 0 } ]

/-- The tree of `sampleBushy`, as a plain value. -/
def sampleBushySerialized : SerializedNode String :=
  .mk "root" 4 (.fin 3)
    [.mk "left" 2 (.fin 1) [.mk "below" 0 (.fin 0) []], .mk "right" 1 (.fin (1 / 2)) []]

/-! # Theorems -/

/-! ## Backpropagation -/

theorem parentChain_cons {σ : Type} (fuel : Nat) (h : NodeStore σ) (a : Nat)
    (l : List Nat) (hc : parentChain fuel h a = some l) : ∃ t, l = a :: t := by
  cases fuel with
  | zero => simp [parentChain] at hc
  | succ f =>
    simp only [parentChain] at hc
    cases hn : h[a]? with
    | none => simp [hn] at hc
    | some n =>
      simp only [hn] at hc
      cases hp : n.parent with
      | none => simp only [hp] at hc; exact ⟨[], by simpa using hc.symm⟩
      | some p =>
        simp only [hp] at hc
        cases hq : parentChain f h p with
        | none => simp [hq] at hc
        | some l' => simp [hq] at hc; exact ⟨l', hc.symm⟩

theorem parentChain_length_le {σ : Type} (fuel : Nat) (h : NodeStore σ) (a : Nat)
    (l : List Nat) (hc : parentChain fuel h a = some l) : l.length ≤ fuel := by
  induction fuel generalizing a l with
  | zero => simp [parentChain] at hc
  | succ f ih =>
    simp only [parentChain] at hc
    cases hn : h[a]? with
    | none => simp [hn] at hc
    | some n =>
      simp only [hn] at hc
      cases hp : n.parent with
      | none => simp only [hp] at hc; cases hc; simp
      | some p =>
        simp only [hp] at hc
        cases hq : parentChain f h p with
        | none => simp [hq] at hc
        | some l' =>
          simp [hq] at hc; subst hc
          have := ih p l' hq
          simp; omega

theorem parentChain_fuel {σ : Type} (fuel : Nat) (h : NodeStore σ) (a : Nat)
    (l : List Nat) (hc : parentChain fuel h a = some l) (fuel' : Nat)
    (hf : l.length ≤ fuel') : parentChain fuel' h a = some l := by
  induction fuel generalizing a l fuel' with
  | zero => simp [parentChain] at hc
  | succ f ih =>
    cases fuel' with
    | zero =>
      obtain ⟨t, rfl⟩ := parentChain_cons _ h a l hc
      simp at hf
    | succ f' =>
      simp only [parentChain] at hc ⊢
      cases hn : h[a]? with
      | none => simp [hn] at hc
      | some n =>
        simp only [hn] at hc ⊢
        cases hp : n.parent with
        | none => simp only [hp] at hc ⊢; exact hc
        | some p =>
          simp only [hp] at hc ⊢
          cases hq : parentChain f h p with
          | none => simp [hq] at hc
          | some l' =>
            simp [hq] at hc; subst hc
            simp at hf
            simp [ih p l' hq f' (by omega)]

/-- The chain from a node is the same whatever fuel finds it. -/
theorem parentChain_unique {σ : Type} (f f' : Nat) (h : NodeStore σ) (a : Nat)
    (l l' : List Nat) (hc : parentChain f h a = some l)
    (hc' : parentChain f' h a = some l') : l = l' := by
  have h1 := parentChain_fuel f h a l hc (max l.length l'.length) (le_max_left _ _)
  have h2 := parentChain_fuel f' h a l' hc' (max l.length l'.length) (le_max_right _ _)
  rw [h1] at h2
  exact Option.some.inj h2

/-- Every node of a chain has its own chain, which is no longer. -/
theorem parentChain_mem {σ : Type} (fuel : Nat) (h : NodeStore σ) (a : Nat)
    (l : List Nat) (hc : parentChain fuel h a = some l) (b : Nat) (hb : b ∈ l) :
    ∃ lb, parentChain fuel h b = some lb ∧ lb.length ≤ l.length := by
  induction fuel generalizing a l with
  | zero => simp [parentChain] at hc
  | succ f ih =>
    have hc0 := hc
    simp only [parentChain] at hc
    cases hn : h[a]? with
    | none => simp [hn] at hc
    | some n =>
      simp only [hn] at hc
      cases hp : n.parent with
      | none =>
        simp only [hp] at hc
        cases hc
        simp at hb
        subst hb
        exact ⟨[b], hc0, le_refl _⟩
      | some p =>
        simp only [hp] at hc
        cases hq : parentChain f h p with
        | none => simp [hq] at hc
        | some l' =>
          simp [hq] at hc; subst hc
          rcases List.mem_cons.mp hb with rfl | hb'
          · exact ⟨_, hc0, le_refl _⟩
          · obtain ⟨lb, h1, h2⟩ := ih p l' hq hb'
            have hle := parentChain_length_le f h b lb h1
            exact ⟨lb, parentChain_fuel f h b lb h1 (f + 1) (by omega), by simp; omega⟩

/-- The chain only reads the `parent` fields. -/
theorem parentChain_congr {σ : Type} (h h' : NodeStore σ)
    (hp : ∀ b : Nat, (h'[b]?).map Node.parent = (h[b]?).map Node.parent) (fuel : Nat) (a : Nat) :
    parentChain fuel h' a = parentChain fuel h a := by
  induction fuel generalizing a with
  | zero => rfl
  | succ f ih =>
    simp only [parentChain]
    have hpa := hp a
    cases hn : h[a]? with
    | none =>
      cases hn' : h'[a]? with
      | none => rfl
      | some n' => simp [hn, hn'] at hpa
    | some n =>
      cases hn' : h'[a]? with
      | none => simp [hn, hn'] at hpa
      | some n' =>
        simp only [hn, hn', Option.map_some', Option.some.injEq] at hpa
        simp only [hpa]
        cases n.parent with
        | none => rfl
        | some p => simp only [ih p]

/-- A chain never passes twice through its first node: the parent links of a
node that reaches a root form no cycle. -/
theorem parentChain_acyclic {σ : Type} (fuel : Nat) (h : NodeStore σ) (a : Nat)
    (t : List Nat) (hc : parentChain fuel h a = some (a :: t)) : a ∉ t := by
  intro hat
  cases fuel with
  | zero => simp [parentChain] at hc
  | succ f =>
    have hc0 := hc
    simp only [parentChain] at hc
    cases hn : h[a]? with
    | none => simp [hn] at hc
    | some n =>
      simp only [hn] at hc
      cases hp : n.parent with
      | none => simp only [hp] at hc; cases hc; simp at hat
      | some p =>
        simp only [hp] at hc
        cases hq : parentChain f h p with
        | none => simp [hq] at hc
        | some l' =>
          simp [hq] at hc; subst hc
          obtain ⟨la, h1, h2⟩ := parentChain_mem f h p l' hq a hat
          have := parentChain_unique _ _ h a _ _ hc0 h1
          subst this
          simp at h2

/-- The nodes of a chain are pairwise distinct. -/
theorem parentChain_nodup {σ : Type} (fuel : Nat) (h : NodeStore σ) (a : Nat)
    (l : List Nat) (hc : parentChain fuel h a = some l) : l.Nodup := by
  induction fuel generalizing a l with
  | zero => simp [parentChain] at hc
  | succ f ih =>
    have hc0 := hc
    simp only [parentChain] at hc
    cases hn : h[a]? with
    | none => simp [hn] at hc
    | some n =>
      simp only [hn] at hc
      cases hp : n.parent with
      | none => simp only [hp] at hc; cases hc; simp
      | some p =>
        simp only [hp] at hc
        cases hq : parentChain f h p with
        | none => simp [hq] at hc
        | some l' =>
          simp [hq] at hc; subst hc
          exact List.nodup_cons.mpr ⟨parentChain_acyclic _ h a l' hc0, ih p l' hq⟩

theorem backpropagate_chain {σ : Type} (fuel : Nat) (h : NodeStore σ) (a : Nat)
    (x : JSNum) (l : List Nat) (hc : parentChain fuel h a = some l) :
    ∃ h', backpropagate fuel h a x = some h' ∧
      (∀ b, b ∈ l → ∃ n, h[b]? = some n ∧ h'[b]? = some (n.bump x)) ∧
      (∀ b, b ∉ l → h'[b]? = h[b]?) := by
  induction fuel generalizing h a l with
  | zero => simp [parentChain] at hc
  | succ f ih =>
    have hc0 := hc
    simp only [parentChain] at hc
    simp only [backpropagate]
    cases hn : h[a]? with
    | none => simp [hn] at hc
    | some n =>
      have hlt : a < h.length := by
        rcases List.getElem?_eq_some.mp hn with ⟨hlt, _⟩
        exact hlt
      rcases n with ⟨st, par, ch, v, sc⟩
      simp only [hn] at hc ⊢
      cases par with
      | none =>
        simp only at hc ⊢
        cases hc
        refine ⟨_, rfl, ?_, ?_⟩
        · intro b hb
          simp at hb
          subst hb
          exact ⟨_, hn, by simp [List.getElem?_set, hlt]⟩
        · intro b hb
          simp at hb
          rw [List.getElem?_set_ne (Ne.symm hb)]
      | some p =>
        simp only at hc ⊢
        cases hq : parentChain f h p with
        | none => simp [hq] at hc
        | some l' =>
          simp [hq] at hc; subst hc
          have hat : a ∉ l' := parentChain_acyclic _ h a l' hc0
          have hq' : parentChain f
              (h.set a (Node.bump ⟨st, some p, ch, v, sc⟩ x)) p = some l' := by
            rw [← hq]
            apply parentChain_congr
            intro b
            by_cases hab : a = b
            · subst hab; simp [List.getElem?_set, hlt, hn]
            · rw [List.getElem?_set_ne hab]
          obtain ⟨h', hb1, hb2, hb3⟩ := ih _ p l' hq'
          refine ⟨h', hb1, ?_, ?_⟩
          · intro b hb
            rcases List.mem_cons.mp hb with rfl | hb'
            · refine ⟨_, hn, ?_⟩
              rw [hb3 b hat]
              simp [List.getElem?_set, hlt]
            · obtain ⟨m, hm1, hm2⟩ := hb2 b hb'
              have hab : a ≠ b := fun e => hat (e ▸ hb')
              rw [List.getElem?_set_ne hab] at hm1
              exact ⟨m, hm1, hm2⟩
          · intro b hb
            simp at hb
            rw [hb3 b hb.2, List.getElem?_set_ne (Ne.symm hb.1)]

/-- C1. `backpropagate(x)` called on a node at depth `d` (its parent chain `l`
has `d + 1` nodes: the node, then its `d` ancestors up to the root) terminates
with any recursion budget of at least `d + 1` calls; the `d + 1` nodes of the
chain are pairwise distinct, each of them ends with `visits` one higher and
`score` increased by `x` (JavaScript `+`) and its other fields unchanged, and
no other node of the tree is touched. -/
theorem backpropagate_conservation {σ : Type} (h : NodeStore σ) (a : Nat) (x : JSNum)
    (d fuel : Nat) (l : List Nat)
    (hchain : parentChain fuel h a = some l) (hdepth : l.length = d + 1)
    (budget : Nat) (hbudget : d + 1 ≤ budget) :
    ∃ h', backpropagate budget h a x = some h' ∧
      l.head? = some a ∧ l.Nodup ∧
      (∀ b, b ∈ l → ∃ n n', h[b]? = some n ∧ h'[b]? = some n' ∧
        n'.visits = n.visits + 1 ∧ n'.score = JSNum.add n.score x ∧
        n'.state = n.state ∧ n'.parent = n.parent ∧ n'.children = n.children) ∧
      (∀ b, b ∉ l → h'[b]? = h[b]?) := by
  have hc := parentChain_fuel fuel h a l hchain budget (by omega)
  obtain ⟨h', h1, h2, h3⟩ := backpropagate_chain budget h a x l hc
  refine ⟨h', h1, ?_, ?_, ?_, h3⟩
  · obtain ⟨t, rfl⟩ := parentChain_cons _ h a l hchain
    rfl
  · exact parentChain_nodup fuel h a l hchain
  · intro b hb
    obtain ⟨n, hn, hn'⟩ := h2 b hb
    exact ⟨n, n.bump x, hn, hn', rfl, rfl, rfl, rfl, rfl⟩

/-- C1 at a leaf of depth 2 of `sampleTree`. -/
theorem backpropagate_conservation_witness :
    ∃ h', backpropagate 3 sampleTree 2 (.fin 1) = some h' ∧
      [2, 1, 0].head? = some 2 ∧ [2, 1, 0].Nodup ∧
      (∀ b, b ∈ [2, 1, 0] → ∃ n n', sampleTree[b]? = some n ∧ h'[b]? = some n' ∧
        n'.visits = n.visits + 1 ∧ n'.score = JSNum.add n.score (.fin 1) ∧
        n'.state = n.state ∧ n'.parent = n.parent ∧ n'.children = n.children) ∧
      (∀ b, b ∉ [2, 1, 0] → h'[b]? = sampleTree[b]?) :=
  backpropagate_conservation sampleTree 2 (.fin 1) 2 3 [2, 1, 0] (by decide) (by decide) 3
    (by decide)

/-! ## Checkpoint round trip -/

mutual
theorem builtIn_frame {σ : Type} (h h' : NodeStore σ) (lo hi : Nat)
    (hag : ∀ b : Nat, lo ≤ b → b < hi → h'[b]? = h[b]?) :
    ∀ (t : SerializedNode σ) (c : Nat), lo ≤ c → c < hi →
      builtIn h lo hi c t → builtIn h' lo hi c t
  | .mk st v sc cs, c, h1, h2, hb => by
    simp only [builtIn] at hb ⊢
    obtain ⟨n, hn, e1, e2, e3, hch⟩ := hb
    exact ⟨n, by rw [hag c h1 h2]; exact hn, e1, e2, e3,
      builtChildrenIn_frame h h' lo hi hag cs c n.children hch⟩
theorem builtChildrenIn_frame {σ : Type} (h h' : NodeStore σ) (lo hi : Nat)
    (hag : ∀ b : Nat, lo ≤ b → b < hi → h'[b]? = h[b]?) :
    ∀ (ts : List (SerializedNode σ)) (node : Nat) (refs : List Nat),
      builtChildrenIn h lo hi node refs ts → builtChildrenIn h' lo hi node refs ts
  | [], _, [], _ => by simp only [builtChildrenIn]
  | [], _, _ :: _, hb => by simp only [builtChildrenIn] at hb
  | _ :: _, _, [], hb => by simp only [builtChildrenIn] at hb
  | t :: ts, node, c :: refs, hb => by
    simp only [builtChildrenIn] at hb ⊢
    obtain ⟨h1, h2, ⟨m, hm, hp⟩, hc, hr⟩ := hb
    exact ⟨h1, h2, ⟨m, by rw [hag c h1 h2]; exact hm, hp⟩,
      builtIn_frame h h' lo hi hag t c h1 h2 hc,
      builtChildrenIn_frame h h' lo hi hag ts node refs hr⟩
end

mutual
theorem builtIn_mono {σ : Type} (h : NodeStore σ) (lo hi lo' hi' : Nat)
    (hlo : lo' ≤ lo) (hhi : hi ≤ hi') :
    ∀ (t : SerializedNode σ) (c : Nat), builtIn h lo hi c t → builtIn h lo' hi' c t
  | .mk st v sc cs, c, hb => by
    simp only [builtIn] at hb ⊢
    obtain ⟨n, hn, e1, e2, e3, hch⟩ := hb
    exact ⟨n, hn, e1, e2, e3, builtChildrenIn_mono h lo hi lo' hi' hlo hhi cs c n.children hch⟩
theorem builtChildrenIn_mono {σ : Type} (h : NodeStore σ) (lo hi lo' hi' : Nat)
    (hlo : lo' ≤ lo) (hhi : hi ≤ hi') :
    ∀ (ts : List (SerializedNode σ)) (node : Nat) (refs : List Nat),
      builtChildrenIn h lo hi node refs ts → builtChildrenIn h lo' hi' node refs ts
  | [], _, [], _ => by simp only [builtChildrenIn]
  | [], _, _ :: _, hb => by simp only [builtChildrenIn] at hb
  | _ :: _, _, [], hb => by simp only [builtChildrenIn] at hb
  | t :: ts, node, c :: refs, hb => by
    simp only [builtChildrenIn] at hb ⊢
    obtain ⟨h1, h2, hm, hc, hr⟩ := hb
    exact ⟨le_trans hlo h1, lt_of_lt_of_le h2 hhi, hm,
      builtIn_mono h lo hi lo' hi' hlo hhi t c hc,
      builtChildrenIn_mono h lo hi lo' hi' hlo hhi ts node refs hr⟩
end

mutual
theorem builtIn_represents {σ : Type} (h : NodeStore σ) (lo hi : Nat) :
    ∀ (t : SerializedNode σ) (c : Nat), builtIn h lo hi c t → represents h c t
  | .mk st v sc cs, c, hb => by
    simp only [builtIn] at hb
    simp only [represents]
    obtain ⟨n, hn, e1, e2, e3, hch⟩ := hb
    exact ⟨n, hn, e1, e2, e3, builtChildrenIn_represents h lo hi cs c n.children hch⟩
theorem builtChildrenIn_represents {σ : Type} (h : NodeStore σ) (lo hi : Nat) :
    ∀ (ts : List (SerializedNode σ)) (node : Nat) (refs : List Nat),
      builtChildrenIn h lo hi node refs ts → representsChildren h node refs ts
  | [], _, [], _ => by simp only [representsChildren]
  | [], _, _ :: _, hb => by simp only [builtChildrenIn] at hb
  | _ :: _, _, [], hb => by simp only [builtChildrenIn] at hb
  | t :: ts, node, c :: refs, hb => by
    simp only [builtChildrenIn] at hb
    simp only [representsChildren]
    obtain ⟨_, _, hm, hc, hr⟩ := hb
    exact ⟨hm, builtIn_represents h lo hi t c hc,
      builtChildrenIn_represents h lo hi ts node refs hr⟩
end

/-- The root of a built tree may change its `parent` (or anything outside
`[lo, hi)`) without the tree below it changing. -/
theorem builtIn_root_frame {σ : Type} (h h' : NodeStore σ) (lo hi : Nat)
    (hag : ∀ b : Nat, lo ≤ b → b < hi → h'[b]? = h[b]?)
    (st : σ) (v : Nat) (sc : JSNum) (cs : List (SerializedNode σ)) (a : Nat)
    (hb : builtIn h lo hi a (.mk st v sc cs))
    (hroot : ∀ n, h[a]? = some n → ∃ n', h'[a]? = some n' ∧ n'.state = n.state ∧
      n'.visits = n.visits ∧ n'.score = n.score ∧ n'.children = n.children) :
    builtIn h' lo hi a (.mk st v sc cs) := by
  simp only [builtIn] at hb ⊢
  obtain ⟨n, hn, e1, e2, e3, hch⟩ := hb
  obtain ⟨n', hn', f1, f2, f3, f4⟩ := hroot n hn
  refine ⟨n', hn', f1.trans e1, f2.trans e2, f3.trans e3, ?_⟩
  rw [f4]
  exact builtChildrenIn_frame h h' lo hi hag cs a n.children hch

theorem updateNode_length {σ : Type} (h : NodeStore σ) (a : Nat) (f : Node σ → Node σ) :
    (updateNode h a f).length = h.length := by
  unfold updateNode
  split <;> simp

theorem updateNode_get_ne {σ : Type} (h : NodeStore σ) (a b : Nat) (f : Node σ → Node σ)
    (hab : a ≠ b) : (updateNode h a f)[b]? = h[b]? := by
  unfold updateNode
  split
  · rfl
  · exact List.getElem?_set_ne hab

theorem updateNode_get_self {σ : Type} (h : NodeStore σ) (a : Nat) (f : Node σ → Node σ)
    (n : Node σ) (hn : h[a]? = some n) : (updateNode h a f)[a]? = some (f n) := by
  unfold updateNode
  rw [hn]
  have hlt : a < h.length := (List.getElem?_eq_some.mp hn).1
  simp [List.getElem?_set, hlt]

theorem deserializeNode_eq {σ : Type} (empty : σ) (h : NodeStore σ) (a : Nat)
    (st : σ) (v : Nat) (sc : JSNum) (cs : List (SerializedNode σ)) :
    deserializeNode empty h a (.mk st v sc cs) =
      updateNode (deserializeChildren empty
        (updateNode h a (fun n => { n with state := st, visits := v, score := sc })) a cs).1 a
        (fun n => { n with children := (deserializeChildren empty
        (updateNode h a (fun n => { n with state := st, visits := v, score := sc })) a cs).2 }) := by
  simp only [deserializeNode]

theorem deserializeChildren_cons {σ : Type} (empty : σ) (h : NodeStore σ) (node : Nat)
    (c : SerializedNode σ) (rest : List (SerializedNode σ)) :
    deserializeChildren empty h node (c :: rest) =
      ((deserializeChildren empty (updateNode (deserializeNode empty (h ++ [Node.new empty none])
          h.length c) h.length (fun n => { n with parent := some node })) node rest).1,
        h.length :: (deserializeChildren empty (updateNode (deserializeNode empty
          (h ++ [Node.new empty none]) h.length c) h.length
          (fun n => { n with parent := some node })) node rest).2) := by
  simp only [deserializeChildren]

mutual
theorem deserializeNode_spec {σ : Type} (empty : σ) :
    ∀ (s : SerializedNode σ) (h : NodeStore σ) (a : Nat) (n0 : Node σ), h[a]? = some n0 →
      h.length ≤ (deserializeNode empty h a s).length ∧
      (∀ b : Nat, b < h.length → b ≠ a → (deserializeNode empty h a s)[b]? = h[b]?) ∧
      (∃ n', (deserializeNode empty h a s)[a]? = some n' ∧ n'.parent = n0.parent) ∧
      builtIn (deserializeNode empty h a s) h.length (deserializeNode empty h a s).length a s
  | .mk st v sc cs, h, a, n0, hn0 => by
    rw [deserializeNode_eq]
    have hlt : a < h.length := (List.getElem?_eq_some.mp hn0).1
    generalize hh1 : updateNode h a (fun n => { n with state := st, visits := v, score := sc }) = h1
    have hl1 : h1.length = h.length := by rw [← hh1, updateNode_length]
    have h1a : h1[a]? = some { n0 with state := st, visits := v, score := sc } := by
      rw [← hh1]; exact updateNode_get_self h a _ n0 hn0
    have h1b : ∀ b : Nat, b ≠ a → h1[b]? = h[b]? := by
      intro b hb; rw [← hh1]; exact updateNode_get_ne h a b _ (Ne.symm hb)
    obtain ⟨c1, c2, c3⟩ := deserializeChildren_spec empty cs h1 a
    generalize deserializeChildren empty h1 a cs = r at c1 c2 c3 ⊢
    have ra : r.1[a]? = some { n0 with state := st, visits := v, score := sc } := by
      rw [c2 a (by omega)]; exact h1a
    refine ⟨?_, ?_, ?_, ?_⟩
    · rw [updateNode_length]; omega
    · intro b hb hba
      rw [updateNode_get_ne _ _ _ _ (Ne.symm hba), c2 b (by omega), h1b b hba]
    · exact ⟨_, updateNode_get_self _ a _ _ ra, rfl⟩
    · simp only [builtIn]
      refine ⟨_, updateNode_get_self _ a _ _ ra, rfl, rfl, rfl, ?_⟩
      rw [updateNode_length]
      simp only
      rw [hl1] at c3
      refine builtChildrenIn_frame r.1 _ _ _ ?_ cs a r.2 c3
      intro b hb1 _
      exact updateNode_get_ne _ _ _ _ (by omega)
theorem deserializeChildren_spec {σ : Type} (empty : σ) :
    ∀ (cs : List (SerializedNode σ)) (h : NodeStore σ) (node : Nat),
      h.length ≤ (deserializeChildren empty h node cs).1.length ∧
      (∀ b : Nat, b < h.length → (deserializeChildren empty h node cs).1[b]? = h[b]?) ∧
      builtChildrenIn (deserializeChildren empty h node cs).1 h.length
        (deserializeChildren empty h node cs).1.length node
        (deserializeChildren empty h node cs).2 cs
  | [], h, node => by
    simp [deserializeChildren, builtChildrenIn]
  | childData :: rest, h, node => by
    rw [deserializeChildren_cons]
    have h1c : (h ++ [Node.new empty none])[h.length]? = some (Node.new empty none) := by
      simp
    obtain ⟨d1, d2, ⟨n2, d3, _⟩, d4⟩ :=
      deserializeNode_spec empty childData (h ++ [Node.new empty none]) h.length _ h1c
    generalize deserializeNode empty (h ++ [Node.new empty none]) h.length childData = h2
      at d1 d2 d3 d4 ⊢
    simp only [List.length_append, List.length_singleton] at d1 d2 d4
    generalize hh3 : updateNode h2 h.length (fun n => { n with parent := some node }) = h3
    have hl3 : h3.length = h2.length := by rw [← hh3, updateNode_length]
    have h3c : h3[h.length]? = some { n2 with parent := some node } := by
      rw [← hh3]; exact updateNode_get_self h2 _ _ n2 d3
    have h3b : ∀ b : Nat, b ≠ h.length → h3[b]? = h2[b]? := by
      intro b hb; rw [← hh3]; exact updateNode_get_ne h2 _ b _ (Ne.symm hb)
    have d4' : builtIn h3 (h.length + 1) h2.length h.length childData := by
      cases childData with
      | mk st v sc cs =>
        refine builtIn_root_frame h2 h3 _ _ ?_ st v sc cs _ d4 ?_
        · intro b hb1 _; exact h3b b (by omega)
        · intro n hn
          rw [d3] at hn
          cases hn
          exact ⟨_, h3c, rfl, rfl, rfl, rfl⟩
    obtain ⟨e1, e2, e3⟩ := deserializeChildren_spec empty rest h3 node
    generalize deserializeChildren empty h3 node rest = r at e1 e2 e3 ⊢
    dsimp only
    refine ⟨by omega, ?_, ?_⟩
    · intro b hb
      rw [e2 b (by omega), h3b b (by omega), d2 b (by omega) (by omega)]
      exact List.getElem?_append_left hb
    · simp only [builtChildrenIn]
      have hlt : h.length < r.1.length := by omega
      refine ⟨le_refl _, hlt, ⟨_, by rw [e2 _ (by omega)]; exact h3c, rfl⟩, ?_, ?_⟩
      · have f1 : builtIn r.1 (h.length + 1) h2.length h.length childData := by
          cases childData with
          | mk st v sc cs =>
            refine builtIn_root_frame h3 r.1 _ _ ?_ st v sc cs _ d4' ?_
            · intro b _ hb2; exact e2 b (by omega)
            · intro n hn
              exact ⟨n, by rw [e2 _ (by omega)]; exact hn, rfl, rfl, rfl, rfl⟩
        exact builtIn_mono r.1 (h.length + 1) h2.length h.length r.1.length (by omega) (by omega)
          childData _ f1
      · exact builtChildrenIn_mono r.1 h3.length r.1.length h.length r.1.length (by omega)
          (le_refl _) rest node r.2 e3
end

theorem serializeChildren_sim {σ : Type} (f : Nat) (h h' : NodeStore σ)
    (ih : ∀ (r a : Nat) (s : SerializedNode σ),
      serializeNode f h r = some s → represents h' a s → serializeNode f h' a = some s) :
    ∀ (cs : List (SerializedNode σ)) (refs refs' : List Nat) (node : Nat),
      allSome (refs.map (serializeNode f h)) = some cs →
      representsChildren h' node refs' cs →
      allSome (refs'.map (serializeNode f h')) = some cs := by
  intro cs
  induction cs with
  | nil =>
    intro refs refs' node _ hr
    cases refs' with
    | nil => rfl
    | cons c rest => simp only [representsChildren] at hr
  | cons t ts ihl =>
    intro refs refs' node ha hr
    cases refs' with
    | nil => simp only [representsChildren] at hr
    | cons c' rest' =>
      simp only [representsChildren] at hr
      obtain ⟨_, hc, hrest⟩ := hr
      cases refs with
      | nil => simp [allSome] at ha
      | cons c rest =>
        simp only [List.map_cons] at ha ⊢
        cases hsc : serializeNode f h c with
        | none => simp [hsc, allSome] at ha
        | some t' =>
          cases hsr : allSome (rest.map (serializeNode f h)) with
          | none => simp [hsc, hsr, allSome] at ha
          | some ts' =>
            simp only [hsc, hsr, allSome, Option.some.injEq, List.cons.injEq] at ha
            obtain ⟨e1, e2⟩ := ha
            subst e1 e2
            simp only [ih c c' t' hsc hc, ihl rest rest' node hsr hrest, allSome]

/-- A store that holds the tree `s` at `a` serialises it to `s`, with the fuel
that serialised `s` elsewhere. -/
theorem serializeNode_of_represents {σ : Type} (fuel : Nat) (h h' : NodeStore σ) :
    ∀ (r a : Nat) (s : SerializedNode σ),
      serializeNode fuel h r = some s → represents h' a s → serializeNode fuel h' a = some s := by
  induction fuel with
  | zero => intro r a s hs; simp [serializeNode] at hs
  | succ f ih =>
    intro r a s hs hr
    simp only [serializeNode] at hs ⊢
    cases hn : h[r]? with
    | none => simp [hn] at hs
    | some n =>
      simp only [hn] at hs
      cases hch : allSome (n.children.map (serializeNode f h)) with
      | none => simp [hch] at hs
      | some cs =>
        simp only [hch, Option.some.injEq] at hs
        subst hs
        simp only [represents] at hr
        obtain ⟨n', hn', e1, e2, e3, hrc⟩ := hr
        simp only [hn']
        rw [serializeChildren_sim f h h' ih cs n.children n'.children a hch hrc]
        simp only [e1, e2, e3]

theorem serializeChildren_of_depicts {σ : Type} (f : Nat) (h : NodeStore σ)
    (ih : ∀ (a : Nat) (t : SerializedNode σ), depicts h a t → treeDepth t < f →
      serializeNode f h a = some t) :
    ∀ (refs : List Nat) (cs : List (SerializedNode σ)), depictsChildren h refs cs →
      forestDepth cs ≤ f → allSome (refs.map (serializeNode f h)) = some cs := by
  intro refs
  induction refs with
  | nil =>
    intro cs hd _
    cases cs with
    | nil => rfl
    | cons t ts => simp only [depictsChildren] at hd
  | cons c rest ihl =>
    intro cs hd hf
    cases cs with
    | nil => simp only [depictsChildren] at hd
    | cons t ts =>
      simp only [depictsChildren] at hd
      simp only [forestDepth] at hf
      have h1 : treeDepth t < f := lt_of_lt_of_le (Nat.lt_succ_self _)
        (le_trans (le_max_left _ _) hf)
      have h2 : forestDepth ts ≤ f := le_trans (le_max_right _ _) hf
      simp only [List.map_cons, ih c t hd.1 h1, ihl ts hd.2 h2, allSome]

/-- On a finite tree `serializeNode` returns, with any budget above the depth
of the tree, and what it returns is the tree. -/
theorem serializeNode_of_depicts {σ : Type} (h : NodeStore σ) :
    ∀ (fuel a : Nat) (t : SerializedNode σ), depicts h a t → treeDepth t < fuel →
      serializeNode fuel h a = some t := by
  intro fuel
  induction fuel with
  | zero => intro a t _ hf; exact absurd hf (Nat.not_lt_zero _)
  | succ f ih =>
    intro a t hd hf
    cases t with
    | mk st v sc cs =>
      simp only [depicts] at hd
      obtain ⟨n, hn, e1, e2, e3, hch⟩ := hd
      simp only [treeDepth] at hf
      simp only [serializeNode, hn,
        serializeChildren_of_depicts f h ih n.children cs hch (Nat.le_of_lt_succ hf), e1, e2, e3]

theorem serializeChildren_unique {σ : Type} (f : Nat) (h : NodeStore σ)
    (ih : ∀ (a : Nat) (s t : SerializedNode σ), serializeNode f h a = some s →
      depicts h a t → s = t) :
    ∀ (refs : List Nat) (cs cs' : List (SerializedNode σ)),
      allSome (refs.map (serializeNode f h)) = some cs' → depictsChildren h refs cs →
      cs' = cs := by
  intro refs
  induction refs with
  | nil =>
    intro cs cs' ha hd
    cases cs with
    | nil =>
      simp only [List.map_nil, allSome, Option.some.injEq] at ha
      exact ha.symm
    | cons t ts => simp only [depictsChildren] at hd
  | cons c rest ihl =>
    intro cs cs' ha hd
    cases cs with
    | nil => simp only [depictsChildren] at hd
    | cons t ts =>
      simp only [depictsChildren] at hd
      simp only [List.map_cons] at ha
      cases hsc : serializeNode f h c with
      | none => simp [hsc, allSome] at ha
      | some t' =>
        cases hsr : allSome (rest.map (serializeNode f h)) with
        | none => simp [hsc, hsr, allSome] at ha
        | some ts' =>
          simp only [hsc, hsr, allSome, Option.some.injEq] at ha
          rw [← ha, ih c t' t hsc hd.1, ihl ts ts' hsr hd.2]

/-- Whatever `serializeNode` returns on a finite tree is that tree. -/
theorem serializeNode_unique {σ : Type} (h : NodeStore σ) :
    ∀ (fuel a : Nat) (s t : SerializedNode σ), serializeNode fuel h a = some s →
      depicts h a t → s = t := by
  intro fuel
  induction fuel with
  | zero => intro a s t hs; simp [serializeNode] at hs
  | succ f ih =>
    intro a s t hs hd
    cases t with
    | mk st v sc cs =>
      simp only [depicts] at hd
      obtain ⟨n, hn, e1, e2, e3, hch⟩ := hd
      simp only [serializeNode, hn] at hs
      cases hc : allSome (n.children.map (serializeNode f h)) with
      | none => simp [hc] at hs
      | some cs' =>
        simp only [hc, Option.some.injEq] at hs
        rw [← hs, serializeChildren_unique f h ih n.children cs cs' hc hch, e1, e2, e3]

mutual
theorem represents_depicts {σ : Type} (h : NodeStore σ) :
    ∀ (t : SerializedNode σ) (a : Nat), represents h a t → depicts h a t
  | .mk st v sc cs, a, hr => by
    simp only [represents] at hr
    simp only [depicts]
    obtain ⟨n, hn, e1, e2, e3, hch⟩ := hr
    exact ⟨n, hn, e1, e2, e3, representsChildren_depicts h cs a n.children hch⟩
theorem representsChildren_depicts {σ : Type} (h : NodeStore σ) :
    ∀ (ts : List (SerializedNode σ)) (node : Nat) (refs : List Nat),
      representsChildren h node refs ts → depictsChildren h refs ts
  | [], _, [], _ => by simp only [depictsChildren]
  | [], _, _ :: _, hr => by simp only [representsChildren] at hr
  | _ :: _, _, [], hr => by simp only [representsChildren] at hr
  | t :: ts, node, c :: refs, hr => by
    simp only [representsChildren] at hr
    simp only [depictsChildren]
    obtain ⟨_, hc, hrest⟩ := hr
    exact ⟨represents_depicts h t c hc, representsChildren_depicts h ts node refs hrest⟩
end

/-- C2. Checkpoint round trip.  Let `t` be the finite tree of nodes at `r`
(state, visits, score and ordered children of every node, whatever the
`parent` fields hold).  Then `serializeNode` returns on it, with every budget
above its depth, and returns `t` itself, whatever the budget; and
`deserializeNode` of `t` into any existing node `a` rebuilds at `a` a tree
that is `t` node for node (state, visits, score, the same children in the same
order, recursively) with every child's `parent` pointing to the rebuilt node
that lists it; serialising the rebuilt tree gives `t` again; and the `parent`
of the root `a` is left as it was (`null` for a fresh root). -/
theorem checkpoint_roundtrip {σ : Type} (empty : σ) (h : NodeStore σ) (r : Nat)
    (t : SerializedNode σ) (ht : depicts h r t) (fuel : Nat) (hf : treeDepth t < fuel)
    (h0 : NodeStore σ) (a : Nat) (n0 : Node σ) (ha : h0[a]? = some n0) :
    serializeNode fuel h r = some t ∧
    (∀ (budget : Nat) (s : SerializedNode σ), serializeNode budget h r = some s → s = t) ∧
    represents (deserializeNode empty h0 a t) a t ∧
    depicts (deserializeNode empty h0 a t) a t ∧
    serializeNode fuel (deserializeNode empty h0 a t) a = some t ∧
    (∃ n', (deserializeNode empty h0 a t)[a]? = some n' ∧ n'.parent = n0.parent) := by
  have hs := serializeNode_of_depicts h fuel r t ht hf
  obtain ⟨_, _, hp, hb⟩ := deserializeNode_spec empty t h0 a n0 ha
  have hr := builtIn_represents _ _ _ t a hb
  have hser := serializeNode_of_represents fuel h _ r a t hs hr
  exact ⟨hs, fun budget s hbs => serializeNode_unique h budget r s t hbs ht, hr,
    represents_depicts _ t a hr, hser, hp⟩

/-- The store `sampleBushy` holds the tree `sampleBushySerialized` at its root. -/
theorem sampleBushy_depicts : depicts sampleBushy 0 sampleBushySerialized := by
  simp only [sampleBushySerialized, depicts, depictsChildren]
  exact ⟨_, rfl, rfl, rfl, rfl, ⟨_, rfl, rfl, rfl, rfl, ⟨_, rfl, rfl, rfl, rfl, trivial⟩,
    trivial⟩, ⟨_, rfl, rfl, rfl, rfl, trivial⟩, trivial⟩

/-- C2 on `sampleBushy` (a branching root, depth 2, mixed visit counts),
rebuilt into a fresh root. -/
theorem checkpoint_roundtrip_witness :
    serializeNode 3 sampleBushy 0 = some sampleBushySerialized ∧
    (∀ (budget : Nat) (s : SerializedNode String),
      serializeNode budget sampleBushy 0 = some s → s = sampleBushySerialized) ∧
    represents (deserializeNode "" [Node.new "init" none] 0 sampleBushySerialized) 0
      sampleBushySerialized ∧
    depicts (deserializeNode "" [Node.new "init" none] 0 sampleBushySerialized) 0
      sampleBushySerialized ∧
    serializeNode 3 (deserializeNode "" [Node.new "init" none] 0 sampleBushySerialized) 0 =
      some sampleBushySerialized ∧
    (∃ n', (deserializeNode "" [Node.new "init" none] 0 sampleBushySerialized)[0]? = some n' ∧
      n'.parent = (Node.new "init" none).parent) :=
  checkpoint_roundtrip "" sampleBushy 0 sampleBushySerialized sampleBushy_depicts 3
    (by simp [sampleBushySerialized, treeDepth, forestDepth]) [Node.new "init" none] 0
    (Node.new "init" none) rfl

/-! ## The state merger -/

theorem getKey_setKey_self (k : String) (v : FileVal) (m : Entries) :
    getKey k (setKey k v m) = some v := by
  induction m with
  | nil => simp [setKey, getKey]
  | cons e rest ih =>
    obtain ⟨k0, v0⟩ := e
    by_cases h : k0 = k
    · simp [setKey, getKey, h]
    · simp [setKey, getKey, h, ih]

theorem getKey_setKey_ne (k k' : String) (v : FileVal) (m : Entries) (hne : k ≠ k') :
    getKey k' (setKey k v m) = getKey k' m := by
  induction m with
  | nil => simp [setKey, getKey, hne]
  | cons e rest ih =>
    obtain ⟨k0, v0⟩ := e
    by_cases h : k0 = k
    · subst h; simp [setKey, getKey, hne]
    · by_cases h' : k0 = k'
      · subst h'; simp [setKey, getKey, h]
      · simp [setKey, getKey, h, h', ih]

theorem setKey_getKey_self (k : String) (v : FileVal) (m : Entries)
    (hg : getKey k m = some v) : setKey k v m = m := by
  induction m with
  | nil => simp [getKey] at hg
  | cons e rest ih =>
    obtain ⟨k0, v0⟩ := e
    by_cases h : k0 = k
    · simp [getKey, h] at hg
      simp [setKey, h, hg]
    · simp [getKey, h] at hg
      simp [setKey, h, ih hg]

theorem getKey_eq_none (k : String) (m : Entries) (hk : k ∉ keysOf m) : getKey k m = none := by
  induction m with
  | nil => rfl
  | cons e rest ih =>
    obtain ⟨k0, v0⟩ := e
    simp [keysOf] at hk
    have h : ¬ k0 = k := fun e => hk.1 e.symm
    simp only [getKey, h, if_false]
    exact ih (by simpa [keysOf] using hk.2)

theorem getKey_isSome (k : String) (m : Entries) (hk : k ∈ keysOf m) :
    ∃ v, getKey k m = some v := by
  induction m with
  | nil => simp [keysOf] at hk
  | cons e rest ih =>
    obtain ⟨k0, v0⟩ := e
    by_cases h : k0 = k
    · exact ⟨v0, by simp [getKey, h]⟩
    · have hk' : k ∈ keysOf rest := by
        simp only [keysOf, List.map_cons, List.mem_cons] at hk
        rcases hk with e | hk
        · exact absurd e.symm h
        · exact hk
      obtain ⟨v, hv⟩ := ih hk'
      exact ⟨v, by simp [getKey, h, hv]⟩

theorem mem_keysOf_of_getKey (k : String) (v : FileVal) (m : Entries)
    (hg : getKey k m = some v) : k ∈ keysOf m := by
  by_contra hk
  rw [getKey_eq_none k m hk] at hg
  cases hg

theorem setKey_of_not_mem (k : String) (v : FileVal) (m : Entries) (hk : k ∉ keysOf m) :
    setKey k v m = m ++ [(k, v)] := by
  induction m with
  | nil => rfl
  | cons e rest ih =>
    obtain ⟨k0, v0⟩ := e
    simp [keysOf] at hk
    have h : ¬ k0 = k := fun e => hk.1 e.symm
    simp only [setKey, h, if_false, List.cons_append]
    rw [ih (by simpa [keysOf] using hk.2)]

theorem uniqueKeysEntries_cons (k : String) (v : FileVal) (rest : Entries) :
    uniqueKeysEntries ((k, v) :: rest) = true ↔
      k ∉ keysOf rest ∧ uniqueKeys v = true ∧ uniqueKeysEntries rest = true := by
  simp only [uniqueKeysEntries, Bool.and_eq_true, Bool.not_eq_true', keysOf]
  constructor
  · rintro ⟨⟨h1, h2⟩, h3⟩
    refine ⟨?_, h2, h3⟩
    intro hk
    obtain ⟨e, he, hek⟩ := List.mem_map.mp hk
    have : rest.any (fun e => e.1 == k) = true := List.any_eq_true.mpr ⟨e, he, by simp [hek]⟩
    rw [h1] at this
    cases this
  · rintro ⟨h1, h2, h3⟩
    refine ⟨⟨?_, h2⟩, h3⟩
    cases hany : rest.any (fun e => e.1 == k) with
    | false => rfl
    | true =>
      obtain ⟨e, he, hek⟩ := List.any_eq_true.mp hany
      exact absurd (List.mem_map.mpr ⟨e, he, by simpa using hek⟩) h1

theorem mergeEntries_cons_obj (t : Entries) (k : String) (m : Entries) (rest : Entries) :
    mergeEntries t ((k, .obj m) :: rest) =
      mergeEntries (setKey k (deepMerge (orEmpty (getKey k t)) (.obj m)) t) rest := by
  simp only [mergeEntries]

theorem mergeEntries_cons_str (t : Entries) (k : String) (x : String) (rest : Entries) :
    mergeEntries t ((k, .str x) :: rest) = mergeEntries (setKey k (.str x) t) rest := by
  simp only [mergeEntries]

/-- What `deepMerge` assigns to `target[key]` for the source value `v`. -/
theorem mergeEntries_cons (t : Entries) (k : String) (v : FileVal) (rest : Entries) :
    mergeEntries t ((k, v) :: rest) = mergeEntries (setKey k (assigned (getKey k t) v) t) rest := by
  cases v with
  | str x => simp only [mergeEntries, assigned]
  | obj m => simp only [mergeEntries, assigned]

/-- Keys that `source` does not mention keep their value. -/
theorem getKey_mergeEntries_of_not_mem (k : String) (s : Entries) :
    ∀ t : Entries, k ∉ keysOf s → getKey k (mergeEntries t s) = getKey k t := by
  induction s with
  | nil => intro t _; simp only [mergeEntries]
  | cons e rest ih =>
    intro t hk
    obtain ⟨k0, v0⟩ := e
    simp only [keysOf, List.map_cons, List.mem_cons, not_or] at hk
    rw [mergeEntries_cons, ih _ (by simpa [keysOf] using hk.2),
      getKey_setKey_ne _ _ _ _ (Ne.symm hk.1)]

/-- Keys that `source` mentions end with the assigned value. -/
theorem getKey_mergeEntries_of_mem (k : String) (v : FileVal) (s : Entries) :
    ∀ t : Entries, uniqueKeysEntries s = true → getKey k s = some v →
      getKey k (mergeEntries t s) = some (assigned (getKey k t) v) := by
  induction s with
  | nil => intro t _ hg; simp [getKey] at hg
  | cons e rest ih =>
    intro t hu hg
    obtain ⟨k0, v0⟩ := e
    obtain ⟨hu1, _, hu3⟩ := (uniqueKeysEntries_cons k0 v0 rest).mp hu
    rw [mergeEntries_cons]
    by_cases h : k0 = k
    · subst h
      simp only [getKey, if_true, Option.some.injEq] at hg
      subst hg
      rw [getKey_mergeEntries_of_not_mem _ _ _ hu1, getKey_setKey_self]
    · simp only [getKey, h, if_false] at hg
      rw [ih _ hu3 hg, getKey_setKey_ne _ _ _ _ h]

mutual
theorem deepMerge_of_absorbs : ∀ (v t : FileVal), absorbs t v → deepMerge t v = t
  | .str x, t, h => by
    simp only [absorbs] at h
    subst h
    simp only [deepMerge]
  | .obj sv, t, h => by
    simp only [absorbs] at h
    obtain ⟨tv, rfl, h'⟩ := h
    simp only [deepMerge, mergeEntries_of_absorbs sv tv h']
theorem mergeEntries_of_absorbs : ∀ (sv tv : Entries), absorbsEntries tv sv →
    mergeEntries tv sv = tv
  | [], tv, _ => by simp only [mergeEntries]
  | (k, .str x) :: rest, tv, h => by
    simp only [absorbsEntries, absorbs] at h
    obtain ⟨⟨t, hg, rfl⟩, hr⟩ := h
    rw [mergeEntries_cons_str, setKey_getKey_self k _ tv hg]
    exact mergeEntries_of_absorbs rest tv hr
  | (k, .obj m) :: rest, tv, h => by
    simp only [absorbsEntries] at h
    obtain ⟨⟨t, hg, ha⟩, hr⟩ := h
    have ht := deepMerge_of_absorbs (.obj m) t ha
    simp only [absorbs] at ha
    obtain ⟨tv', rfl, _⟩ := ha
    rw [mergeEntries_cons_obj, hg]
    simp only [orEmpty]
    rw [ht, setKey_getKey_self k _ tv hg]
    exact mergeEntries_of_absorbs rest tv hr
end

mutual
theorem absorbs_self : ∀ v : FileVal, uniqueKeys v = true → absorbs v v
  | .str x, _ => by simp only [absorbs]
  | .obj sv, hu => by
    simp only [absorbs]
    simp only [uniqueKeys] at hu
    exact ⟨sv, rfl, absorbsEntries_of_getKey sv sv hu (fun _ _ h => h)⟩
theorem absorbsEntries_of_getKey : ∀ (sv tv : Entries), uniqueKeysEntries sv = true →
    (∀ k v, getKey k sv = some v → getKey k tv = some v) → absorbsEntries tv sv
  | [], _, _, _ => by simp only [absorbsEntries]
  | (k, v) :: rest, tv, hu, hg => by
    obtain ⟨hu1, hu2, hu3⟩ := (uniqueKeysEntries_cons k v rest).mp hu
    simp only [absorbsEntries]
    refine ⟨⟨v, hg k v (by simp [getKey]), absorbs_self v hu2⟩, ?_⟩
    refine absorbsEntries_of_getKey rest tv hu3 ?_
    intro k' v' h'
    have hne : ¬ k = k' := by
      intro e
      subst e
      exact hu1 (mem_keysOf_of_getKey _ _ _ h')
    exact hg k' v' (by simp [getKey, hne, h'])
end

mutual
theorem absorbs_deepMerge : ∀ (v t : FileVal), uniqueKeys v = true → absorbs (deepMerge t v) v
  | .str x, .str _, _ => by simp only [deepMerge, absorbs]
  | .str x, .obj _, _ => by simp only [deepMerge, absorbs]
  | .obj sv, .str _, hu => by
    simp only [deepMerge]
    exact absorbs_self _ hu
  | .obj sv, .obj tv, hu => by
    simp only [deepMerge, absorbs]
    simp only [uniqueKeys] at hu
    exact ⟨_, rfl, absorbsEntries_mergeEntries sv tv hu⟩
theorem absorbsEntries_mergeEntries : ∀ (sv tv : Entries), uniqueKeysEntries sv = true →
    absorbsEntries (mergeEntries tv sv) sv
  | [], _, _ => by simp only [absorbsEntries]
  | (k, .str x) :: rest, tv, hu => by
    obtain ⟨hu1, _, hu3⟩ := (uniqueKeysEntries_cons k _ rest).mp hu
    simp only [absorbsEntries]
    rw [mergeEntries_cons_str]
    refine ⟨⟨.str x, ?_, by simp only [absorbs]⟩, absorbsEntries_mergeEntries rest _ hu3⟩
    rw [getKey_mergeEntries_of_not_mem _ _ _ hu1, getKey_setKey_self]
  | (k, .obj m) :: rest, tv, hu => by
    obtain ⟨hu1, hu2, hu3⟩ := (uniqueKeysEntries_cons k _ rest).mp hu
    simp only [absorbsEntries]
    rw [mergeEntries_cons_obj]
    refine ⟨⟨_, ?_, absorbs_deepMerge (.obj m) (orEmpty (getKey k tv)) hu2⟩,
      absorbsEntries_mergeEntries rest _ hu3⟩
    rw [getKey_mergeEntries_of_not_mem _ _ _ hu1, getKey_setKey_self]
end

mutual
theorem deepMerge_empty : ∀ v : FileVal, uniqueKeys v = true → deepMerge (.obj []) v = v
  | .str x, _ => by simp only [deepMerge]
  | .obj sv, hu => by
    simp only [uniqueKeys] at hu
    simp only [deepMerge]
    rw [mergeEntries_fresh sv [] hu (by simp [keysOf])]
    simp
theorem mergeEntries_fresh : ∀ (sv tv : Entries), uniqueKeysEntries sv = true →
    (∀ k, k ∈ keysOf sv → k ∉ keysOf tv) → mergeEntries tv sv = tv ++ sv
  | [], tv, _, _ => by simp [mergeEntries]
  | (k, v) :: rest, tv, hu, hf => by
    obtain ⟨hu1, hu2, hu3⟩ := (uniqueKeysEntries_cons k v rest).mp hu
    have hk : k ∉ keysOf tv := hf k (by simp [keysOf])
    have ha : assigned (getKey k tv) v = v := by
      rw [getKey_eq_none k tv hk]
      cases v with
      | str x => rfl
      | obj m => exact deepMerge_empty (.obj m) hu2
    rw [mergeEntries_cons, ha, setKey_of_not_mem k v tv hk]
    rw [mergeEntries_fresh rest (tv ++ [(k, v)]) hu3 ?_]
    · simp
    · intro k' hk'
      have h1 : k' ∉ keysOf tv := hf k' (by simp only [keysOf, List.map_cons, List.mem_cons]; right; exact hk')
      have h2 : k' ≠ k := fun e => hu1 (e ▸ hk')
      simp only [keysOf, List.map_append, List.map_cons, List.map_nil, List.mem_append,
        List.mem_singleton, not_or]
      exact ⟨h1, h2⟩
end

theorem uniqueKeys_of_getKey (k : String) (v : FileVal) (s : Entries)
    (hu : uniqueKeysEntries s = true) (hg : getKey k s = some v) : uniqueKeys v = true := by
  induction s with
  | nil => simp [getKey] at hg
  | cons e rest ih =>
    obtain ⟨k0, v0⟩ := e
    obtain ⟨_, hu2, hu3⟩ := (uniqueKeysEntries_cons k0 v0 rest).mp hu
    by_cases h : k0 = k
    · simp only [getKey, h, if_true, Option.some.injEq] at hg
      subst hg
      exact hu2
    · simp only [getKey, h, if_false] at hg
      exact ih hu3 hg

theorem deepMerge_orEmpty_eq_nestedAt (k : String) (t m : Entries)
    (hu : uniqueKeys (.obj m) = true) :
    deepMerge (orEmpty (getKey k t)) (.obj m) = deepMerge (nestedAt k t) (.obj m) := by
  unfold nestedAt
  cases hg : getKey k t with
  | none => rfl
  | some v =>
    cases v with
    | obj tv => rfl
    | str x =>
      simp only [orEmpty]
      by_cases hx : x = ""
      · simp [hx]
      · simp only [hx, if_false]
        rw [deepMerge_empty _ hu]
        simp only [deepMerge]

/-- C3. `deepMerge(target, source)` on file maps (`source` a JavaScript object,
no key twice) returns a mapping `result` such that, for every key `k` of
`source`: when `source[k]` is a nested mapping `m`, `result[k]` is the merge of
`m` into the nested mapping `target` holds at `k` (into an empty mapping when
it holds none); when `source[k]` is a file content, `result[k]` is exactly that
content; and every key that `source` does not mention has in `result` what it
has in `target`. -/
theorem deepMerge_contract (target source : Entries)
    (hu : uniqueKeys (.obj source) = true) :
    ∃ result, deepMerge (.obj target) (.obj source) = .obj result ∧
      (∀ k m, getKey k source = some (.obj m) →
        getKey k result = some (deepMerge (nestedAt k target) (.obj m))) ∧
      (∀ k x, getKey k source = some (.str x) → getKey k result = some (.str x)) ∧
      (∀ k, getKey k source = none → getKey k result = getKey k target) := by
  simp only [uniqueKeys] at hu
  refine ⟨mergeEntries target source, by simp only [deepMerge], ?_, ?_, ?_⟩
  · intro k m hg
    rw [getKey_mergeEntries_of_mem k _ source target hu hg]
    simp only [assigned]
    have hm : uniqueKeys (.obj m) = true := uniqueKeys_of_getKey k _ source hu hg
    rw [deepMerge_orEmpty_eq_nestedAt k target m hm]
  · intro k x hg
    rw [getKey_mergeEntries_of_mem k _ source target hu hg]
    simp only [assigned]
  · intro k hg
    apply getKey_mergeEntries_of_not_mem
    intro hk
    obtain ⟨v, hv⟩ := getKey_isSome k source hk
    rw [hv] at hg
    cases hg

/-- C3 on `sampleFiles` and `sampleDelta`. -/
theorem deepMerge_contract_witness :
    ∃ result, deepMerge (.obj sampleFiles) (.obj sampleDelta) = .obj result ∧
      (∀ k m, getKey k sampleDelta = some (.obj m) →
        getKey k result = some (deepMerge (nestedAt k sampleFiles) (.obj m))) ∧
      (∀ k x, getKey k sampleDelta = some (.str x) → getKey k result = some (.str x)) ∧
      (∀ k, getKey k sampleDelta = none → getKey k result = getKey k sampleFiles) :=
  deepMerge_contract sampleFiles sampleDelta (by decide)

/-- C4. Merging the same delta `D` (a JavaScript object, no key twice) a second
time changes nothing: `deepMerge(deepMerge(S, D), D)` is the map
`deepMerge(S, D)`; and merging the empty map into `S` returns `S`. -/
theorem deepMerge_idempotent (S D : Entries) (hu : uniqueKeys (.obj D) = true) :
    deepMerge (deepMerge (.obj S) (.obj D)) (.obj D) = deepMerge (.obj S) (.obj D) ∧
    deepMerge (.obj S) (.obj []) = .obj S := by
  constructor
  · exact deepMerge_of_absorbs _ _ (absorbs_deepMerge (.obj D) (.obj S) hu)
  · simp only [deepMerge, mergeEntries]

/-- C4 on `sampleFiles` and `sampleDelta`. -/
theorem deepMerge_idempotent_witness :
    deepMerge (deepMerge (.obj sampleFiles) (.obj sampleDelta)) (.obj sampleDelta) =
      deepMerge (.obj sampleFiles) (.obj sampleDelta) ∧
    deepMerge (.obj sampleFiles) (.obj []) = .obj sampleFiles :=
  deepMerge_idempotent sampleFiles sampleDelta (by decide)

/-- C5. `deepMerge(S, D)` removes no file: a key `k` that `S` holds with value
`v` and that `D` does not mention is in the result, with the value `v`. -/
theorem deepMerge_keeps (S D : Entries) (k : String) (v : FileVal)
    (hS : getKey k S = some v) (hD : k ∉ keysOf D) :
    ∃ result, deepMerge (.obj S) (.obj D) = .obj result ∧ getKey k result = some v := by
  refine ⟨mergeEntries S D, by simp only [deepMerge], ?_⟩
  rw [getKey_mergeEntries_of_not_mem k D S hD, hS]

/-- C5 on `sampleFiles` and `sampleDelta`, at the untouched file `README.md`. -/
theorem deepMerge_keeps_witness :
    ∃ result, deepMerge (.obj sampleFiles) (.obj sampleDelta) = .obj result ∧
      getKey "README.md" result = some (.str "# todo") :=
  deepMerge_keeps sampleFiles sampleDelta "README.md" (.str "# todo") rfl (by decide)

/-! ## The response parser -/

/-- A pattern whose first character does not occur again in it cannot start
inside `X` when it stands right after `X` and does not occur in `X`. -/
theorem isPrefixOf_false_of_fresh (c : Char) (p' : Text) (hc : c ∉ p') (X rest : Text)
    (hXne : X ≠ []) (hX : ¬ (c :: p') <:+: X) :
    (c :: p').isPrefixOf (X ++ (c :: p') ++ rest) = false := by
  cases hpre : (c :: p').isPrefixOf (X ++ (c :: p') ++ rest) with
  | false => rfl
  | true =>
    exfalso
    rw [List.isPrefixOf_iff_prefix, List.append_assoc] at hpre
    rcases List.prefix_or_prefix_of_prefix hpre (List.prefix_append X _) with h1 | h1
    · exact hX h1.isInfix
    · obtain ⟨t, ht⟩ := h1
      rw [← ht, List.prefix_append_right_inj] at hpre
      cases X with
      | nil => exact hXne rfl
      | cons x X' =>
        simp only [List.cons_append, List.cons.injEq] at ht
        obtain ⟨hxc, ht2⟩ := ht
        subst hxc
        cases t with
        | nil =>
          apply hX
          rw [List.append_nil] at ht2
          rw [← ht2]
        | cons t0 t' =>
          obtain ⟨u, hu⟩ := hpre
          simp only [List.cons_append, List.cons.injEq] at hu
          apply hc
          rw [← ht2, ← hu.1]
          simp

theorem splitAtFirst_here (pat text : Text) (hne : text ≠ [])
    (hp : pat.isPrefixOf text = true) :
    splitAtFirst pat text = some ([], text.drop pat.length) := by
  cases text with
  | nil => exact absurd rfl hne
  | cons x l => simp only [splitAtFirst, hp, if_true]

theorem splitAtFirst_skip (pat : Text) (x : Char) (l : Text)
    (hp : pat.isPrefixOf (x :: l) = false) :
    splitAtFirst pat (x :: l) =
      match splitAtFirst pat l with
      | none => none
      | some (before, after) => some (x :: before, after) := by
  simp only [splitAtFirst, hp]
  rfl

theorem matchBetween_here (opn cls text group after : Text) (hne : text ≠ [])
    (hp : opn.isPrefixOf text = true)
    (hs : splitAtFirst cls (text.drop opn.length) = some (group, after)) :
    matchBetween opn cls text = some group := by
  cases text with
  | nil => exact absurd rfl hne
  | cons x l => simp only [matchBetween, hp, if_true, hs]

theorem matchBetween_skip (opn cls : Text) (x : Char) (l : Text)
    (hp : opn.isPrefixOf (x :: l) = false) :
    matchBetween opn cls (x :: l) = matchBetween opn cls l := by
  simp only [matchBetween, hp]
  rfl

theorem splitAtFirst_append (c : Char) (p' : Text) (hc : c ∉ p') (X rest : Text)
    (hX : ¬ (c :: p') <:+: X) :
    splitAtFirst (c :: p') (X ++ (c :: p') ++ rest) = some (X, rest) := by
  induction X with
  | nil =>
    have h1 : (c :: p').isPrefixOf ([] ++ (c :: p') ++ rest) = true := by
      rw [List.isPrefixOf_iff_prefix]
      exact List.prefix_append (c :: p') rest
    rw [splitAtFirst_here _ _ (by simp) h1]
    simp
  | cons x X' ih =>
    have h1 := isPrefixOf_false_of_fresh c p' hc (x :: X') rest (by simp) hX
    have h2 : ¬ (c :: p') <:+: X' := fun h => hX (h.trans (List.suffix_cons x X').isInfix)
    have e : x :: X' ++ (c :: p') ++ rest = x :: (X' ++ (c :: p') ++ rest) := by simp
    rw [e] at h1 ⊢
    rw [splitAtFirst_skip _ _ _ h1, ih h2]

theorem splitAtFirst_eq_some (pat : Text) :
    ∀ (l before after : Text), splitAtFirst pat l = some (before, after) →
      l = before ++ pat ++ after := by
  intro l
  induction l with
  | nil =>
    intro before after h
    simp only [splitAtFirst] at h
    split at h
    · rename_i hp
      cases h
      simp [hp]
    · cases h
  | cons x l ih =>
    intro before after h
    simp only [splitAtFirst] at h
    split at h
    · rename_i hp
      cases h
      rw [List.isPrefixOf_iff_prefix] at hp
      obtain ⟨t, ht⟩ := hp
      rw [← ht]
      simp
    · cases hs : splitAtFirst pat l with
      | none => simp [hs] at h
      | some r =>
        obtain ⟨b, a⟩ := r
        simp only [hs, Option.some.injEq, Prod.mk.injEq] at h
        obtain ⟨rfl, rfl⟩ := h
        rw [ih b a hs]
        simp

/-- The expression matches a text in which the opening tag first stands
right before `X`, and the closing tag first stands right after `X`; its group
is `X`. -/
theorem matchBetween_append (c : Char) (o' : Text) (d : Char) (c' : Text)
    (hc : c ∉ o') (hd : d ∉ c') (pre X rest : Text)
    (hpre : ¬ (c :: o') <:+: pre) (hX : ¬ (d :: c') <:+: X) :
    matchBetween (c :: o') (d :: c') (pre ++ (c :: o') ++ (X ++ (d :: c') ++ rest)) = some X := by
  induction pre with
  | nil =>
    have h1 : (c :: o').isPrefixOf ([] ++ (c :: o') ++ (X ++ (d :: c') ++ rest)) = true := by
      rw [List.isPrefixOf_iff_prefix]
      exact List.prefix_append (c :: o') _
    have h2 : List.drop (c :: o').length ([] ++ (c :: o') ++ (X ++ (d :: c') ++ rest)) =
        X ++ (d :: c') ++ rest := by
      simp
    exact matchBetween_here _ _ _ X rest (by simp) h1
      (by rw [h2]; exact splitAtFirst_append d c' hd X rest hX)
  | cons x pre' ih =>
    have h1 := isPrefixOf_false_of_fresh c o' hc (x :: pre') (X ++ (d :: c') ++ rest)
      (by simp) hpre
    have h2 : ¬ (c :: o') <:+: pre' := fun h => hpre (h.trans (List.suffix_cons x pre').isInfix)
    have e : x :: pre' ++ (c :: o') ++ (X ++ (d :: c') ++ rest) =
        x :: (pre' ++ (c :: o') ++ (X ++ (d :: c') ++ rest)) := by simp
    rw [e] at h1 ⊢
    rw [matchBetween_skip _ _ _ _ h1, ih h2]

/-- A match exhibits a pair of tags in the text. -/
theorem matchBetween_eq_some (opn cls : Text) :
    ∀ (text group : Text), matchBetween opn cls text = some group →
      ∃ pre post, text = pre ++ opn ++ group ++ cls ++ post := by
  intro text
  induction text with
  | nil => intro group h; simp [matchBetween] at h
  | cons x l ih =>
    intro group h
    simp only [matchBetween] at h
    have hrec : matchBetween opn cls l = some group →
        ∃ pre post, x :: l = pre ++ opn ++ group ++ cls ++ post := by
      intro h'
      obtain ⟨pre, post, e⟩ := ih group h'
      exact ⟨x :: pre, post, by rw [e]; simp⟩
    split at h
    · rename_i hp
      cases hs : splitAtFirst cls (List.drop opn.length (x :: l)) with
      | none =>
        simp only [hs] at h
        exact hrec h
      | some r =>
        obtain ⟨b, a⟩ := r
        simp only [hs, Option.some.injEq] at h
        subst h
        rw [List.isPrefixOf_iff_prefix] at hp
        obtain ⟨t, ht⟩ := hp
        have hd : List.drop opn.length (x :: l) = t := by
          rw [← ht]; simp
        rw [hd] at hs
        have := splitAtFirst_eq_some cls t b a hs
        exact ⟨[], a, by rw [← ht, this]; simp⟩
    · exact hrec h

theorem thinkingOpen_eq : thinkingOpen = '<' :: "thinking>".toList := rfl
theorem thinkingClose_eq : thinkingClose = '<' :: "/thinking>".toList := rfl
theorem jsonOpen_eq : jsonOpen = '<' :: "json>".toList := rfl
theorem jsonClose_eq : jsonClose = '<' :: "/json>".toList := rfl

theorem trim_nil : trim [] = [] := rfl

/-- The claim of C6 fails for an empty payload: on
`<thinking>a</thinking><json></json>` (`X = "a"`, `Y = ""`) the payload
extractor returns `{}`, not the empty string `Y.trim()`. -/
theorem extractJson_empty_payload :
    extractJsonFromText
      (thinkingOpen ++ "a".toList ++ thinkingClose ++ jsonOpen ++ [] ++ jsonClose) =
        "{}".toList ∧
    extractJsonFromText
      (thinkingOpen ++ "a".toList ++ thinkingClose ++ jsonOpen ++ [] ++ jsonClose) ≠
        trim [] := by
  decide

/-- C6 (amended). In a text `pre <thinking>X</thinking> mid <json>Y</json> post`
where no `<thinking>` stands before the reasoning block, no `<json>` before the
payload block, `X` holds no `</thinking>` and `Y` no `</json>`:
`extractThinkingFromText` returns `X` trimmed, and `extractJsonFromText`
returns `Y` trimmed when `Y` is not the empty string, `{}` when it is. -/
theorem extract_roundtrip (pre X mid Y post : Text)
    (hpre : ¬ thinkingOpen <:+: pre)
    (hX : ¬ thinkingClose <:+: X)
    (hbefore : ¬ jsonOpen <:+: pre ++ thinkingOpen ++ X ++ thinkingClose ++ mid)
    (hY : ¬ jsonClose <:+: Y) :
    extractThinkingFromText
      (pre ++ thinkingOpen ++ X ++ thinkingClose ++ mid ++ jsonOpen ++ Y ++ jsonClose ++ post) =
        trim X ∧
    extractJsonFromText
      (pre ++ thinkingOpen ++ X ++ thinkingClose ++ mid ++ jsonOpen ++ Y ++ jsonClose ++ post) =
        (if Y = [] then "{}".toList else trim Y) := by
  constructor
  · have e : pre ++ thinkingOpen ++ X ++ thinkingClose ++ mid ++ jsonOpen ++ Y ++ jsonClose ++ post
        = pre ++ thinkingOpen ++ (X ++ thinkingClose ++ (mid ++ jsonOpen ++ Y ++ jsonClose ++ post)) := by
      simp only [List.append_assoc]
    have hm := matchBetween_append '<' "thinking>".toList '<' "/thinking>".toList
      (by decide) (by decide) pre X (mid ++ jsonOpen ++ Y ++ jsonClose ++ post)
      (by rw [← thinkingOpen_eq]; exact hpre) (by rw [← thinkingClose_eq]; exact hX)
    rw [← thinkingOpen_eq, ← thinkingClose_eq, ← e] at hm
    unfold extractThinkingFromText
    rw [hm]
    by_cases hx : X = []
    · simp [hx, trim_nil]
    · simp [hx]
  · have e : pre ++ thinkingOpen ++ X ++ thinkingClose ++ mid ++ jsonOpen ++ Y ++ jsonClose ++ post
        = (pre ++ thinkingOpen ++ X ++ thinkingClose ++ mid) ++ jsonOpen ++ (Y ++ jsonClose ++ post) := by
      simp only [List.append_assoc]
    have hm := matchBetween_append '<' "json>".toList '<' "/json>".toList
      (by decide) (by decide) (pre ++ thinkingOpen ++ X ++ thinkingClose ++ mid) Y post
      (by rw [← jsonOpen_eq]; exact hbefore) (by rw [← jsonClose_eq]; exact hY)
    rw [← jsonOpen_eq, ← jsonClose_eq, ← e] at hm
    unfold extractJsonFromText
    rw [hm]
    by_cases hy : Y = []
    · simp [hy]
    · simp [hy]

/-- C6 (amended) on a reply with a two-line reasoning and a payload. -/
theorem extract_roundtrip_witness :
    extractThinkingFromText
      ("Sure. ".toList ++ thinkingOpen ++ " plan\n step ".toList ++ thinkingClose ++
        "\n".toList ++ jsonOpen ++ "\n[1]\n".toList ++ jsonClose ++ " bye".toList) =
        trim " plan\n step ".toList ∧
    extractJsonFromText
      ("Sure. ".toList ++ thinkingOpen ++ " plan\n step ".toList ++ thinkingClose ++
        "\n".toList ++ jsonOpen ++ "\n[1]\n".toList ++ jsonClose ++ " bye".toList) =
        (if "\n[1]\n".toList = [] then "{}".toList else trim "\n[1]\n".toList) :=
  extract_roundtrip "Sure. ".toList " plan\n step ".toList "\n".toList "\n[1]\n".toList
    " bye".toList (by decide) (by decide) (by decide) (by decide)

/-- C7. The extractors are total functions of the text, and absent sections
give the defaults: a text that holds no `<thinking>`...`</thinking>` pair has
reasoning `''`, a text that holds no `<json>`...`</json>` pair has payload
`'{}'`. -/
theorem extract_defaults (text : Text) :
    ((¬ ∃ pre x post, text = pre ++ thinkingOpen ++ x ++ thinkingClose ++ post) →
      extractThinkingFromText text = []) ∧
    ((¬ ∃ pre y post, text = pre ++ jsonOpen ++ y ++ jsonClose ++ post) →
      extractJsonFromText text = "{}".toList) := by
  constructor
  · intro h
    unfold extractThinkingFromText
    cases hm : matchBetween thinkingOpen thinkingClose text with
    | none => rfl
    | some g =>
      obtain ⟨pre, post, e⟩ := matchBetween_eq_some _ _ text g hm
      exact absurd ⟨pre, g, post, e⟩ h
  · intro h
    unfold extractJsonFromText
    cases hm : matchBetween jsonOpen jsonClose text with
    | none => rfl
    | some g =>
      obtain ⟨pre, post, e⟩ := matchBetween_eq_some _ _ text g hm
      exact absurd ⟨pre, g, post, e⟩ h

/-- C7 on a reply without any tag. -/
theorem extract_defaults_witness :
    extractThinkingFromText "no tags at all".toList = [] ∧
    extractJsonFromText "no tags at all".toList = "{}".toList :=
  ⟨(extract_defaults "no tags at all".toList).1 (by
      rintro ⟨pre, x, post, e⟩
      have hmem : '<' ∈ "no tags at all".toList := by
        rw [e]; simp [thinkingOpen]
      exact absurd hmem (by decide)),
   (extract_defaults "no tags at all".toList).2 (by
      rintro ⟨pre, y, post, e⟩
      have hmem : '<' ∈ "no tags at all".toList := by
        rw [e]; simp [jsonOpen]
      exact absurd hmem (by decide))⟩

/-! ## UCB scores -/

/-- C8. `getUCBScore(explorationFactor)` of a node with `visits = 0` is
`+Infinity`, whatever its score, its parent (also `null`) and the exploration
factor; of a node with `visits > 0` and a parent it is
`score / visits + explorationFactor * Math.sqrt(Math.log(parent.visits) / visits)`. -/
theorem getUCBScore_spec {σ : Type} (m : MathImpl) (h : NodeStore σ) (a : Nat) (n : Node σ)
    (c : JSNum) (hn : h[a]? = some n) :
    (n.visits = 0 → getUCBScore m h a c = .ok .pinf) ∧
    (∀ (p : Nat) (pn : Node σ), 0 < n.visits → n.parent = some p → h[p]? = some pn →
      getUCBScore m h a c =
        .ok (JSNum.add (JSNum.div n.score (JSNum.ofNat n.visits))
          (JSNum.mul c (mathSqrt m
            (JSNum.div (mathLog m (JSNum.ofNat pn.visits)) (JSNum.ofNat n.visits)))))) := by
  constructor
  · intro h0
    simp only [getUCBScore, hn, h0, if_true]
  · intro p pn h0 hp hpn
    have hne : ¬ n.visits = 0 := by omega
    simp only [getUCBScore, hn, hne, if_false, hp, hpn]

/-- C8 on `sampleTree`: the unvisited leaf `2`, and the visited node `1` under
the root. -/
theorem getUCBScore_spec_witness :
    getUCBScore sampleMath sampleTree 2 (.fin (7 / 5)) = .ok .pinf ∧
    getUCBScore sampleMath sampleTree 1 (.fin (7 / 5)) =
      .ok (JSNum.add (JSNum.div (.fin 1) (JSNum.ofNat 1))
        (JSNum.mul (.fin (7 / 5)) (mathSqrt sampleMath
          (JSNum.div (mathLog sampleMath (JSNum.ofNat 3)) (JSNum.ofNat 1))))) :=
  ⟨(getUCBScore_spec sampleMath sampleTree 2
      { state := "leaf", parent := some 1, children := [], visits := 0, score := .fin 0 }
      (.fin (7 / 5)) rfl).1 rfl,
   (getUCBScore_spec sampleMath sampleTree 1
      { state := "mid", parent := some 0, children := [2], visits := 1, score := .fin 1 }
      (.fin (7 / 5)) rfl).2 0
      { state := "root", parent := none, children := [1], visits := 3, score := .fin 2 }
      (by decide) rfl rfl⟩

/-- The claim of C9 fails on three inputs.  The root of `sampleTree` has
`visits = 3` and a finite score, and `getUCBScore` throws on it (it has no
parent), so no score compares with the `Infinity` of the unvisited leaf.  The
child of `sampleOdd` has `visits = 1` under a parent with `visits = 0`: its
score is `NaN`, and `Infinity > NaN` is false.  And with the exploration factor
`Infinity` (which is `> 0`) the visited node `1` of `sampleTree` scores
`Infinity` itself. -/
theorem ucb_unvisited_not_greater :
    (getUCBScore sampleMath sampleTree 2 (.fin (7 / 5)) = .ok .pinf ∧
      ¬ ∃ sv, getUCBScore sampleMath sampleTree 0 (.fin (7 / 5)) = .ok sv) ∧
    (getUCBScore sampleMath sampleOdd 1 (.fin (7 / 5)) = .ok .nan ∧
      JSNum.gt .pinf .nan = false) ∧
    (getUCBScore sampleMath sampleTree 1 .pinf = .ok .pinf ∧
      JSNum.gt .pinf .pinf = false) := by
  refine ⟨⟨rfl, ?_⟩, ⟨by with_unfolding_all rfl, rfl⟩, ⟨by with_unfolding_all rfl, rfl⟩⟩
  rintro ⟨sv, hsv⟩
  have h0 : getUCBScore sampleMath sampleTree 0 (.fin (7 / 5)) =
      .error "TypeError: Cannot read properties of null (reading 'visits')" := rfl
  rw [h0] at hsv
  cases hsv

/-- C9 (amended). With finite arithmetic taken as exact, for every finite
exploration factor `q > 0`, every node `u` with `visits = 0` and every node `v`
with `visits > 0`, a finite score and a parent that has `visits ≥ 1`:
`getUCBScore(u)` is `Infinity`, `getUCBScore(v)` is a number, and
`getUCBScore(u) > getUCBScore(v)`.  (`Math.log` is taken non-negative on
arguments `≥ 1`.) -/
theorem ucb_unvisited_beats_visited {σ : Type} (m : MathImpl)
    (hlog : ∀ x : ℚ, 1 ≤ x → 0 ≤ m.log x) (h : NodeStore σ) (u v p : Nat)
    (nu nv pn : Node σ) (q s : ℚ) (_hq : 0 < q)
    (hu : h[u]? = some nu) (hu0 : nu.visits = 0)
    (hv : h[v]? = some nv) (hv0 : 0 < nv.visits) (hs : nv.score = .fin s)
    (hp : nv.parent = some p) (hpn : h[p]? = some pn) (hpv : 1 ≤ pn.visits) :
    ∃ sv, getUCBScore m h u (.fin q) = .ok .pinf ∧
      getUCBScore m h v (.fin q) = .ok sv ∧ JSNum.gt .pinf sv = true := by
  have hne : ¬ nv.visits = 0 := by omega
  have hvq : ((nv.visits : ℕ) : ℚ) ≠ 0 := by exact_mod_cast hne
  have hvpos : (0 : ℚ) < (nv.visits : ℚ) := by exact_mod_cast hv0
  have hpq : (1 : ℚ) ≤ (pn.visits : ℚ) := by exact_mod_cast hpv
  have hp0 : ¬ ((pn.visits : ℚ) < 0) := by linarith
  have hp1 : ¬ ((pn.visits : ℚ) = 0) := by linarith
  have hl : 0 ≤ m.log (pn.visits : ℚ) := hlog _ hpq
  have hx : ¬ (m.log (pn.visits : ℚ) / (nv.visits : ℚ) < 0) := by
    have := div_nonneg hl (le_of_lt hvpos)
    linarith
  refine ⟨.fin (s / (nv.visits : ℚ) +
    q * m.sqrt (m.log (pn.visits : ℚ) / (nv.visits : ℚ))), ?_, ?_, ?_⟩
  · simp only [getUCBScore, hu, hu0, if_true]
  · simp only [getUCBScore, hv, hne, if_false, hp, hpn, hs, JSNum.ofNat, mathLog, hp0, hp1,
      JSNum.div, hvq, mathSqrt, hx, JSNum.mul, JSNum.add]
  · rfl

/-- C9 (amended) on `sampleTree`: the unvisited leaf `2` against the visited
node `1`, whose parent has `visits = 3`. -/
theorem ucb_unvisited_beats_visited_witness :
    ∃ sv, getUCBScore sampleMath sampleTree 2 (.fin (7 / 5)) = .ok .pinf ∧
      getUCBScore sampleMath sampleTree 1 (.fin (7 / 5)) = .ok sv ∧
      JSNum.gt .pinf sv = true :=
  ucb_unvisited_beats_visited sampleMath
    (by intro x hx; simp only [sampleMath]; linarith) sampleTree 2 1 0
    { state := "leaf", parent := some 1, children := [], visits := 0, score := .fin 0 }
    { state := "mid", parent := some 0, children := [2], visits := 1, score := .fin 1 }
    { state := "root", parent := none, children := [1], visits := 3, score := .fin 2 }
    (7 / 5) 1 (by norm_num) rfl rfl rfl (by decide) rfl rfl rfl (by decide)

/-! ## `applyAction` and the node's own file map -/

/-- On `sampleFiles` and `sampleDelta`, allocated apart in an empty store,
`deepMergeInPlace` returns the object of `sampleFiles`, and the file map read
from it is the value `deepMerge` gives. -/
theorem deepMergeInPlace_sample :
    (deepMergeInPlace 3 (allocVal (allocVal [] (.obj sampleFiles)).1 (.obj sampleDelta)).1
        (allocVal [] (.obj sampleFiles)).2
        (allocVal (allocVal [] (.obj sampleFiles)).1 (.obj sampleDelta)).2).bind
      (fun r => if r.2 = (allocVal [] (.obj sampleFiles)).2 then readVal 3 r.1 r.2 else none) =
      some (deepMerge (.obj sampleFiles) (.obj sampleDelta)) := by
  rfl

/-- C10 at a failing input.  The node's state holds the file map
`{"server/server.js": "old"}` (object `0` of the store) and the gateway's
reply decodes to `{"server/server.js": "new", "README.md": "# todo"}`.
`applyAction` succeeds, and afterwards the node's own file map (still object
`0`) holds the merged files: `deepMerge` has assigned into `this.state.code`
itself.  The state returned has the very same object as its `code`. -/
theorem applyAction_mutates_own_files :
    ∃ h', applyAction 2 sampleAttempts sampleState sampleStore = some (h', sampleState) ∧
      sampleState.code = some (.ref 0) ∧
      sampleStore[0]? = some [("server/server.js", .str "old")] ∧
      h'[0]? = some [("server/server.js", .str "new"), ("README.md", .str "# todo")] :=
  ⟨_, rfl, rfl, rfl, rfl⟩

/-! ## The proposer -/

/-- A text without a `<json>`...`</json>` pair has the default payload. -/
theorem extractJson_default (text : Text)
    (hno : ¬ ∃ pre y post, text = pre ++ jsonOpen ++ y ++ jsonClose ++ post) :
    extractJsonFromText text = "{}".toList := by
  unfold extractJsonFromText
  cases hm : matchBetween jsonOpen jsonClose text with
  | none => rfl
  | some g =>
    obtain ⟨pre, post, e⟩ := matchBetween_eq_some _ _ text g hm
    exact absurd ⟨pre, g, post, e⟩ hno

/-- A payload that `JSON.parse` accepts is returned at once, whatever it is. -/
theorem getAvailableActionsFrom_decoded (env : Env) (k retries : Nat) (w : World) (text : Text)
    (v : JSValue) (hg : env.gateway w.calls .propose = .ok text)
    (hp : env.parse (extractJsonFromText text) = some v) :
    getAvailableActionsFrom env (k + 1) retries w =
      .ok v { w with
        calls := w.calls + 1,
        events := w.events ++ [.thinking (extractThinkingFromText text)] } := by
  simp only [getAvailableActionsFrom, hg, hp]

/-- Payloads that `JSON.parse` rejects use up the turns that are left: the
gateway is called once per turn and the empty list is returned. -/
theorem getAvailableActionsFrom_undecodable (env : Env) :
    ∀ (k retries : Nat) (w : World), retries + (k + 1) = maxRetries →
      (∀ c, w.calls ≤ c → c < w.calls + (k + 1) →
        ∃ text, env.gateway c .propose = .ok text ∧
          env.parse (extractJsonFromText text) = none) →
      ∃ w', getAvailableActionsFrom env (k + 1) retries w = .ok (.arr []) w' ∧
        w'.calls = w.calls + (k + 1) ∧ w'.nodes = w.nodes ∧ w'.objs = w.objs ∧
        w'.bestNode = w.bestNode ∧ w'.bestScore = w.bestScore ∧ w'.saved = w.saved := by
  intro k
  induction k with
  | zero =>
    intro retries w hr hfail
    obtain ⟨text, hg, hp⟩ := hfail w.calls (le_refl _) (by omega)
    have hr' : retries + 1 = maxRetries := by omega
    simp only [getAvailableActionsFrom, hg, hp, hr', if_true]
    exact ⟨_, rfl, rfl, rfl, rfl, rfl, rfl, rfl⟩
  | succ k ih =>
    intro retries w hr hfail
    obtain ⟨text, hg, hp⟩ := hfail w.calls (le_refl _) (by omega)
    have hr' : ¬ retries + 1 = maxRetries := by omega
    rw [getAvailableActionsFrom]
    simp only [hg, hp, hr', if_false]
    obtain ⟨w', h1, h2, h3, h4, h5, h6, h7⟩ := ih (retries + 1)
      { w with calls := w.calls + 1,
               events := w.events ++ [.thinking (extractThinkingFromText text)] }
      (by omega)
      (by
        intro c hc1 hc2
        simp only at hc1 hc2
        exact hfail c (by omega) (by omega))
    refine ⟨w', h1, ?_, h3, h4, h5, h6, h7⟩
    simp only at h2
    omega

/-- The part of C11 that the code keeps: when the payload of each of the four
answers is rejected by `JSON.parse`, `getAvailableActions` calls the gateway
four times and returns the empty list. -/
theorem getAvailableActions_undecodable (env : Env) (w : World)
    (hfail : ∀ c, w.calls ≤ c → c < w.calls + 4 →
      ∃ text, env.gateway c .propose = .ok text ∧
        env.parse (extractJsonFromText text) = none) :
    ∃ w', getAvailableActions env w = .ok (.arr []) w' ∧ w'.calls = w.calls + 4 ∧
      w'.nodes = w.nodes ∧ w'.objs = w.objs := by
  obtain ⟨w', h1, h2, h3, h4, _⟩ :=
    getAvailableActionsFrom_undecodable env 3 0 w (by decide) hfail
  exact ⟨w', h1, h2, h3, h4⟩

/-- C11 at the failing inputs.  When the gateway's first answer holds no
`<json>`...`</json>` pair, the payload is the default `{}`, which `JSON.parse`
accepts: `getAvailableActions` returns the object `{}` (not the empty list)
after a single gateway call. -/
theorem getAvailableActions_without_json_block (env : Env) (w : World) (text : Text)
    (hg : env.gateway w.calls .propose = .ok text)
    (hno : ¬ ∃ pre y post, text = pre ++ jsonOpen ++ y ++ jsonClose ++ post)
    (hp : env.parse "{}".toList = some (.obj [])) :
    getAvailableActions env w =
      .ok (.obj []) { w with
        calls := w.calls + 1,
        events := w.events ++ [.thinking (extractThinkingFromText text)] } := by
  unfold getAvailableActions maxRetries
  exact getAvailableActionsFrom_decoded env 3 0 w text _ hg
    (by rw [extractJson_default text hno]; exact hp)

/-- C11 on a gateway that answers with a refusal without tags: one call, and
the object `{}`. -/
theorem getAvailableActions_without_json_block_witness :
    getAvailableActions (sampleEnv refusingGateway) sampleWorld =
      .ok (.obj []) { sampleWorld with
        calls := sampleWorld.calls + 1,
        events := sampleWorld.events ++
          [.thinking (extractThinkingFromText "I cannot help with that.".toList)] } :=
  getAvailableActions_without_json_block (sampleEnv refusingGateway) sampleWorld
    "I cannot help with that.".toList rfl
    (by
      rintro ⟨pre, y, post, e⟩
      have hmem : '<' ∈ "I cannot help with that.".toList := by
        rw [e]; simp [jsonOpen]
      exact absurd hmem (by decide))
    rfl

/-- C13 at the failing input.  The gateway call of `getAvailableActions`
stands before its `try`: when the gateway raises, the exception leaves
`getAvailableActions` after that single call; no retry, no empty list. -/
theorem getAvailableActions_gateway_raises (env : Env) (w : World) (message : String)
    (hg : env.gateway w.calls .propose = .error message) :
    getAvailableActions env w = .thrown message { w with calls := w.calls + 1 } := by
  unfold getAvailableActions maxRetries
  simp only [getAvailableActionsFrom, hg]

/-- C13 on a gateway that raises on every call. -/
theorem getAvailableActions_gateway_raises_witness :
    getAvailableActions (sampleEnv failingGateway) sampleWorld =
      .thrown "503 Service Unavailable" { sampleWorld with calls := sampleWorld.calls + 1 } :=
  getAvailableActions_gateway_raises (sampleEnv failingGateway) sampleWorld
    "503 Service Unavailable" rfl

/-! ## The applier -/

theorem updatedCodeOf_not_object (v : JSValue) (hv : v.isObject = false) :
    ∃ message, updatedCodeOf v = .error message := by
  cases v with
  | undefined => exact ⟨_, rfl⟩
  | null => exact ⟨_, rfl⟩
  | bool b => exact ⟨_, rfl⟩
  | num n => exact ⟨_, rfl⟩
  | str s => exact ⟨_, rfl⟩
  | arr items => simp [JSValue.isObject] at hv
  | obj props => simp [JSValue.isObject] at hv

/-- Each of the listed failures makes the attempt end in an exception. -/
theorem applyAttempt_of_fails (env : Env) (reply : Except String Text)
    (hf : attemptFails env reply) :
    ∃ thinking message, applyAttempt env reply = (thinking, .error message) := by
  have h2 : ∃ message, (applyAttempt env reply).2 = .error message := by
    rcases hf with ⟨m, rfl⟩ | ⟨text, rfl, hm⟩ | ⟨text, g, rfl, hm, hp1, hp2⟩ |
      ⟨text, g, v, rfl, hm, hp, hv⟩
    · exact ⟨m, rfl⟩
    · exact ⟨"No JSON found in the response", by simp only [applyAttempt, hm]⟩
    · exact ⟨"Invalid JSON format in LLM response, even after cleanup",
        by simp only [applyAttempt, hm, hp1, hp2]⟩
    · obtain ⟨msg, hmsg⟩ := updatedCodeOf_not_object v hv
      rcases hp with hp | ⟨hp1, hp2⟩
      · exact ⟨msg, by simp only [applyAttempt, hm, hp, hmsg]⟩
      · exact ⟨msg, by simp only [applyAttempt, hm, hp1, hp2, hmsg]⟩
  obtain ⟨msg, hmsg⟩ := h2
  exact ⟨(applyAttempt env reply).1, msg, Prod.ext rfl hmsg⟩

/-- Failing attempts use up the turns that are left: one gateway call per
turn, then the state tagged with an error; no object is touched. -/
theorem applyActionViaFrom_all_fail (env : Env) (fuel : Nat) (state : ProjectState)
    (action : JSValue) :
    ∀ (k retries : Nat) (w : World), retries + (k + 1) = maxRetries →
      (∀ c, w.calls ≤ c → c < w.calls + (k + 1) →
        attemptFails env (env.gateway c (.apply action))) →
      ∃ w' message, applyActionViaFrom env fuel state action (k + 1) retries w =
          .ok { state with error := some ("Failed to apply action after 4 attempts: " ++ message) }
            w' ∧
        w'.calls = w.calls + (k + 1) ∧ w'.nodes = w.nodes ∧ w'.objs = w.objs ∧
        w'.bestNode = w.bestNode ∧ w'.bestScore = w.bestScore ∧ w'.saved = w.saved := by
  intro k
  induction k with
  | zero =>
    intro retries w hr hfail
    obtain ⟨th, msg, ha⟩ := applyAttempt_of_fails env _ (hfail w.calls (le_refl _) (by omega))
    have hr' : retries + 1 = maxRetries := by omega
    rw [applyActionViaFrom]
    simp only [ha, hr', if_true]
    exact ⟨_, msg, rfl, rfl, rfl, rfl, rfl, rfl, rfl⟩
  | succ k ih =>
    intro retries w hr hfail
    obtain ⟨th, msg, ha⟩ := applyAttempt_of_fails env _ (hfail w.calls (le_refl _) (by omega))
    have hr' : ¬ retries + 1 = maxRetries := by omega
    rw [applyActionViaFrom]
    simp only [ha, hr', if_false]
    obtain ⟨w', m', h1, h2, h3, h4, h5, h6, h7⟩ := ih (retries + 1)
      { w with calls := w.calls + 1, events := withThinking w.events th }
      (by omega)
      (by
        intro c hc1 hc2
        simp only at hc1 hc2
        exact hfail c (by omega) (by omega))
    refine ⟨w', m', h1, ?_, h3, h4, h5, h6, h7⟩
    simp only at h2
    omega

/-- The first attempt that decodes ends the loop after its own gateway call. -/
theorem applyActionViaFrom_first_success (env : Env) (fuel : Nat) (state : ProjectState)
    (action : JSValue) :
    ∀ (j k retries : Nat) (w : World), j < k → retries + k = maxRetries →
      (∀ c, w.calls ≤ c → c < w.calls + j →
        attemptFails env (env.gateway c (.apply action))) →
      ∀ (thinking : Option Text) (updatedCode : JSValue) (newState : ProjectState)
        (objs' : ObjStore),
        applyAttempt env (env.gateway (w.calls + j) (.apply action)) =
          (thinking, .ok updatedCode) →
        mergeInto fuel state updatedCode w.objs = some (newState, objs') →
        ∃ w', applyActionViaFrom env fuel state action k retries w = .ok newState w' ∧
          w'.calls = w.calls + j + 1 ∧ w'.objs = objs' ∧ w'.nodes = w.nodes := by
  intro j
  induction j with
  | zero =>
    intro k retries w hjk hr _ thinking uc st objs' ha hm
    obtain ⟨k', rfl⟩ : ∃ k', k = k' + 1 := ⟨k - 1, by omega⟩
    rw [applyActionViaFrom]
    simp only [Nat.add_zero] at ha
    simp only [ha, hm]
    exact ⟨_, rfl, rfl, rfl, rfl⟩
  | succ j ih =>
    intro k retries w hjk hr hfail thinking uc st objs' ha hm
    obtain ⟨k', rfl⟩ : ∃ k', k = k' + 1 := ⟨k - 1, by omega⟩
    obtain ⟨th, msg, hf⟩ := applyAttempt_of_fails env _ (hfail w.calls (le_refl _) (by omega))
    have hr' : ¬ retries + 1 = maxRetries := by omega
    rw [applyActionViaFrom]
    simp only [hf, hr', if_false]
    obtain ⟨w', h1, h2, h3, h4⟩ := ih k' (retries + 1)
      { w with calls := w.calls + 1, events := withThinking w.events th }
      (by omega) (by omega)
      (by
        intro c hc1 hc2
        simp only at hc1 hc2
        exact hfail c (by omega) (by omega))
      thinking uc st objs'
      (by
        simp only
        rw [show w.calls + 1 + j = w.calls + (j + 1) by omega]
        exact ha)
      hm
    refine ⟨w', h1, ?_, h3, h4⟩
    simp only at h2
    omega

/-- C12. When each of the four attempts of `applyAction` fails (the gateway
raises, the answer has no `<json>` block, the payload is not valid JSON even
after cleanup, or it is not an object), `applyAction` returns without
throwing, after exactly four gateway calls, the node's state with `error` set
to a non-empty message: every other field is the node's, the file map
included, and no object has changed.  And when the attempts before the
`j`-th fail and the `j`-th decodes and merges (`j < 4`), `applyAction` returns
the merged state after exactly `j + 1` gateway calls. -/
theorem applyAction_retries (env : Env) (fuel : Nat) (state : ProjectState)
    (action : JSValue) (w : World) :
    ((∀ c, w.calls ≤ c → c < w.calls + 4 →
        attemptFails env (env.gateway c (.apply action))) →
      ∃ w' message, applyActionVia env fuel state action w =
          .ok { state with error := some message } w' ∧
        message ≠ "" ∧ w'.calls = w.calls + 4 ∧ w'.objs = w.objs ∧ w'.nodes = w.nodes) ∧
    (∀ (j : Nat) (thinking : Option Text) (updatedCode : JSValue) (newState : ProjectState)
        (objs' : ObjStore), j < 4 →
      (∀ c, w.calls ≤ c → c < w.calls + j →
        attemptFails env (env.gateway c (.apply action))) →
      applyAttempt env (env.gateway (w.calls + j) (.apply action)) =
        (thinking, .ok updatedCode) →
      mergeInto fuel state updatedCode w.objs = some (newState, objs') →
      ∃ w', applyActionVia env fuel state action w = .ok newState w' ∧
        w'.calls = w.calls + j + 1 ∧ w'.objs = objs') := by
  constructor
  · intro hfail
    obtain ⟨w', msg, h1, h2, h3, h4, _⟩ :=
      applyActionViaFrom_all_fail env fuel state action 3 0 w (by decide) hfail
    refine ⟨w', _, h1, ?_, h2, h4, h3⟩
    intro h
    have := congrArg String.length h
    simp only [String.length_append] at this
    have hlen : 0 < "Failed to apply action after 4 attempts: ".length := by decide
    change _ = 0 at this
    omega
  · intro j thinking uc st objs' hj hfail ha hm
    obtain ⟨w', h1, h2, h3, _⟩ :=
      applyActionViaFrom_first_success env fuel state action j 4 0 w hj (by decide) hfail
        thinking uc st objs' ha hm
    exact ⟨w', h1, h2, h3⟩

/-- C12 on a gateway that raises on every call, and on one that raises twice
and then answers with a delta. -/
theorem applyAction_retries_witness :
    (∃ w' message, applyActionVia (sampleEnv failingGateway) 2 sampleState .undefined
          sampleWorld = .ok { sampleState with error := some message } w' ∧
        message ≠ "" ∧ w'.calls = sampleWorld.calls + 4 ∧ w'.objs = sampleWorld.objs ∧
        w'.nodes = sampleWorld.nodes) ∧
    (∃ w', applyActionVia (sampleEnv recoveringGateway) 2 sampleState .undefined sampleWorld =
          .ok sampleState w' ∧
        w'.calls = sampleWorld.calls + 2 + 1 ∧
        w'.objs = [[("server/server.js", .str "...")], [("server/server.js", .str "...")]]) :=
  ⟨(applyAction_retries (sampleEnv failingGateway) 2 sampleState .undefined sampleWorld).1
      (fun _ _ _ => Or.inl ⟨"503 Service Unavailable", rfl⟩),
   (applyAction_retries (sampleEnv recoveringGateway) 2 sampleState .undefined sampleWorld).2
      2 (some []) (.obj [("server/server.js", .str "...")]) sampleState
      [[("server/server.js", .str "...")], [("server/server.js", .str "...")]] (by decide)
      (fun c _ hc => Or.inl ⟨"timeout", by
        have hc' : c < 2 := hc
        interval_cases c <;> rfl⟩)
      rfl rfl⟩

/-! ## The evaluator and the terminal predicate -/

theorem parseFloat_default : parseFloat "{}".toList = .nan := rfl

/-- C14. `evaluateState` makes exactly one gateway call, and it returns `0`
when that call raises, when the answer holds no `<json>`...`</json>` score
block, and when the score text parses to `NaN`. -/
theorem evaluateState_fails_closed (env : Env) (w : World) :
    (evaluateState env w).2.calls = w.calls + 1 ∧
    (∀ message, env.gateway w.calls .evaluate = .error message →
      (evaluateState env w).1 = .fin 0) ∧
    (∀ text, env.gateway w.calls .evaluate = .ok text →
      (¬ ∃ pre y post, text = pre ++ jsonOpen ++ y ++ jsonClose ++ post) →
      (evaluateState env w).1 = .fin 0) ∧
    (∀ text, env.gateway w.calls .evaluate = .ok text →
      parseFloat (extractJsonFromText text) = .nan →
      (evaluateState env w).1 = .fin 0) := by
  refine ⟨?_, ?_, ?_, ?_⟩
  · unfold evaluateState
    cases env.gateway w.calls .evaluate <;> rfl
  · intro message hg
    simp only [evaluateState, hg]
  · intro text hg hno
    simp only [evaluateState, hg, extractJson_default text hno, parseFloat_default, if_true]
  · intro text hg hnan
    simp only [evaluateState, hg, hnan, if_true]

/-- C14 on a gateway that raises, on one that answers without tags, and on
one whose score block is no number. -/
theorem evaluateState_fails_closed_witness :
    (evaluateState (sampleEnv failingGateway) sampleWorld).1 = .fin 0 ∧
    (evaluateState (sampleEnv refusingGateway) sampleWorld).1 = .fin 0 ∧
    (evaluateState (sampleEnv garbageGateway) sampleWorld).1 = .fin 0 :=
  ⟨(evaluateState_fails_closed (sampleEnv failingGateway) sampleWorld).2.1
      "503 Service Unavailable" rfl,
   (evaluateState_fails_closed (sampleEnv refusingGateway) sampleWorld).2.2.1
      "I cannot help with that.".toList rfl (by
        rintro ⟨pre, y, post, e⟩
        have hmem : '<' ∈ "I cannot help with that.".toList := by
          rw [e]; simp [jsonOpen]
        exact absurd hmem (by decide)),
   (evaluateState_fails_closed (sampleEnv garbageGateway) sampleWorld).2.2.2
      "<thinking>hm</thinking><json>not json at all</json>".toList rfl rfl⟩

/-- The claim of C15 fails: on a gateway whose score block is `7`,
`evaluateState` returns `7`, which is not at most `1`. -/
theorem evaluateState_above_one :
    (evaluateState (sampleEnv generousGateway) sampleWorld).1 = .fin 7 ∧
    JSNum.gt (.fin 7) (.fin 1) = true := by
  constructor
  · with_unfolding_all rfl
  · decide

/-- C15 (amended). The score `evaluateState` returns is never `NaN`; it is `0`
when the gateway raises; otherwise it is `0` when the payload of the answer
does not start with a number, and exactly the number the payload starts with
when it does, whatever its size: it lies between `0` and `1` when that number
does. -/
theorem evaluateState_range (env : Env) (w : World) :
    (evaluateState env w).1 ≠ .nan ∧
    (∀ message, env.gateway w.calls .evaluate = .error message →
      (evaluateState env w).1 = .fin 0) ∧
    (∀ text, env.gateway w.calls .evaluate = .ok text →
      (evaluateState env w).1 =
        if parseFloat (extractJsonFromText text) = .nan then .fin 0
        else parseFloat (extractJsonFromText text)) ∧
    (∀ text q, env.gateway w.calls .evaluate = .ok text →
      parseFloat (extractJsonFromText text) = .fin q → 0 ≤ q → q ≤ 1 →
      ∃ s, (evaluateState env w).1 = .fin s ∧ 0 ≤ s ∧ s ≤ 1) := by
  refine ⟨?_, ?_, ?_, ?_⟩
  · unfold evaluateState
    cases hg : env.gateway w.calls .evaluate with
    | error m => simp
    | ok text =>
      simp only
      by_cases hn : parseFloat (extractJsonFromText text) = .nan
      · simp [hn]
      · simp [hn]
  · intro message hg
    simp only [evaluateState, hg]
  · intro text hg
    simp only [evaluateState, hg]
  · intro text q hg hq h0 h1
    refine ⟨q, ?_, h0, h1⟩
    simp only [evaluateState, hg, hq]
    simp

/-- C15 (amended) on a gateway that raises and on one that scores `0.9`. -/
theorem evaluateState_range_witness :
    (evaluateState (sampleEnv failingGateway) sampleWorld).1 = .fin 0 ∧
    (∃ s, (evaluateState (sampleEnv fairGateway) sampleWorld).1 = .fin s ∧ 0 ≤ s ∧ s ≤ 1) :=
  ⟨(evaluateState_range (sampleEnv failingGateway) sampleWorld).2.1
      "503 Service Unavailable" rfl,
   (evaluateState_range (sampleEnv fairGateway) sampleWorld).2.2.2
      "<thinking>good</thinking><json>0.9</json>".toList (9 / 10) rfl
      (by with_unfolding_all rfl) (by norm_num) (by norm_num)⟩

/-- C20. `isTerminalState` returns `false`, without throwing, when the gateway
call raises and when `JSON.parse` rejects the extracted payload. -/
theorem isTerminalState_fails_closed (env : Env) (w : World) :
    (∀ message, env.gateway w.calls .terminal = .error message →
      (isTerminalState env w).1 = .bool false) ∧
    (∀ text, env.gateway w.calls .terminal = .ok text →
      env.parse (extractJsonFromText text) = none →
      (isTerminalState env w).1 = .bool false) := by
  constructor
  · intro message hg
    simp only [isTerminalState, hg]
  · intro text hg hp
    simp only [isTerminalState, hg, hp]

/-- C20 on a gateway that raises and on one whose payload is no JSON. -/
theorem isTerminalState_fails_closed_witness :
    (isTerminalState (sampleEnv failingGateway) sampleWorld).1 = .bool false ∧
    (isTerminalState (sampleEnv garbageGateway) sampleWorld).1 = .bool false :=
  ⟨(isTerminalState_fails_closed (sampleEnv failingGateway) sampleWorld).1
      "503 Service Unavailable" rfl,
   (isTerminalState_fails_closed (sampleEnv garbageGateway) sampleWorld).2
      "<thinking>hm</thinking><json>not json at all</json>".toList rfl rfl⟩

/-! ## Copies of file maps in the store -/

theorem getKey_fresh {β : Type} (k : String) (m : List (String × β)) (hk : k ∉ keysOf m) :
    getKey k m = none := by
  induction m with
  | nil => rfl
  | cons e rest ih =>
    obtain ⟨k0, v0⟩ := e
    simp [keysOf] at hk
    have h : ¬ k0 = k := fun e => hk.1 e.symm
    simp only [getKey, h, if_false]
    exact ih (by simpa [keysOf] using hk.2)

theorem setKey_fresh {β : Type} (k : String) (v : β) (m : List (String × β))
    (hk : k ∉ keysOf m) : setKey k v m = m ++ [(k, v)] := by
  induction m with
  | nil => rfl
  | cons e rest ih =>
    obtain ⟨k0, v0⟩ := e
    simp [keysOf] at hk
    have h : ¬ k0 = k := fun e => hk.1 e.symm
    simp only [setKey, h, if_false, List.cons_append]
    rw [ih (by simpa [keysOf] using hk.2)]

mutual
theorem holds_frame (h h' : ObjStore) (lo hi : Nat)
    (hag : ∀ o : Nat, lo ≤ o → o < hi → h'[o]? = h[o]?) :
    ∀ (fv : FileVal) (v : JSVal), holds h lo hi v fv → holds h' lo hi v fv
  | .str _, .str _, hv => by simpa only [holds] using hv
  | .str _, .ref _, hv => by simp only [holds] at hv
  | .obj _, .str _, hv => by simp only [holds] at hv
  | .obj es, .ref o, hv => by
    simp only [holds] at hv ⊢
    obtain ⟨h1, h2, props, hp, hps⟩ := hv
    exact ⟨h1, h2, props, by rw [hag o h1 h2]; exact hp,
      holdsProps_frame h h' lo hi hag es props hps⟩
theorem holdsProps_frame (h h' : ObjStore) (lo hi : Nat)
    (hag : ∀ o : Nat, lo ≤ o → o < hi → h'[o]? = h[o]?) :
    ∀ (es : Entries) (ps : JSObj), holdsProps h lo hi ps es → holdsProps h' lo hi ps es
  | [], [], _ => by simp only [holdsProps]
  | _ :: _, [], hv => by simp only [holdsProps] at hv
  | [], _ :: _, hv => by simp only [holdsProps] at hv
  | (_, fv) :: es, (_, v) :: ps, hv => by
    simp only [holdsProps] at hv ⊢
    exact ⟨hv.1, holds_frame h h' lo hi hag fv v hv.2.1,
      holdsProps_frame h h' lo hi hag es ps hv.2.2⟩
end

mutual
theorem holds_mono (h : ObjStore) (lo hi lo' hi' : Nat) (hlo : lo' ≤ lo) (hhi : hi ≤ hi') :
    ∀ (fv : FileVal) (v : JSVal), holds h lo hi v fv → holds h lo' hi' v fv
  | .str _, .str _, hv => by simpa only [holds] using hv
  | .str _, .ref _, hv => by simp only [holds] at hv
  | .obj _, .str _, hv => by simp only [holds] at hv
  | .obj es, .ref o, hv => by
    simp only [holds] at hv ⊢
    obtain ⟨h1, h2, props, hp, hps⟩ := hv
    exact ⟨le_trans hlo h1, lt_of_lt_of_le h2 hhi, props, hp,
      holdsProps_mono h lo hi lo' hi' hlo hhi es props hps⟩
theorem holdsProps_mono (h : ObjStore) (lo hi lo' hi' : Nat) (hlo : lo' ≤ lo) (hhi : hi ≤ hi') :
    ∀ (es : Entries) (ps : JSObj), holdsProps h lo hi ps es → holdsProps h lo' hi' ps es
  | [], [], _ => by simp only [holdsProps]
  | _ :: _, [], hv => by simp only [holdsProps] at hv
  | [], _ :: _, hv => by simp only [holdsProps] at hv
  | (_, fv) :: es, (_, v) :: ps, hv => by
    simp only [holdsProps] at hv ⊢
    exact ⟨hv.1, holds_mono h lo hi lo' hi' hlo hhi fv v hv.2.1,
      holdsProps_mono h lo hi lo' hi' hlo hhi es ps hv.2.2⟩
end

theorem holdsProps_keys (h : ObjStore) (lo hi : Nat) :
    ∀ (es : Entries) (ps : JSObj), holdsProps h lo hi ps es → keysOf ps = keysOf es
  | [], [], _ => rfl
  | _ :: _, [], hv => by simp only [holdsProps] at hv
  | [], _ :: _, hv => by simp only [holdsProps] at hv
  | (_, _) :: es, (_, _) :: ps, hv => by
    simp only [holdsProps] at hv
    simp only [keysOf, List.map_cons, hv.1, List.cons.injEq, true_and]
    exact holdsProps_keys h lo hi es ps hv.2.2

theorem holdsProps_append (h : ObjStore) (lo hi : Nat) (k : String) (v : JSVal) (fv : FileVal)
    (hv : holds h lo hi v fv) :
    ∀ (es : Entries) (ps : JSObj), holdsProps h lo hi ps es →
      holdsProps h lo hi (ps ++ [(k, v)]) (es ++ [(k, fv)])
  | [], [], _ => by simp only [List.nil_append, holdsProps, hv, and_self]
  | _ :: _, [], hp => by simp only [holdsProps] at hp
  | [], _ :: _, hp => by simp only [holdsProps] at hp
  | (_, _) :: es, (_, _) :: ps, hp => by
    simp only [holdsProps, List.cons_append] at hp ⊢
    exact ⟨hp.1, hp.2.1, holdsProps_append h lo hi k v fv hv es ps hp.2.2⟩

mutual
theorem readVal_of_holds (h : ObjStore) (lo hi : Nat) :
    ∀ (fv : FileVal) (v : JSVal) (fuel : Nat), holds h lo hi v fv → fileDepth fv < fuel →
      readVal fuel h v = some fv
  | .str _, .str _, fuel, hv, hf => by
    simp only [holds] at hv
    obtain ⟨f, rfl⟩ : ∃ f, fuel = f + 1 := ⟨fuel - 1, by omega⟩
    simp only [readVal, hv]
  | .str _, .ref _, _, hv, _ => by simp only [holds] at hv
  | .obj _, .str _, _, hv, _ => by simp only [holds] at hv
  | .obj es, .ref o, fuel, hv, hf => by
    simp only [holds] at hv
    obtain ⟨_, _, props, hp, hps⟩ := hv
    obtain ⟨f, rfl⟩ : ∃ f, fuel = f + 1 := ⟨fuel - 1, by omega⟩
    simp only [fileDepth] at hf
    simp only [readVal, hp, readProps_of_holds h lo hi es props f hps (by omega)]
theorem readProps_of_holds (h : ObjStore) (lo hi : Nat) :
    ∀ (es : Entries) (ps : JSObj) (fuel : Nat), holdsProps h lo hi ps es →
      entriesDepth es < fuel → readProps (readVal fuel h) ps = some es
  | [], [], _, _, _ => rfl
  | _ :: _, [], _, hv, _ => by simp only [holdsProps] at hv
  | [], _ :: _, _, hv, _ => by simp only [holdsProps] at hv
  | (_, fv) :: es, (_, v) :: ps, fuel, hv, hf => by
    simp only [holdsProps] at hv
    simp only [entriesDepth] at hf
    simp only [readProps, readVal_of_holds h lo hi fv v fuel hv.2.1 (by omega),
      readProps_of_holds h lo hi es ps fuel hv.2.2 (by omega), hv.1]
end

mutual
theorem allocVal_spec : ∀ (fv : FileVal) (h : ObjStore),
    h.length ≤ (allocVal h fv).1.length ∧
    (∀ b : Nat, b < h.length → (allocVal h fv).1[b]? = h[b]?) ∧
    holds (allocVal h fv).1 h.length (allocVal h fv).1.length (allocVal h fv).2 fv
  | .str _, h => by simp [allocVal, holds]
  | .obj es, h => by
    obtain ⟨a1, a2, a3⟩ := allocEntries_spec es h
    simp only [allocVal]
    generalize allocEntries h es = r at a1 a2 a3 ⊢
    refine ⟨by simp; omega, ?_, ?_⟩
    · intro b hb
      rw [List.getElem?_append_left (by omega)]
      exact a2 b hb
    · simp only [holds, List.length_append, List.length_singleton]
      refine ⟨a1, Nat.lt_succ_self _, r.2, by simp, ?_⟩
      refine holdsProps_mono (r.1 ++ [r.2]) h.length r.1.length _ _ (le_refl _)
        (Nat.le_succ _) es r.2 (holdsProps_frame r.1 _ _ _ ?_ es r.2 a3)
      intro o _ ho
      exact List.getElem?_append_left ho
theorem allocEntries_spec : ∀ (es : Entries) (h : ObjStore),
    h.length ≤ (allocEntries h es).1.length ∧
    (∀ b : Nat, b < h.length → (allocEntries h es).1[b]? = h[b]?) ∧
    holdsProps (allocEntries h es).1 h.length (allocEntries h es).1.length (allocEntries h es).2 es
  | [], h => by simp [allocEntries, holdsProps]
  | (k, fv) :: rest, h => by
    obtain ⟨a1, a2, a3⟩ := allocVal_spec fv h
    simp only [allocEntries]
    generalize allocVal h fv = r1 at a1 a2 a3 ⊢
    obtain ⟨b1, b2, b3⟩ := allocEntries_spec rest r1.1
    generalize allocEntries r1.1 rest = r2 at b1 b2 b3 ⊢
    refine ⟨by omega, ?_, ?_⟩
    · intro b hb
      rw [b2 b (by omega), a2 b hb]
    · simp only [holdsProps, true_and]
      refine ⟨?_, holdsProps_mono r2.1 _ _ _ _ a1 (le_refl _) rest r2.2 b3⟩
      refine holds_mono r2.1 _ _ _ _ (le_refl _) b1 fv r1.2 ?_
      exact holds_frame r1.1 r2.1 _ _ (fun o _ ho => b2 o ho) fv r1.2 a3
end
theorem getKey_of_mem {β : Type} (k : String) (v : β) :
    ∀ (m : List (String × β)), (keysOf m).Nodup → (k, v) ∈ m → getKey k m = some v
  | [], _, hm => by simp at hm
  | (k0, v0) :: rest, hn, hm => by
    simp only [keysOf, List.map_cons, List.nodup_cons] at hn
    simp only [List.mem_cons, Prod.mk.injEq] at hm
    by_cases hk : k0 = k
    · rcases hm with ⟨_, hv⟩ | hm
      · simp only [getKey, hk, if_true, hv]
      · exact absurd (List.mem_map.mpr ⟨(k, v), hm, rfl⟩) (hk ▸ hn.1)
    · rcases hm with ⟨hk', _⟩ | hm
      · exact absurd hk'.symm hk
      · simp only [getKey, hk, if_false]
        exact getKey_of_mem k v rest hn.2 hm

theorem uniqueKeysEntries_nodup : ∀ (es : Entries), uniqueKeysEntries es = true →
    (keysOf es).Nodup
  | [], _ => by simp [keysOf]
  | (k, v) :: rest, hu => by
    obtain ⟨h1, _, h3⟩ := (uniqueKeysEntries_cons k v rest).mp hu
    simp only [keysOf, List.map_cons, List.nodup_cons]
    exact ⟨h1, uniqueKeysEntries_nodup rest h3⟩

theorem mergeKeysInPlace_copy (recur : ObjStore → JSVal → JSVal → Option (ObjStore × JSVal))
    (f : Nat) (hrec : copiesMaps recur f) :
    ∀ (es : Entries) (ps : JSObj) (done : Entries) (tprops sprops : JSObj) (h : ObjStore)
      (lo hi c t s : Nat),
      holdsProps h lo hi ps es → uniqueKeysEntries es = true → entriesDepth es ≤ f →
      h[s]? = some sprops → lo ≤ s → s < hi →
      (∀ k v, (k, v) ∈ ps → getKey k sprops = some v) →
      h[t]? = some tprops → holdsProps h c h.length tprops done →
      (∀ k, k ∈ keysOf es → k ∉ keysOf done) →
      (t < lo ∨ hi ≤ t) → t < c → hi ≤ c → c ≤ h.length →
      ∃ h' tprops', mergeKeysInPlace recur t s (keysOf ps) h = some h' ∧
        h.length ≤ h'.length ∧ (∀ b : Nat, b < h.length → b ≠ t → h'[b]? = h[b]?) ∧
        h'[t]? = some tprops' ∧ holdsProps h' c h'.length tprops' (done ++ es) := by
  intro es
  induction es with
  | nil =>
    intro ps done tprops sprops h lo hi c t s hps _ _ _ _ _ _ ht hd _ _ _ _ _
    cases ps with
    | cons p ps' => simp only [holdsProps] at hps
    | nil =>
      refine ⟨h, tprops, rfl, le_refl _, fun _ _ _ => rfl, ht, ?_⟩
      simpa using hd
  | cons e es' ih =>
    intro ps done tprops sprops h lo hi c t s hps hu hdep hs hs1 hs2 hget ht hd hfresh htr htc hic hcl
    obtain ⟨k, fv⟩ := e
    cases ps with
    | nil => simp only [holdsProps] at hps
    | cons p ps' =>
      obtain ⟨k', v⟩ := p
      simp only [holdsProps] at hps
      obtain ⟨hk, hv, hps'⟩ := hps
      subst hk
      obtain ⟨hk1, hu1, hu2⟩ := (uniqueKeysEntries_cons k' fv es').mp hu
      simp only [entriesDepth] at hdep
      have htl : t < h.length := (List.getElem?_eq_some.mp ht).1
      have hst : s ≠ t := by omega
      have hkd : k' ∉ keysOf tprops := by
        rw [holdsProps_keys h c h.length done tprops hd]
        exact hfresh k' (by simp [keysOf])
      have hgk : getKey k' sprops = some v := hget k' v (List.mem_cons_self _ _)
      have hfresh' : ∀ (fv' : FileVal) (k : String), k ∈ keysOf es' →
          k ∉ keysOf (done ++ [(k', fv')]) := by
        intro fv' k hk hmem
        simp only [keysOf, List.map_append, List.map_cons, List.map_nil, List.mem_append,
          List.mem_singleton] at hmem
        rcases hmem with hmem | hmem
        · exact hfresh k (by simp only [keysOf, List.map_cons, List.mem_cons]; exact Or.inr hk) hmem
        · exact hk1 (hmem ▸ hk)
      simp only [keysOf, List.map_cons, mergeKeysInPlace, hs, hgk]
      cases fv with
      | str content =>
        cases v with
        | ref o => simp only [holds] at hv
        | str x =>
          simp only [holds] at hv
          subst hv
          simp only [setProp, ht, setKey_fresh k' (JSVal.str x) tprops hkd]
          have hag : ∀ b : Nat, b ≠ t → (h.set t (tprops ++ [(k', JSVal.str x)]))[b]? = h[b]? := by
            intro b hb
            simp [List.getElem?_set, Ne.symm hb]
          obtain ⟨h', tprops', r1, r2, r3, r4, r5⟩ :=
            ih ps' (done ++ [(k', .str x)]) (tprops ++ [(k', .str x)]) sprops
              (h.set t (tprops ++ [(k', JSVal.str x)])) lo hi c t s
              (holdsProps_frame h _ lo hi (fun o h1 h2 => hag o (by omega)) es' ps' hps')
              hu2 (by omega) (by rw [hag s hst]; exact hs) hs1 hs2
              (fun k v hm => hget k v (List.mem_cons_of_mem _ hm))
              (by simp [List.getElem?_set, htl])
              (by
                rw [List.length_set]
                refine holdsProps_append _ c h.length k' (.str x) (.str x) (by simp only [holds])
                  done tprops ?_
                exact holdsProps_frame h _ c h.length (fun o h1 _ => hag o (by omega)) done tprops hd)
              (hfresh' (.str x)) htr htc hic (by rw [List.length_set]; exact hcl)
          rw [List.length_set] at r2 r3
          refine ⟨h', tprops', r1, r2, ?_, r4, ?_⟩
          · intro b hb hbt
            rw [r3 b hb hbt, hag b hbt]
          · simpa using r5
      | obj es'' =>
        cases v with
        | str x => simp only [holds] at hv
        | ref sv =>
          have hv0 := hv
          simp only [holds] at hv
          obtain ⟨hv1, hv2, svprops, hsv, hsvp⟩ := hv
          simp only [uniqueKeys] at hu1
          simp only [fileDepth] at hdep
          simp only [ht, getKey_fresh k' tprops hkd, orNewObject]
          have hag0 : ∀ b : Nat, b < h.length → (h ++ [([] : JSObj)])[b]? = h[b]? :=
            fun b hb => List.getElem?_append_left hb
          obtain ⟨h2, tp2, q1, q2, q3, q4, q5⟩ :=
            hrec es'' (h ++ [[]]) lo hi (h.length + 1) h.length sv
              (holds_frame h _ lo hi (fun o _ h2 => hag0 o (by omega)) (.obj es'') (.ref sv) hv0)
              hu1 (by omega) (by simp) (Or.inr (by omega)) (Nat.lt_succ_self _) (by omega)
              (by simp)
          simp only [List.length_append, List.length_singleton] at q2 q3
          simp only [q1]
          have h2t : h2[t]? = some tprops := by
            rw [q3 t (by omega) (by omega), hag0 t htl]; exact ht
          simp only [setProp, h2t, setKey_fresh k' (JSVal.ref h.length) tprops hkd]
          have hag : ∀ b : Nat, b ≠ t →
              (h2.set t (tprops ++ [(k', JSVal.ref h.length)]))[b]? = h2[b]? := by
            intro b hb
            simp [List.getElem?_set, Ne.symm hb]
          have hag2 : ∀ b : Nat, b < h.length → b ≠ t →
              (h2.set t (tprops ++ [(k', JSVal.ref h.length)]))[b]? = h[b]? := by
            intro b hb hbt
            rw [hag b hbt, q3 b (by omega) (by omega), hag0 b hb]
          have hnew : holds (h2.set t (tprops ++ [(k', JSVal.ref h.length)])) c h2.length
              (.ref h.length) (.obj es'') := by
            refine holds_frame h2 _ c h2.length (fun o h1 _ => hag o (by omega)) (.obj es'')
              (.ref h.length) ?_
            simp only [holds]
            exact ⟨hcl, q2, tp2, q4,
              holdsProps_mono h2 _ _ _ _ (by omega) (le_refl _) es'' tp2 q5⟩
          obtain ⟨h', tprops', r1, r2, r3, r4, r5⟩ :=
            ih ps' (done ++ [(k', .obj es'')]) (tprops ++ [(k', .ref h.length)]) sprops
              (h2.set t (tprops ++ [(k', JSVal.ref h.length)])) lo hi c t s
              (holdsProps_frame h _ lo hi (fun o h1 h2 => hag2 o (by omega) (by omega)) es' ps' hps')
              hu2 (by omega) (by rw [hag2 s (by omega) hst]; exact hs) hs1 hs2
              (fun k v hm => hget k v (List.mem_cons_of_mem _ hm))
              (by simp [List.getElem?_set]; omega)
              (by
                rw [List.length_set]
                refine holdsProps_append _ c h2.length k' (.ref h.length) (.obj es'') hnew
                  done tprops ?_
                refine holdsProps_mono _ c h.length c h2.length (le_refl _) (by omega) done tprops ?_
                exact holdsProps_frame h _ c h.length
                  (fun o h1 h2 => hag2 o h2 (by omega)) done tprops hd)
              (hfresh' (.obj es'')) htr htc hic (by rw [List.length_set]; omega)
          rw [List.length_set] at r2 r3
          refine ⟨h', tprops', r1, by omega, ?_, r4, ?_⟩
          · intro b hb hbt
            rw [r3 b (by omega) hbt, hag2 b hb hbt]
          · simpa using r5

theorem deepMergeInPlace_copy : ∀ f : Nat, copiesMaps (deepMergeInPlace f) f := by
  intro f
  induction f with
  | zero =>
    intro es h lo hi c t s _ _ hdep
    omega
  | succ f ih =>
    intro es h lo hi c t s hv hu hdep ht htr htc hic hcl
    simp only [holds] at hv
    obtain ⟨hs1, hs2, sprops, hs, hps⟩ := hv
    have hn : (keysOf sprops).Nodup := by
      rw [holdsProps_keys h lo hi es sprops hps]
      exact uniqueKeysEntries_nodup es hu
    obtain ⟨h', tprops', r1, r2, r3, r4, r5⟩ :=
      mergeKeysInPlace_copy (deepMergeInPlace f) f ih es sprops [] [] sprops h lo hi c t s
        hps hu (by omega) hs hs1 hs2 (fun k v hm => getKey_of_mem k v sprops hn hm) ht
        (by simp only [holdsProps]) (fun _ _ hm => by simp [keysOf] at hm) htr htc hic hcl
    refine ⟨h', tprops', ?_, r2, r3, r4, by simpa using r5⟩
    simp only [deepMergeInPlace, hs, r1]

/-! ## The search -/

/-- C16 at the failing input.  When no iteration runs (`numIterations` is at
most `currentIteration`) and no best node is known (the controller has none,
and there is no checkpoint, or one that holds no best node), `search` ends in
a `TypeError` at `return this.bestNode.state`: it does not return the initial
state. -/
theorem search_without_best_node (env : Env) (fuel : Nat) (ctl : Controller)
    (currentIteration numIterations : Nat) (initialState : ProjectState) (w : World)
    (hk : numIterations ≤ currentIteration)
    (hs : w.saved = .absent ∨ ∃ cp, w.saved = .saved cp ∧ cp.bestNode = none)
    (hb : w.bestNode = none) :
    ∃ w', search env fuel ctl currentIteration initialState numIterations w =
        .thrown "TypeError: Cannot read properties of null (reading 'state')" w' ∧
      w'.bestNode = none := by
  have hz : numIterations - currentIteration = 0 := by omega
  rcases hs with hs | ⟨cp, hs, hcp⟩
  · simp only [search, loadStateIfExists, hs, hz, searchLoop, searchEnd, hb]
    exact ⟨_, rfl, rfl⟩
  · simp only [search, loadStateIfExists, hs, hcp, hz, searchLoop, searchEnd, hb]
    exact ⟨_, rfl, rfl⟩

/-- C16 on a fresh world, for a search of one iteration started at iteration 1. -/
theorem search_without_best_node_witness :
    ∃ w', search (sampleEnv helpfulGateway) 3 jobController 1 freshState 1 sampleWorld =
        .thrown "TypeError: Cannot read properties of null (reading 'state')" w' ∧
      w'.bestNode = none :=
  search_without_best_node (sampleEnv helpfulGateway) 3 jobController 1 1 freshState sampleWorld
    (by decide) (Or.inl rfl) rfl

/-- C19 at the failing input.  When the checkpoint file exists and is no
JSON of a checkpoint, `solveProblem` ends the job in its `catch`, with the
event `error`: no gateway call is made, no initial state is built and no
iteration runs. -/
theorem solveProblem_malformed_checkpoint (env : Env) (fuel : Nat) (w : World)
    (hs : w.saved = .malformed) :
    solveProblem env fuel w =
      .ok none { w with events := (w.events ++
        [.phase "Analyzing problem statement...", .progress (.fin 0)]) ++
        [.error "An error occurred while solving the problem."] } := by
  simp only [solveProblem, hs, jobFailed]

/-- C19 on `brokenWorld`, with a gateway that would have answered every request. -/
theorem solveProblem_malformed_checkpoint_witness :
    solveProblem (sampleEnv helpfulGateway) 8 brokenWorld =
      .ok none { brokenWorld with events := (brokenWorld.events ++
        [.phase "Analyzing problem statement...", .progress (.fin 0)]) ++
        [.error "An error occurred while solving the problem."] } :=
  solveProblem_malformed_checkpoint (sampleEnv helpfulGateway) 8 brokenWorld rfl
/-- The `for` loop of `search` runs the iterations `i, i + 1, ...`, one for
each turn it is given, as long as they stay below `numIterations`. -/
theorem searchLoop_eq_runIterations (env : Env) (fuel : Nat) (ctl : Controller) (root : Nat)
    (numIterations : Nat) :
    ∀ (turns i : Nat) (w : World), i + turns ≤ numIterations →
      searchLoop env fuel ctl root numIterations turns i w =
        runIterations env fuel ctl root numIterations (List.range' i turns) w := by
  intro turns
  induction turns with
  | zero => intro i w _; rfl
  | succ n ih =>
    intro i w hi
    have hlt : i < numIterations := by omega
    simp only [searchLoop, hlt, if_true, List.range', runIterations]
    cases iteration env fuel ctl root numIterations i w with
    | stuck => rfl
    | thrown message w1 => rfl
    | ok u w1 => exact ih (i + 1) w1 (by omega)

/-- The loop of `search` from `currentIteration` on runs exactly the iterations
`currentIteration, ..., numIterations - 1`. -/
theorem searchLoop_range (env : Env) (fuel : Nat) (ctl : Controller) (root : Nat)
    (numIterations currentIteration : Nat) (w : World) :
    searchLoop env fuel ctl root numIterations (numIterations - currentIteration)
        currentIteration w =
      runIterations env fuel ctl root numIterations
        (List.range' currentIteration (numIterations - currentIteration)) w := by
  by_cases h : currentIteration ≤ numIterations
  · exact searchLoop_eq_runIterations env fuel ctl root numIterations _ _ w (by omega)
  · have hz : numIterations - currentIteration = 0 := by omega
    rw [hz]
    rfl

/-- What `JSON.parse` builds for a saved state is that state, in new objects. -/
theorem loadStateValue_spec (sv : SavedState) (objs : ObjStore) :
    objs.length ≤ (loadStateValue objs sv).1.length ∧
    (∀ b : Nat, b < objs.length → (loadStateValue objs sv).1[b]? = objs[b]?) ∧
    restoredState (loadStateValue objs sv).1 (loadStateValue objs sv).2 sv := by
  cases hc : sv.code with
  | none =>
    have e : loadStateValue objs sv =
        (objs, { problemStatement := sv.problemStatement, projectType := sv.projectType,
                 code := none, error := sv.error }) := by
      simp only [loadStateValue, hc]
    rw [e]
    refine ⟨le_refl _, fun _ _ => rfl, ?_⟩
    unfold restoredState
    simp only [hc, and_self]
  | some fv =>
    obtain ⟨a1, a2, a3⟩ := allocVal_spec fv objs
    have e : loadStateValue objs sv =
        ((allocVal objs fv).1,
          { problemStatement := sv.problemStatement, projectType := sv.projectType,
            code := some (allocVal objs fv).2, error := sv.error }) := by
      simp only [loadStateValue, hc]
    rw [e]
    refine ⟨a1, a2, ?_⟩
    unfold restoredState
    simp only [hc, true_and]
    exact holds_mono _ _ _ _ _ (Nat.zero_le _) (le_refl _) fv _ a3

/-- A restored state stays restored when the store grows. -/
theorem restoredState_frame (objs objs' : ObjStore) (st : ProjectState) (sv : SavedState)
    (hl : objs.length ≤ objs'.length)
    (hag : ∀ b : Nat, b < objs.length → objs'[b]? = objs[b]?)
    (hr : restoredState objs st sv) : restoredState objs' st sv := by
  obtain ⟨e1, e2, e3, e4⟩ := hr
  refine ⟨e1, e2, e3, ?_⟩
  cases hc : st.code with
  | none =>
    cases hs : sv.code with
    | none => trivial
    | some fv => simp only [hc, hs] at e4
  | some v =>
    cases hs : sv.code with
    | none => simp only [hc, hs] at e4
    | some fv =>
      simp only [hc, hs] at e4 ⊢
      exact holds_mono _ _ _ _ _ (le_refl _) hl fv v
        (holds_frame objs objs' 0 objs.length (fun o _ ho => hag o ho) fv v e4)

mutual
theorem restored_frame (objs objs' : ObjStore) (hl : objs.length ≤ objs'.length)
    (hag : ∀ b : Nat, b < objs.length → objs'[b]? = objs[b]?) :
    ∀ (t : SerializedNode ProjectState) (s : SavedNode), restored objs t s → restored objs' t s
  | .mk st v sc cs, .mk sv v' sc' cs', hr => by
    simp only [restored] at hr ⊢
    exact ⟨restoredState_frame objs objs' st sv hl hag hr.1, hr.2.1, hr.2.2.1,
      restoredAll_frame objs objs' hl hag cs cs' hr.2.2.2⟩
theorem restoredAll_frame (objs objs' : ObjStore) (hl : objs.length ≤ objs'.length)
    (hag : ∀ b : Nat, b < objs.length → objs'[b]? = objs[b]?) :
    ∀ (ts : List (SerializedNode ProjectState)) (ss : List SavedNode),
      restoredAll objs ts ss → restoredAll objs' ts ss
  | [], [], _ => by simp only [restoredAll]
  | [], _ :: _, hr => by simp only [restoredAll] at hr
  | _ :: _, [], hr => by simp only [restoredAll] at hr
  | t :: ts, s :: ss, hr => by
    simp only [restoredAll] at hr ⊢
    exact ⟨restored_frame objs objs' hl hag t s hr.1,
      restoredAll_frame objs objs' hl hag ts ss hr.2⟩
end

mutual
/-- What `JSON.parse` builds for a saved tree is that tree, in new objects. -/
theorem loadTree_spec : ∀ (s : SavedNode) (objs : ObjStore),
    objs.length ≤ (loadTree objs s).1.length ∧
    (∀ b : Nat, b < objs.length → (loadTree objs s).1[b]? = objs[b]?) ∧
    restored (loadTree objs s).1 (loadTree objs s).2 s
  | .mk sv v sc cs, objs => by
    obtain ⟨a1, a2, a3⟩ := loadStateValue_spec sv objs
    obtain ⟨b1, b2, b3⟩ := loadTrees_spec cs (loadStateValue objs sv).1
    simp only [loadTree, restored]
    refine ⟨le_trans a1 b1, ?_, ?_, trivial, trivial, b3⟩
    · intro b hb
      rw [b2 b (lt_of_lt_of_le hb a1), a2 b hb]
    · exact restoredState_frame _ _ _ _ b1 b2 a3
theorem loadTrees_spec : ∀ (ss : List SavedNode) (objs : ObjStore),
    objs.length ≤ (loadTrees objs ss).1.length ∧
    (∀ b : Nat, b < objs.length → (loadTrees objs ss).1[b]? = objs[b]?) ∧
    restoredAll (loadTrees objs ss).1 (loadTrees objs ss).2 ss
  | [], objs => by
    simp only [loadTrees, restoredAll]
    exact ⟨le_refl _, fun _ _ => trivial, trivial⟩
  | s :: ss, objs => by
    obtain ⟨a1, a2, a3⟩ := loadTree_spec s objs
    obtain ⟨b1, b2, b3⟩ := loadTrees_spec ss (loadTree objs s).1
    simp only [loadTrees, restoredAll]
    refine ⟨le_trans a1 b1, ?_, ?_, b3⟩
    · intro b hb
      rw [b2 b (lt_of_lt_of_le hb a1), a2 b hb]
    · exact restored_frame _ _ b1 b2 _ _ a3
end

/-- Loading a checkpoint puts its tree at the root and restores the best score. -/
theorem loadStateIfExists_saved (initialState : ProjectState) (w : World) (cp : Checkpoint)
    (hs : w.saved = .saved cp) :
    ∃ w1, loadStateIfExists w.nodes.length
        { w with nodes := w.nodes ++ [Node.new initialState none] } = .ok () w1 ∧
      represents w1.nodes w.nodes.length (loadTree w.objs cp.rootNode).2 ∧
      restored w1.objs (loadTree w.objs cp.rootNode).2 cp.rootNode ∧
      w1.bestScore = JSNum.ofJSON cp.bestScore ∧ w1.calls = w.calls ∧ w1.saved = .saved cp := by
  have h0 : (w.nodes ++ [Node.new initialState none])[w.nodes.length]? =
      some (Node.new initialState none) := by simp
  obtain ⟨d1, d2, _, d4⟩ := deserializeNode_spec emptyState (loadTree w.objs cp.rootNode).2
    (w.nodes ++ [Node.new initialState none]) w.nodes.length _ h0
  obtain ⟨_, _, hrest⟩ := loadTree_spec cp.rootNode w.objs
  simp only [loadStateIfExists, hs]
  generalize hn1 : deserializeNode emptyState (w.nodes ++ [Node.new initialState none])
    w.nodes.length (loadTree w.objs cp.rootNode).2 = nodes1 at d1 d2 d4 ⊢
  generalize (loadTree w.objs cp.rootNode).2 = tree at d4 hrest ⊢
  simp only [List.length_append, List.length_singleton] at d1 d4
  cases hb : cp.bestNode with
  | none =>
    exact ⟨_, rfl, builtIn_represents _ _ _ tree _ d4, hrest, rfl, rfl, rfl⟩
  | some best =>
    obtain ⟨g1, g2, _⟩ := loadTree_spec best (loadTree w.objs cp.rootNode).1
    refine ⟨_, rfl, ?_, restored_frame _ _ g1 g2 _ _ hrest, rfl, rfl, rfl⟩
    have h1 : (nodes1 ++ [Node.new emptyState none])[nodes1.length]? =
        some (Node.new emptyState none) := by simp
    obtain ⟨_, e2, _, _⟩ := deserializeNode_spec emptyState
      (loadTree (loadTree w.objs cp.rootNode).1 best).2
      (nodes1 ++ [Node.new emptyState none]) nodes1.length _ h1
    simp only [List.length_append, List.length_singleton] at e2
    have hag : ∀ b : Nat, b < nodes1.length →
        (deserializeNode emptyState (nodes1 ++ [Node.new emptyState none]) nodes1.length
          (loadTree (loadTree w.objs cp.rootNode).1 best).2)[b]? = nodes1[b]? := by
      intro b hb
      rw [e2 b (by omega) (by omega)]
      exact List.getElem?_append_left hb
    cases tree with
    | mk st v sc cs =>
      refine builtIn_represents _ (w.nodes.length + 1) nodes1.length _ _ ?_
      refine builtIn_root_frame nodes1 _ _ _ (fun b _ hb2 => hag b hb2) st v sc cs _ d4 ?_
      intro n hn
      exact ⟨n, by rw [hag _ (by omega)]; exact hn, rfl, rfl, rfl, rfl⟩

/-- A search started on a world whose checkpoint file holds `cp` loads the
checkpoint and then runs the iterations from `cp.iteration` on. -/
theorem search_resumes (env : Env) (fuel : Nat) (ctl : Controller) (total : Nat)
    (initialState : ProjectState) (w : World) (cp : Checkpoint) (hs : w.saved = .saved cp) :
    ∃ w1 T, loadStateIfExists w.nodes.length
        { w with nodes := w.nodes ++ [Node.new initialState none] } = .ok () w1 ∧
      represents w1.nodes w.nodes.length T ∧ restored w1.objs T cp.rootNode ∧
      w1.bestScore = JSNum.ofJSON cp.bestScore ∧
      search env fuel ctl cp.iteration initialState total w =
        match runIterations env fuel ctl w.nodes.length total
            (List.range' cp.iteration (total - cp.iteration)) w1 with
        | .stuck => .stuck
        | .thrown message w2 => .thrown message w2
        | .ok _ w2 => searchEnd w2 := by
  obtain ⟨w1, l1, l2, l3, l4, _, _⟩ := loadStateIfExists_saved initialState w cp hs
  refine ⟨w1, _, l1, l2, l3, l4, ?_⟩
  simp only [search, l1, searchLoop_range]

/-- C17. Resuming from a checkpoint.  When the checkpoint file holds a
checkpoint `cp`, `solveProblem` runs `mcts.search` with
`currentIteration = cp.iteration` (on the root state of the checkpoint, for the
`10` iterations of a job, with a new controller), and its result is the result
of that search (the event `error` when the search throws).  And every search
started at `cp.iteration` for `total` iterations while the file holds `cp`
first loads the checkpoint: the tree at the root is then the checkpoint's tree,
node for node (the saved state with its file map in objects of the store, the
saved visits and score, the saved children in order, each with its `parent`),
and `bestScore` is the checkpoint's (a saved `null` counting as `0`); on that
tree it runs exactly the iterations `cp.iteration, ..., total - 1`, in this
order (`total - cp.iteration` of them, up to the first that throws), and then
ends as every search ends. -/
theorem resume_from_checkpoint (env : Env) (fuel : Nat) (w : World) (cp : Checkpoint)
    (hs : w.saved = .saved cp) :
    solveProblem env fuel w =
      (match search env fuel jobController cp.iteration
          (loadStateValue w.objs (SavedNode.rootState cp.rootNode)).2 jobIterations
          { nodes := w.nodes,
            objs := (loadStateValue w.objs (SavedNode.rootState cp.rootNode)).1,
            calls := w.calls, draws := w.draws,
            events := w.events ++ [.phase "Analyzing problem statement...", .progress (.fin 0)],
            bestNode := none, bestScore := .ninf, saved := w.saved } with
        | .stuck => .stuck
        | .thrown _ w1 => jobFailed w1
        | .ok finalState w1 => .ok (some finalState) w1) ∧
    ∀ (ctl : Controller) (total : Nat) (initialState : ProjectState) (x : World),
      x.saved = .saved cp →
      ∃ x1 T, loadStateIfExists x.nodes.length
          { x with nodes := x.nodes ++ [Node.new initialState none] } = .ok () x1 ∧
        represents x1.nodes x.nodes.length T ∧ restored x1.objs T cp.rootNode ∧
        x1.bestScore = JSNum.ofJSON cp.bestScore ∧
        (∀ i : Nat, i ∈ List.range' cp.iteration (total - cp.iteration) ↔
          cp.iteration ≤ i ∧ i < total) ∧
        (List.range' cp.iteration (total - cp.iteration)).length = total - cp.iteration ∧
        search env fuel ctl cp.iteration initialState total x =
          match runIterations env fuel ctl x.nodes.length total
              (List.range' cp.iteration (total - cp.iteration)) x1 with
          | .stuck => .stuck
          | .thrown message x2 => .thrown message x2
          | .ok _ x2 => searchEnd x2 := by
  constructor
  · simp only [solveProblem, hs, jobSearch]
  · intro ctl total initialState x hx
    obtain ⟨x1, T, l1, l2, l3, l4, l5⟩ :=
      search_resumes env fuel ctl total initialState x cp hx
    refine ⟨x1, T, l1, l2, l3, l4, ?_, List.length_range' _ _ _, l5⟩
    intro i
    rw [List.mem_range'_1]
    constructor
    · rintro ⟨h1, h2⟩
      exact ⟨h1, by omega⟩
    · rintro ⟨h1, h2⟩
      exact ⟨h1, by omega⟩

/-- C17 for `sampleCheckpoint` (iteration 5, best score `0.7`) and 10 iterations:
the job runs the search from 5, and the search runs the iterations
`5, 6, 7, 8, 9` on the tree of the checkpoint, whose root has been visited 5
times and has one child. -/
theorem resume_from_checkpoint_witness :
    solveProblem (sampleEnv helpfulGateway) 8 resumedWorld =
      (match search (sampleEnv helpfulGateway) 8 jobController 5
          (loadStateValue resumedWorld.objs (SavedNode.rootState sampleCheckpoint.rootNode)).2
          10
          { nodes := resumedWorld.nodes,
            objs := (loadStateValue resumedWorld.objs
              (SavedNode.rootState sampleCheckpoint.rootNode)).1,
            calls := resumedWorld.calls, draws := resumedWorld.draws,
            events := resumedWorld.events ++
              [.phase "Analyzing problem statement...", .progress (.fin 0)],
            bestNode := none, bestScore := .ninf, saved := resumedWorld.saved } with
        | .stuck => .stuck
        | .thrown _ w1 => jobFailed w1
        | .ok finalState w1 => .ok (some finalState) w1) ∧
    ∃ x1 T, loadStateIfExists resumedWorld.nodes.length
        { resumedWorld with nodes := resumedWorld.nodes ++ [Node.new freshState none] } =
          .ok () x1 ∧
      represents x1.nodes resumedWorld.nodes.length T ∧
      restored x1.objs T sampleCheckpoint.rootNode ∧
      x1.bestScore = .fin (7 / 10) ∧
      (∃ n c, x1.nodes[resumedWorld.nodes.length]? = some n ∧ n.visits = 5 ∧
        n.score = .fin (7 / 2) ∧ n.children = [c]) ∧
      List.range' 5 (10 - 5) = [5, 6, 7, 8, 9] ∧
      search (sampleEnv helpfulGateway) 8 jobController 5 freshState 10 resumedWorld =
        match runIterations (sampleEnv helpfulGateway) 8 jobController
            resumedWorld.nodes.length 10 (List.range' 5 (10 - 5)) x1 with
        | .stuck => .stuck
        | .thrown message x2 => .thrown message x2
        | .ok _ x2 => searchEnd x2 := by
  have h := resume_from_checkpoint (sampleEnv helpfulGateway) 8 resumedWorld sampleCheckpoint rfl
  obtain ⟨x1, T, l1, l2, l3, l4, _, _, l7⟩ := h.2 jobController 10 freshState resumedWorld rfl
  refine ⟨h.1, x1, T, l1, l2, l3, l4, ?_, rfl, l7⟩
  cases T with
  | mk st v sc cs =>
    simp only [sampleCheckpoint, restored] at l3
    obtain ⟨_, e2, e3, e4⟩ := l3
    simp only [represents] at l2
    obtain ⟨n, hn, _, k2, k3, k4⟩ := l2
    cases cs with
    | nil => simp only [restoredAll] at e4
    | cons t ts =>
      cases ts with
      | cons t2 ts2 => simp only [restoredAll, and_false] at e4
      | nil =>
        cases hch : n.children with
        | nil => rw [hch] at k4; simp only [representsChildren] at k4
        | cons c rest =>
          rw [hch] at k4
          cases rest with
          | cons c2 rest2 => simp only [representsChildren, and_false] at k4
          | nil => exact ⟨n, c, hn, k2.trans e2, k3.trans e3, hch⟩

/-! ## One iteration from a fresh state -/

/-- Merging a decoded delta `D` into a state whose file map is an empty object
fills that very object with `D`, and returns the state as it was. -/
theorem mergeInto_fresh (fuel : Nat) (state : ProjectState) (u : JSValue) (D : Entries)
    (objs : ObjStore) (o : Nat) (hD : JSValue.toFileVal u = some (.obj D))
    (hu : uniqueKeys (.obj D) = true) (hf : fileDepth (.obj D) ≤ fuel)
    (hcode : state.code = some (.ref o)) (ho : objs[o]? = some []) :
    ∃ h3, mergeInto fuel state u objs = some (state, h3) ∧
      holds h3 0 h3.length (.ref o) (.obj D) := by
  have hol : o < objs.length := (List.getElem?_eq_some.mp ho).1
  obtain ⟨a1, a2, a3⟩ := allocVal_spec (.obj D) objs
  have href : (allocVal objs (.obj D)).2 = .ref (allocEntries objs D).1.length := by
    simp only [allocVal]
  rw [href] at a3
  simp only [uniqueKeys] at hu
  simp only [fileDepth] at hf
  obtain ⟨h', tprops, r1, r2, _, r4, r5⟩ :=
    deepMergeInPlace_copy fuel D (allocVal objs (.obj D)).1 objs.length
      (allocVal objs (.obj D)).1.length (allocVal objs (.obj D)).1.length o
      (allocEntries objs D).1.length a3 hu hf (by rw [a2 o hol]; exact ho) (Or.inl hol)
      (lt_of_lt_of_le hol a1) (le_refl _) (le_refl _)
  refine ⟨h', ?_, ?_⟩
  · simp only [mergeInto, hD, hcode, orNewObject, href, r1]
    obtain ⟨ps, pt, code, err⟩ := state
    simp only at hcode
    subst hcode
    rfl
  · simp only [holds]
    have hlt : o < h'.length := (List.getElem?_eq_some.mp r4).1
    exact ⟨Nat.zero_le _, hlt, tprops, r4,
      holdsProps_mono h' _ _ _ _ (Nat.zero_le _) (le_refl _) D tprops r5⟩

/-- Selection stops at a node without children. -/
theorem select_leaf {σ : Type} (m : MathImpl) (c : JSNum) (h : NodeStore σ) (f a : Nat)
    (n : Node σ) (hn : h[a]? = some n) (hc : n.children = []) :
    select m c h (f + 1) a = some (.ok a) := by
  simp only [select, hn, hc, if_true]

/-- Expansion with one proposed action whose first apply attempt decodes:
two gateway calls, one new child holding the merged state. -/
theorem expand_one (env : Env) (fuel : Nat) (root : Nat) (x : World) (n : Node ProjectState)
    (action : JSValue) (t1 : Text) (thinking : Option Text) (u : JSValue)
    (newState : ProjectState) (h3 : ObjStore)
    (hn : x.nodes[root]? = some n)
    (hp1 : env.gateway x.calls .propose = .ok t1)
    (hp2 : env.parse (extractJsonFromText t1) = some (.arr [action]))
    (ha : applyAttempt env (env.gateway (x.calls + 1) (.apply action)) = (thinking, .ok u))
    (hm : mergeInto fuel n.state u x.objs = some (newState, h3)) :
    ∃ x', expand env fuel root x = .ok () x' ∧
      x'.nodes = updateNode (x.nodes ++ [Node.new newState (some root)]) root
        (fun m => { m with children := m.children ++ [x.nodes.length] }) ∧
      x'.objs = h3 ∧ x'.calls = x.calls + 2 ∧ x'.bestNode = x.bestNode ∧
      x'.bestScore = x.bestScore ∧ x'.saved = x.saved := by
  have hget : getAvailableActions env x = .ok (.arr [action]) { x with
      calls := x.calls + 1,
      events := x.events ++ [.thinking (extractThinkingFromText t1)] } := by
    unfold getAvailableActions maxRetries
    exact getAvailableActionsFrom_decoded env 3 0 x t1 _ hp1 hp2
  simp only [expand, hget, iterate, expandLoop, hn, applyActionVia, maxRetries,
    applyActionViaFrom, ha, hm]
  exact ⟨_, rfl, rfl, rfl, rfl, rfl, rfl, rfl⟩

/-- Simulation from a state judged terminal: one terminal check, one
evaluation, and the score. -/
theorem simulate_terminal (env : Env) (f : Nat) (root : Nat) (x : World) (t3 t4 : Text)
    (v3 b : JSValue) (s : JSNum)
    (ht1 : env.gateway x.calls .terminal = .ok t3)
    (ht2 : env.parse (extractJsonFromText t3) = some v3)
    (ht3 : JSValue.prop "isTerminal" v3 = .ok b) (ht4 : b.truthy = true)
    (he1 : env.gateway (x.calls + 1) .evaluate = .ok t4)
    (he2 : parseFloat (extractJsonFromText t4) = s) (hs : s ≠ .nan) :
    ∃ x', simulate env (f + 1) root x = .ok s x' ∧ x'.nodes = x.nodes ∧ x'.objs = x.objs ∧
      x'.calls = x.calls + 2 ∧ x'.bestNode = x.bestNode ∧ x'.bestScore = x.bestScore ∧
      x'.saved = x.saved := by
  have hterm : isTerminalState env x = (b, { x with
      calls := x.calls + 1,
      events := x.events ++ [.terminalCheck (extractThinkingFromText t3)] }) := by
    simp only [isTerminalState, ht1, ht2, ht3]
  simp only [simulate, simulateLoop, hterm, ht4, if_true, evaluateState, he1, he2, hs, if_false]
  exact ⟨_, rfl, rfl, rfl, rfl, rfl, rfl, rfl⟩

/-- Backpropagation from a node without a parent bumps that node only. -/
theorem backpropagate_root {σ : Type} (f : Nat) (h : NodeStore σ) (a : Nat) (x : JSNum)
    (n : Node σ) (hn : h[a]? = some n) (hp : n.parent = none) :
    backpropagate (f + 1) h a x =
      some (h.set a { n with visits := n.visits + 1, score := JSNum.add n.score x }) := by
  simp only [backpropagate, hn, hp]

/-- The checkpoint of a root with one leaf child is written when the file
maps of their states can be read and a best node is known. -/
theorem saveState_two_nodes (f : Nat) (root child : Nat) (it : Nat) (x : World)
    (n m : Node ProjectState) (fvn fvm : SavedState)
    (hn : x.nodes[root]? = some n) (hnc : n.children = [child])
    (hm : x.nodes[child]? = some m) (hmc : m.children = [])
    (hrn : saveStateValue (f + 2) x.objs n.state = some fvn)
    (hrm : saveStateValue (f + 2) x.objs m.state = some fvm)
    (hb : x.bestNode = some root) :
    ∃ cp, saveState (f + 2) root it x = .ok () { x with saved := .saved cp } := by
  have hser : serializeNode (f + 2) x.nodes root =
      some (.mk n.state n.visits n.score [.mk m.state m.visits m.score []]) := by
    simp only [serializeNode, hn, hnc, List.map_cons, List.map_nil, hm, hmc, allSome]
  simp only [saveState, hser, saveTree, saveTrees, hrn, hrm, hb]
  exact ⟨_, rfl⟩
/-- Without a checkpoint file nothing is loaded. -/
theorem loadStateIfExists_absent (root : Nat) (w : World) (hs : w.saved = .absent) :
    loadStateIfExists root w = .ok () w := by
  simp only [loadStateIfExists, hs]

/-- A search for one iteration from iteration 0 runs the iteration 0. -/
theorem search_single_turn (env : Env) (fuel : Nat) (ctl : Controller) (root : Nat) (w : World) :
    searchLoop env fuel ctl root 1 (1 - 0) 0 w =
      match iteration env fuel ctl root 1 0 w with
      | .stuck => .stuck
      | .thrown message w1 => .thrown message w1
      | .ok _ w1 => .ok () w1 := by
  rw [searchLoop_range]
  show runIterations env fuel ctl root 1 [0] w = _
  simp only [runIterations]

/-- One iteration from a fresh state, node by node: the search returns the
initial state; the root has been visited once, with the score of the
simulation, and has the one new child, which has not been visited; the file
map of the root holds the delta. -/
theorem search_fresh_iteration (env : Env) (fuel : Nat) (ctl : Controller) (w : World)
    (initialState : ProjectState) (o : Nat) (action : JSValue) (t1 t3 t4 : Text)
    (thinking : Option Text) (u : JSValue) (D : Entries) (v3 b : JSValue) (q : ℚ)
    (hsaved : w.saved = .absent) (hbs : w.bestScore = .ninf)
    (hcode : initialState.code = some (.ref o)) (ho : w.objs[o]? = some [])
    (hp1 : env.gateway w.calls .propose = .ok t1)
    (hp2 : env.parse (extractJsonFromText t1) = some (.arr [action]))
    (ha : applyAttempt env (env.gateway (w.calls + 1) (.apply action)) = (thinking, .ok u))
    (hD : JSValue.toFileVal u = some (.obj D)) (hu : uniqueKeys (.obj D) = true)
    (ht1 : env.gateway (w.calls + 2) .terminal = .ok t3)
    (ht2 : env.parse (extractJsonFromText t3) = some v3)
    (ht3 : JSValue.prop "isTerminal" v3 = .ok b) (ht4 : b.truthy = true)
    (he1 : env.gateway (w.calls + 3) .evaluate = .ok t4)
    (he2 : parseFloat (extractJsonFromText t4) = .fin q)
    (hf : fileDepth (.obj D) < fuel) :
    ∃ w', search env fuel ctl 0 initialState 1 w = .ok initialState w' ∧
      w'.calls = w.calls + 4 ∧
      w'.bestScore = .fin q ∧ w'.bestNode = some w.nodes.length ∧
      w'.nodes[w.nodes.length]? = some
        { state := initialState, parent := none, children := [w.nodes.length + 1],
          visits := 0 + 1, score := JSNum.add (.fin 0) (.fin q) } ∧
      w'.nodes[w.nodes.length + 1]? = some (Node.new initialState (some w.nodes.length)) ∧
      readVal fuel w'.objs (.ref o) = some (.obj D) := by
  obtain ⟨f, rfl⟩ : ∃ f, fuel = f + 2 := by
    simp only [fileDepth] at hf
    exact ⟨fuel - 2, by omega⟩
  obtain ⟨h3, hm, hh⟩ :=
    mergeInto_fresh (f + 2) initialState u D w.objs o hD hu (le_of_lt hf) hcode ho
  have hread := readVal_of_holds h3 0 h3.length (.obj D) (.ref o) (f + 2) hh hf
  have hroot : (w.nodes ++ [Node.new initialState none])[w.nodes.length]? =
      some (Node.new initialState none) := by simp
  obtain ⟨x1, e1, n1, o1, c1, b1, s1, _⟩ :=
    expand_one env (f + 2) w.nodes.length
      { w with
        nodes := w.nodes ++ [Node.new initialState none],
        events := w.events ++
          [.iteration (0 + 1) 1,
           .progress (JSNum.mul (JSNum.div (JSNum.ofNat 0) (JSNum.ofNat 1)) (JSNum.ofNat 100))] }
      (Node.new initialState none) action t1 thinking u initialState h3 hroot hp1 hp2 ha hm
  simp only at n1 o1 c1 b1 s1
  obtain ⟨x2, e2, n2, o2, c2, b2, s2, _⟩ :=
    simulate_terminal env (f + 1) w.nodes.length x1 t3 t4 v3 b (.fin q)
      (by rw [c1]; exact ht1) ht2 ht3 ht4 (by rw [c1]; exact he1) he2 (by simp)
  have hr1 : x2.nodes[w.nodes.length]? = some
      { state := initialState, parent := none, children := [w.nodes.length + 1],
        visits := 0, score := .fin 0 } := by
    rw [n2, n1]
    rw [updateNode_get_self _ _ _ (Node.new initialState none)
      (by rw [List.getElem?_append_left (by simp)]; exact hroot)]
    simp [Node.new]
  have hc1 : x2.nodes[w.nodes.length + 1]? = some (Node.new initialState (some w.nodes.length)) := by
    have hl : (w.nodes ++ [Node.new initialState none]).length = w.nodes.length + 1 := by simp
    rw [n2, n1, updateNode_get_ne _ _ _ _ (by omega), ← hl]
    exact List.getElem?_concat_length _ _
  have hbp := backpropagate_root (f + 1) x2.nodes w.nodes.length (.fin q) _ hr1 rfl
  have hgt : JSNum.gt (.fin q) x2.bestScore = true := by
    rw [s2, s1, hbs]; rfl
  have hsel : select env.math ctl.explorationFactor
      (w.nodes ++ [Node.new initialState none]) (f + 2) w.nodes.length =
      some (.ok w.nodes.length) :=
    select_leaf env.math ctl.explorationFactor _ (f + 1) _ _ hroot rfl
  have hload := loadStateIfExists_absent w.nodes.length
    { w with nodes := w.nodes ++ [Node.new initialState none] } hsaved
  have hlt : w.nodes.length < x2.nodes.length := (List.getElem?_eq_some.mp hr1).1
  have hr3 : (x2.nodes.set w.nodes.length
      { state := initialState, parent := none, children := [w.nodes.length + 1],
        visits := 0 + 1, score := JSNum.add (.fin 0) (.fin q) })[w.nodes.length]? = some
      { state := initialState, parent := none, children := [w.nodes.length + 1],
        visits := 0 + 1, score := JSNum.add (.fin 0) (.fin q) } := by
    simp [List.getElem?_set, hlt]
  have hc3 : (x2.nodes.set w.nodes.length
      { state := initialState, parent := none, children := [w.nodes.length + 1],
        visits := 0 + 1, score := JSNum.add (.fin 0) (.fin q) })[w.nodes.length + 1]? =
      some (Node.new initialState (some w.nodes.length)) := by
    rw [List.getElem?_set_ne (by omega)]
    exact hc1
  have hsv : saveStateValue (f + 2) x2.objs initialState = some
      { problemStatement := initialState.problemStatement,
        projectType := initialState.projectType, code := some (.obj D),
        error := initialState.error } := by
    simp only [saveStateValue, hcode, o2, o1, hread]
  simp only [search, hload, search_single_turn, iteration, hsel, e1, e2, hbp, hgt, if_true]
  by_cases hsi : (0 + 1) % ctl.saveInterval = 0
  · obtain ⟨cp, hcp⟩ := saveState_two_nodes f w.nodes.length (w.nodes.length + 1) (0 + 1)
      { x2 with
        nodes := x2.nodes.set w.nodes.length
          { state := initialState, parent := none, children := [w.nodes.length + 1],
            visits := 0 + 1, score := JSNum.add (.fin 0) (.fin q) },
        bestNode := some w.nodes.length, bestScore := .fin q } _ _ _ _
      hr3 rfl hc3 rfl hsv hsv rfl
    simp only [hsi, if_true, hcp, searchEnd, hr3]
    exact ⟨_, rfl, by simp only [c2, c1], rfl, rfl, hr3, hc3, by simp only [o2, o1, hread]⟩
  · simp only [hsi, if_false, searchEnd, hr3]
    exact ⟨_, rfl, by simp only [c2, c1], rfl, rfl, hr3, hc3, by simp only [o2, o1, hread]⟩

/-- C18. One iteration from a fresh state.  The world holds no checkpoint and
the controller's best score is `-Infinity`; the initial state's file map is an
empty object `o`.  The gateway answers the proposal with one action, the apply request with
a payload whose `updatedCode` is the file map `D` (an object: no key twice),
the terminal check with a truthy `isTerminal`, and the evaluation with the
number `q`.  Then `search` with one iteration returns (for every budget above
the depth of `D`), after exactly four gateway calls; `bestScore` is `q`; the
best node is the root, visited once with score `q`; and the file map of its
state, the object `o`, holds exactly the entries of `D`. -/
theorem search_one_iteration (env : Env) (fuel : Nat) (ctl : Controller) (w : World)
    (initialState : ProjectState) (o : Nat) (action : JSValue) (t1 t3 t4 : Text)
    (thinking : Option Text) (u : JSValue) (D : Entries) (v3 b : JSValue) (q : ℚ)
    (hsaved : w.saved = .absent) (hbs : w.bestScore = .ninf)
    (hcode : initialState.code = some (.ref o)) (ho : w.objs[o]? = some [])
    (hp1 : env.gateway w.calls .propose = .ok t1)
    (hp2 : env.parse (extractJsonFromText t1) = some (.arr [action]))
    (ha : applyAttempt env (env.gateway (w.calls + 1) (.apply action)) = (thinking, .ok u))
    (hD : JSValue.toFileVal u = some (.obj D)) (hu : uniqueKeys (.obj D) = true)
    (ht1 : env.gateway (w.calls + 2) .terminal = .ok t3)
    (ht2 : env.parse (extractJsonFromText t3) = some v3)
    (ht3 : JSValue.prop "isTerminal" v3 = .ok b) (ht4 : b.truthy = true)
    (he1 : env.gateway (w.calls + 3) .evaluate = .ok t4)
    (he2 : parseFloat (extractJsonFromText t4) = .fin q)
    (hf : fileDepth (.obj D) < fuel) :
    ∃ w', search env fuel ctl 0 initialState 1 w = .ok initialState w' ∧
      w'.calls = w.calls + 4 ∧
      w'.bestScore = .fin q ∧ w'.bestNode = some w.nodes.length ∧
      (∃ n, w'.nodes[w.nodes.length]? = some n ∧ n.state = initialState ∧ n.visits = 1 ∧
        n.score = .fin q) ∧
      readVal fuel w'.objs (.ref o) = some (.obj D) := by
  obtain ⟨w', h1, h2, h3, h4, h5, _, h7⟩ :=
    search_fresh_iteration env fuel ctl w initialState o action t1 t3 t4 thinking u D v3 b q
      hsaved hbs hcode ho hp1 hp2 ha hD hu ht1 ht2 ht3 ht4 he1 he2 hf
  refine ⟨w', h1, h2, h3, h4, ⟨_, h5, rfl, rfl, ?_⟩, h7⟩
  simp only [JSNum.add, zero_add]

/-- C18 on `helpfulGateway`: one proposed action, the delta
`{"server/server.js": "..."}`, a terminal state scored `0.9`. -/
theorem search_one_iteration_witness :
    ∃ w', search (sampleEnv helpfulGateway) 3 jobController 0 freshState 1 sampleWorld =
        .ok freshState w' ∧
      w'.calls = sampleWorld.calls + 4 ∧
      w'.bestScore = .fin (9 / 10) ∧ w'.bestNode = some sampleWorld.nodes.length ∧
      (∃ n, w'.nodes[sampleWorld.nodes.length]? = some n ∧ n.state = freshState ∧
        n.visits = 1 ∧ n.score = .fin (9 / 10)) ∧
      readVal 3 w'.objs (.ref 0) = some (.obj [("server/server.js", .str "...")]) :=
  search_one_iteration (sampleEnv helpfulGateway) 3 jobController sampleWorld freshState 0
    (.str "create server/server.js")
    "<thinking>one file</thinking><json>[\"create server/server.js\"]</json>".toList
    "<json>\x7b\"isTerminal\": true\x7d</json>".toList
    "<thinking>good</thinking><json>0.9</json>".toList
    (some []) (.obj [("server/server.js", .str "...")]) [("server/server.js", .str "...")]
    (.obj [("isTerminal", .bool true)]) (.bool true) (9 / 10)
    rfl rfl rfl rfl rfl rfl rfl rfl rfl rfl rfl rfl rfl rfl (by with_unfolding_all rfl)
    (by decide)

/-! ## The baseline terminal predicate -/

/-- The claim of C21 fails: `freshState` has the empty mapping as its file map
(the object `0` of `sampleWorld`), and the baseline predicate is true of it. -/
theorem baseline_terminal_on_empty_map :
    freshState.code = some (.ref 0) ∧
    readVal 2 sampleWorld.objs (.ref 0) = some (.obj []) ∧
    Alt.isTerminalState freshState = true :=
  ⟨rfl, rfl, rfl⟩

/-- C21 (amended). The baseline `isTerminalState(state)` is true exactly when
`state.code` is not `undefined`, whatever the file map holds: a state whose
file map is the empty mapping is terminal, a state without a file map is not. -/
theorem baseline_terminal_iff (state : ProjectState) :
    (Alt.isTerminalState state = true ↔ state.code ≠ none) ∧
    (∀ (objs : ObjStore) (o : Nat), state.code = some (.ref o) → objs[o]? = some [] →
      Alt.isTerminalState state = true) ∧
    (state.code = none → Alt.isTerminalState state = false) := by
  refine ⟨?_, ?_, ?_⟩
  · cases hc : state.code <;> simp [Alt.isTerminalState, hc]
  · intro objs o hc _
    simp [Alt.isTerminalState, hc]
  · intro hc
    simp [Alt.isTerminalState, hc]

/-- C21 (amended) on the state with the empty file map, and on the state `{}`. -/
theorem baseline_terminal_iff_witness :
    Alt.isTerminalState freshState = true ∧ Alt.isTerminalState emptyState = false :=
  ⟨(baseline_terminal_iff freshState).2.1 sampleWorld.objs 0 rfl rfl,
   (baseline_terminal_iff emptyState).2.2 rfl⟩

/-! ## Delivery -/

/-- C22. `handleProjectGeneration` emits, after the events emitted so far,
exactly three events: one `project_generated` (with the URL and no error when
the upload and the signing succeed, with an error message and no URL when one
of them throws), then the progress `100`, then the last phase. -/
theorem handleProjectGeneration_terminal (projectId : String) (s3 : ObjectStore)
    (events : List Event) :
    (∀ url, uploadProjectToS3 s3 = .ok url →
      handleProjectGeneration projectId s3 events =
        events ++ [.projectGenerated projectId (some url) none,
          .progress (JSNum.ofNat 100), .phase "Project generation complete"]) ∧
    (∀ message, uploadProjectToS3 s3 = .error message →
      ∃ text, text ≠ "" ∧ handleProjectGeneration projectId s3 events =
        events ++ [.projectGenerated projectId none (some text),
          .progress (JSNum.ofNat 100), .phase "Project generation complete"]) ∧
    (∃ url error, (url = none ↔ error ≠ none) ∧
      handleProjectGeneration projectId s3 events =
        events ++ [.projectGenerated projectId url error,
          .progress (JSNum.ofNat 100), .phase "Project generation complete"]) := by
  refine ⟨?_, ?_, ?_⟩
  · intro url hu
    simp only [handleProjectGeneration, hu]
  · intro message hu
    simp only [handleProjectGeneration, hu]
    by_cases hm : message = ""
    · exact ⟨"An unknown error occurred", by decide, by simp only [hm, if_true]⟩
    · exact ⟨message, hm, by simp only [hm, if_false]⟩
  · unfold handleProjectGeneration
    cases uploadProjectToS3 s3 with
    | ok url => exact ⟨some url, none, by simp, rfl⟩
    | error message => exact ⟨none, some _, by simp, rfl⟩

/-- C22 on an upload that succeeds and on one that fails without a message. -/
theorem handleProjectGeneration_terminal_witness :
    handleProjectGeneration "p1" { upload := .ok (), getSignedUrl := .ok "https://x/p1.zip" } [] =
      [.projectGenerated "p1" (some "https://x/p1.zip") none,
        .progress (JSNum.ofNat 100), .phase "Project generation complete"] ∧
    (∃ text, text ≠ "" ∧
      handleProjectGeneration "p1" { upload := .error "", getSignedUrl := .ok "u" } [] =
        [.projectGenerated "p1" none (some text),
          .progress (JSNum.ofNat 100), .phase "Project generation complete"]) :=
  ⟨(handleProjectGeneration_terminal "p1"
      { upload := .ok (), getSignedUrl := .ok "https://x/p1.zip" } []).1 "https://x/p1.zip" rfl,
   (handleProjectGeneration_terminal "p1"
      { upload := .error "", getSignedUrl := .ok "u" } []).2.1 "" rfl⟩
/-! ## The terminal predicate in the rollout -/

/-- C30. When the gateway answers and the extracted payload decodes to an
object, `isTerminalState` returns the `isTerminal` member of that object as it
is (`undefined` when the object has none), not a boolean.  A turn of the
rollout of `simulate` ends the rollout, with the evaluation of the state,
exactly when that value is truthy; otherwise the turn goes on to ask for
actions.  So an answer without a `<json>` block (payload `{}`) gives
`undefined` and the rollout goes on, and an `isTerminal` that is the string
`"false"` ends the rollout. -/
theorem isTerminalState_member (env : Env) (fuel : Nat) (node : Nat) (turns : Nat) (w : World)
    (text : Text) (props : List (String × JSValue))
    (hg : env.gateway w.calls .terminal = .ok text)
    (hp : env.parse (extractJsonFromText text) = some (.obj props)) :
    (isTerminalState env w).1 = (getKey "isTerminal" props).getD .undefined ∧
    (((getKey "isTerminal" props).getD .undefined).truthy = true →
      simulateLoop env fuel node (turns + 1) w =
        .ok (evaluateState env (isTerminalState env w).2).1
          (evaluateState env (isTerminalState env w).2).2) ∧
    (((getKey "isTerminal" props).getD .undefined).truthy = false →
      simulateLoop env fuel node (turns + 1) w =
        match getAvailableActions env (isTerminalState env w).2 with
        | .stuck => .stuck
        | .thrown message w1 => .thrown message w1
        | .ok actions w1 =>
          match pickAction env w1.draws actions with
          | none => .stuck
          | some (.error message) => .thrown message { w1 with draws := w1.draws + 1 }
          | some (.ok randomAction) =>
            match w1.nodes[node]? with
            | none => .stuck
            | some n =>
              match applyActionVia env fuel n.state randomAction
                  { w1 with draws := w1.draws + 1 } with
              | .stuck => .stuck
              | .thrown message w2 => .thrown message w2
              | .ok _ w2 => simulateLoop env fuel node turns w2) ∧
    ((¬ ∃ pre y post, text = pre ++ jsonOpen ++ y ++ jsonClose ++ post) → props = [] →
      (isTerminalState env w).1 = .undefined) ∧
    (getKey "isTerminal" props = some (.str "false") →
      (isTerminalState env w).1 = .str "false" ∧ (JSValue.str "false").truthy = true) := by
  have hv : (isTerminalState env w).1 = (getKey "isTerminal" props).getD .undefined := by
    simp only [isTerminalState, hg, hp, JSValue.prop]
    cases getKey "isTerminal" props <;> rfl
  refine ⟨hv, ?_, ?_, ?_, ?_⟩
  · intro ht
    rw [← hv] at ht
    simp only [simulateLoop, ht, if_true]
  · intro ht
    rw [← hv] at ht
    simp only [simulateLoop, ht, Bool.false_eq_true, if_false]
  · intro _ he
    rw [hv, he]
    rfl
  · intro hk
    rw [hv, hk]
    exact ⟨rfl, rfl⟩

/-- C30 on a refusal without tags (the rollout goes on: `undefined`) and on the
payload `{"isTerminal": "false"}` (the rollout ends). -/
theorem isTerminalState_member_witness :
    (isTerminalState (sampleEnv refusingGateway) sampleWorld).1 = .undefined ∧
    ((isTerminalState stringlyEnv sampleWorld).1 = .str "false" ∧
      (JSValue.str "false").truthy = true) ∧
    simulateLoop stringlyEnv 2 0 (0 + 1) sampleWorld =
      .ok (evaluateState stringlyEnv
          (isTerminalState stringlyEnv sampleWorld).2).1
        (evaluateState stringlyEnv
          (isTerminalState stringlyEnv sampleWorld).2).2 :=
  ⟨(isTerminalState_member (sampleEnv refusingGateway) 2 0 0 sampleWorld
      "I cannot help with that.".toList [] rfl rfl).2.2.2.1
      (by
        rintro ⟨pre, y, post, e⟩
        have hmem : '<' ∈ "I cannot help with that.".toList := by
          rw [e]; simp [jsonOpen]
        exact absurd hmem (by decide)) rfl,
   (isTerminalState_member stringlyEnv 2 0 0 sampleWorld
      "<json>\x7b\"isTerminal\": \"false\"\x7d</json>".toList
      [("isTerminal", .str "false")] rfl rfl).2.2.2.2 rfl,
   (isTerminalState_member stringlyEnv 2 0 0 sampleWorld
      "<json>\x7b\"isTerminal\": \"false\"\x7d</json>".toList
      [("isTerminal", .str "false")] rfl rfl).2.1 rfl⟩

/-! ## The two state mergers -/

/-- Keys that `source` does not mention keep their value under the alternate
merger too. -/
theorem getKey_altMergeEntries_of_not_mem (k : String) (s : Entries) :
    ∀ t : Entries, k ∉ keysOf s → getKey k (Alt.mergeEntries t s) = getKey k t := by
  induction s with
  | nil => intro t _; simp only [Alt.mergeEntries]
  | cons e rest ih =>
    intro t hk
    obtain ⟨k0, v0⟩ := e
    simp only [keysOf, List.map_cons, List.mem_cons, not_or] at hk
    cases v0 with
    | str x =>
      simp only [Alt.mergeEntries]
      rw [ih _ (by simpa [keysOf] using hk.2), getKey_setKey_ne _ _ _ _ (Ne.symm hk.1)]
    | obj m =>
      simp only [Alt.mergeEntries]
      rw [ih _ (by simpa [keysOf] using hk.2), getKey_setKey_ne _ _ _ _ (Ne.symm hk.1)]

/-- A key at which `source` holds a mapping ends with the value the alternate
merger assigns there. -/
theorem getKey_altMergeEntries_of_mem (k : String) (m : Entries) (s : Entries) :
    ∀ t : Entries, uniqueKeysEntries s = true → getKey k s = some (.obj m) →
      getKey k (Alt.mergeEntries t s) =
        some (Alt.deepMerge (orEmpty (getKey k t)) (.obj m)) := by
  induction s with
  | nil => intro t _ hg; simp [getKey] at hg
  | cons e rest ih =>
    intro t hu hg
    obtain ⟨k0, v0⟩ := e
    obtain ⟨hu1, _, hu3⟩ := (uniqueKeysEntries_cons k0 v0 rest).mp hu
    by_cases h : k0 = k
    · subst h
      simp only [getKey, if_true, Option.some.injEq] at hg
      subst hg
      simp only [Alt.mergeEntries]
      rw [getKey_altMergeEntries_of_not_mem k0 rest _ hu1, getKey_setKey_self]
    · simp only [getKey, h, if_false] at hg
      cases v0 with
      | str x =>
        simp only [Alt.mergeEntries]
        rw [ih _ hu3 hg, getKey_setKey_ne _ _ _ _ h]
      | obj m0 =>
        simp only [Alt.mergeEntries]
        rw [ih _ hu3 hg, getKey_setKey_ne _ _ _ _ h]

theorem noClashEntries_nil : ∀ s : Entries, noClashEntries [] s = true
  | [] => rfl
  | (k, v) :: rest => by
    simp only [noClashEntries, getKey, Bool.true_and]
    exact noClashEntries_nil rest

theorem noClashEntries_setKey (k : String) (a : FileVal) :
    ∀ (s t : Entries), k ∉ keysOf s → noClashEntries (setKey k a t) s = noClashEntries t s
  | [], _, _ => rfl
  | (k0, v0) :: rest, t, hk => by
    simp only [keysOf, List.map_cons, List.mem_cons, not_or] at hk
    simp only [noClashEntries]
    rw [getKey_setKey_ne _ _ _ _ hk.1,
      noClashEntries_setKey k a rest t (by simpa [keysOf] using hk.2)]

mutual
theorem deepMerge_agree_value : ∀ (v : FileVal) (old : Option FileVal) (m : Entries),
    v = .obj m → uniqueKeysEntries m = true →
    (Alt.deepMerge (orEmpty old) (.obj m) = deepMerge (orEmpty old) (.obj m) ↔
      (match old with
        | none => true
        | some o => noClash o (.obj m)) = true)
  | .str _, _, _, hv, _ => by cases hv
  | .obj m', none, m, hv, hu => by
    cases hv
    have h := deepMerge_agree_entries m' [] hu
    rw [noClashEntries_nil] at h
    simp only [orEmpty, Alt.deepMerge, deepMerge, FileVal.obj.injEq]
    simpa using h
  | .obj m', some (.obj tm), m, hv, hu => by
    cases hv
    simp only [orEmpty, Alt.deepMerge, deepMerge, FileVal.obj.injEq, noClash]
    exact deepMerge_agree_entries m' tm hu
  | .obj m', some (.str x), m, hv, hu => by
    cases hv
    by_cases hx : x = ""
    · subst hx
      have h := deepMerge_agree_entries m' [] hu
      rw [noClashEntries_nil] at h
      simp only [orEmpty, if_true, Alt.deepMerge, deepMerge, FileVal.obj.injEq, noClash]
      simpa using h
    · have ho : orEmpty (some (.str x)) = .str x := by simp only [orEmpty, hx, if_false]
      rw [ho]
      simp only [Alt.deepMerge, deepMerge, noClash]
      simp [hx]
theorem deepMerge_agree_entries : ∀ (s t : Entries), uniqueKeysEntries s = true →
    (Alt.mergeEntries t s = mergeEntries t s ↔ noClashEntries t s = true)
  | [], t, _ => by simp [Alt.mergeEntries, mergeEntries, noClashEntries]
  | (k, .str x) :: rest, t, hu => by
    obtain ⟨hk, _, hu2⟩ := (uniqueKeysEntries_cons k (.str x) rest).mp hu
    have hhead : (match getKey k t with
        | none => true
        | some old => noClash old (.str x)) = true := by
      cases getKey k t with
      | none => rfl
      | some old => cases old <;> rfl
    simp only [Alt.mergeEntries, mergeEntries, noClashEntries, hhead, Bool.true_and]
    rw [deepMerge_agree_entries rest _ hu2, noClashEntries_setKey k _ rest t hk]
  | (k, .obj m) :: rest, t, hu => by
    obtain ⟨hk, hu1, hu2⟩ := (uniqueKeysEntries_cons k (.obj m) rest).mp hu
    simp only [uniqueKeys] at hu1
    have hv := deepMerge_agree_value (.obj m) (getKey k t) m rfl hu1
    simp only [Alt.mergeEntries, mergeEntries, noClashEntries, Bool.and_eq_true]
    constructor
    · intro he
      have hka := getKey_altMergeEntries_of_not_mem k rest
        (setKey k (Alt.deepMerge (orEmpty (getKey k t)) (.obj m)) t) hk
      have hkm := getKey_mergeEntries_of_not_mem k rest
        (setKey k (deepMerge (orEmpty (getKey k t)) (.obj m)) t) hk
      rw [he, hkm, getKey_setKey_self] at hka
      rw [getKey_setKey_self] at hka
      have heq : Alt.deepMerge (orEmpty (getKey k t)) (.obj m) =
          deepMerge (orEmpty (getKey k t)) (.obj m) := (Option.some.inj hka).symm
      refine ⟨hv.mp heq, ?_⟩
      rw [heq] at he
      rw [← noClashEntries_setKey k _ rest t hk]
      exact (deepMerge_agree_entries rest _ hu2).mp he
    · rintro ⟨h1, h2⟩
      rw [hv.mpr h1]
      rw [← noClashEntries_setKey k (deepMerge (orEmpty (getKey k t)) (.obj m)) rest t hk] at h2
      exact (deepMerge_agree_entries rest _ hu2).mpr h2
end

/-- A mapping whose values are all strings meets no clash. -/
theorem noClashEntries_flat : ∀ (s t : Entries),
    (∀ k v, (k, v) ∈ s → ∃ x, v = .str x) → noClashEntries t s = true
  | [], _, _ => rfl
  | (k, v) :: rest, t, hflat => by
    obtain ⟨x, hx⟩ := hflat k v (List.mem_cons_self _ _)
    subst hx
    have hhead : (match getKey k t with
        | none => true
        | some old => noClash old (.str x)) = true := by
      cases getKey k t with
      | none => rfl
      | some old => cases old <;> rfl
    simp only [noClashEntries, hhead, Bool.true_and]
    exact noClashEntries_flat rest t (fun k' v' hm => hflat k' v' (List.mem_cons_of_mem _ hm))

/-- C29. On file maps (`source` a JavaScript object: no key twice),
`Node.deepMerge` and the `deepMerge` of the alternate implementations return
the same map exactly when no path holds a non-empty string in `target` and a
nested mapping in `source`; this is so whenever `source` is a flat map of
strings.  Where `target` holds a non-empty string at a key at which `source`
holds a mapping, `Node.deepMerge` puts the mapping of `source` there and the
alternate `deepMerge` keeps the string of `target`. -/
theorem deepMerge_implementations (target source : Entries)
    (hu : uniqueKeys (.obj source) = true) :
    (Alt.deepMerge (.obj target) (.obj source) = deepMerge (.obj target) (.obj source) ↔
      noClash (.obj target) (.obj source) = true) ∧
    ((∀ k v, (k, v) ∈ source → ∃ x, v = .str x) →
      Alt.deepMerge (.obj target) (.obj source) = deepMerge (.obj target) (.obj source)) ∧
    (∀ (k x : String) (m : Entries), getKey k target = some (.str x) → x ≠ "" →
      getKey k source = some (.obj m) →
      ∃ r a, deepMerge (.obj target) (.obj source) = .obj r ∧ getKey k r = some (.obj m) ∧
        Alt.deepMerge (.obj target) (.obj source) = .obj a ∧ getKey k a = some (.str x)) := by
  simp only [uniqueKeys] at hu
  have hiff := deepMerge_agree_entries source target hu
  refine ⟨?_, ?_, ?_⟩
  · simp only [Alt.deepMerge, deepMerge, FileVal.obj.injEq, noClash]
    exact hiff
  · intro hflat
    simp only [Alt.deepMerge, deepMerge, FileVal.obj.injEq]
    exact hiff.mpr (noClashEntries_flat source target hflat)
  · intro k x m ht hx hs
    refine ⟨_, _, rfl, ?_, rfl, ?_⟩
    · rw [getKey_mergeEntries_of_mem k (.obj m) source target hu hs, ht]
      have ho : orEmpty (some (.str x)) = .str x := by simp only [orEmpty, hx, if_false]
      have ha : assigned (some (.str x)) (.obj m) =
          deepMerge (orEmpty (some (.str x))) (.obj m) := rfl
      rw [ha, ho]
      simp only [deepMerge]
    · rw [getKey_altMergeEntries_of_mem k m source target hu hs, ht]
      have ho : orEmpty (some (.str x)) = .str x := by simp only [orEmpty, hx, if_false]
      rw [ho]
      simp only [Alt.deepMerge]

/-- C29 on a flat delta, and on a target that holds the string `"x"` where the
source holds a mapping. -/
theorem deepMerge_implementations_witness :
    Alt.deepMerge (.obj sampleFiles) (.obj [("README.md", .str "# todo")]) =
      deepMerge (.obj sampleFiles) (.obj [("README.md", .str "# todo")]) ∧
    (∃ r a, deepMerge (.obj [("src", .str "x")]) (.obj [("src", .obj [("a.js", .str "1")])]) =
        .obj r ∧ getKey "src" r = some (.obj [("a.js", .str "1")]) ∧
      Alt.deepMerge (.obj [("src", .str "x")]) (.obj [("src", .obj [("a.js", .str "1")])]) =
        .obj a ∧ getKey "src" a = some (.str "x")) :=
  ⟨(deepMerge_implementations sampleFiles [("README.md", .str "# todo")] rfl).2.1
      (by
        intro k v hm
        simp only [List.mem_singleton, Prod.mk.injEq] at hm
        exact ⟨_, hm.2⟩),
   (deepMerge_implementations [("src", .str "x")] [("src", .obj [("a.js", .str "1")])] rfl).2.2
      "src" "x" [("a.js", .str "1")] rfl (by decide) rfl⟩

/-! ## The best child -/

theorem JSNum.gt_trans (a b c : JSNum) (h1 : JSNum.gt a b = true) (h2 : JSNum.gt b c = true) :
    JSNum.gt a c = true := by
  cases a <;> cases b <;> cases c <;> simp_all [JSNum.gt]
  linarith

theorem JSNum.gt_of_gt_of_not_gt (c b x : JSNum) (h1 : JSNum.gt c b = true)
    (h2 : ¬ JSNum.gt x b = true) (hx : x ≠ .nan) : JSNum.gt c x = true := by
  cases c <;> cases b <;> cases x <;> simp_all [JSNum.gt]
  linarith

theorem JSNum.not_gt_pinf (x : JSNum) : JSNum.gt x .pinf = false := by
  cases x <;> rfl

/-- The loop of `getBestChild` over children whose scores are numbers: either
no child beats the score held so far and the child held so far is returned,
or the first child of maximal score is. -/
theorem bestChildLoop_spec {σ : Type} (m : MathImpl) (h : NodeStore σ) (ef : JSNum)
    (ucb : Nat → JSNum) :
    ∀ (cs : List Nat) (bs : JSNum) (b : Option Nat),
      (∀ c ∈ cs, getUCBScore m h c ef = .ok (ucb c) ∧ ucb c ≠ .nan) →
      ((∀ c ∈ cs, ¬ JSNum.gt (ucb c) bs = true) ∧ bestChildLoop m h ef cs bs b = .ok b) ∨
      (∃ pre c post, cs = pre ++ c :: post ∧ bestChildLoop m h ef cs bs b = .ok (some c) ∧
        JSNum.gt (ucb c) bs = true ∧ (∀ e ∈ pre, JSNum.gt (ucb c) (ucb e) = true) ∧
        (∀ e ∈ post, ¬ JSNum.gt (ucb e) (ucb c) = true)) := by
  intro cs
  induction cs with
  | nil =>
    intro bs b _
    exact Or.inl ⟨fun c hc => by simp at hc, rfl⟩
  | cons x xs ih =>
    intro bs b hall
    have hx := hall x (List.mem_cons_self _ _)
    have hxs : ∀ c ∈ xs, getUCBScore m h c ef = .ok (ucb c) ∧ ucb c ≠ .nan :=
      fun c hc => hall c (List.mem_cons_of_mem _ hc)
    by_cases hg : JSNum.gt (ucb x) bs = true
    · have hstep : bestChildLoop m h ef (x :: xs) bs b =
          bestChildLoop m h ef xs (ucb x) (some x) := by
        simp only [bestChildLoop, hx.1, hg, if_true]
      rcases ih (ucb x) (some x) hxs with ⟨h1, h2⟩ | ⟨pre, c, post, e1, e2, e3, e4, e5⟩
      · exact Or.inr ⟨[], x, xs, rfl, by rw [hstep, h2], hg, fun e he => by simp at he, h1⟩
      · refine Or.inr ⟨x :: pre, c, post, by rw [e1]; rfl, by rw [hstep, e2],
          JSNum.gt_trans _ _ _ e3 hg, ?_, e5⟩
        intro e he
        rcases List.mem_cons.mp he with rfl | he
        · exact e3
        · exact e4 e he
    · have hstep : bestChildLoop m h ef (x :: xs) bs b = bestChildLoop m h ef xs bs b := by
        simp only [bestChildLoop, hx.1, hg, Bool.false_eq_true, if_false]
      rcases ih bs b hxs with ⟨h1, h2⟩ | ⟨pre, c, post, e1, e2, e3, e4, e5⟩
      · refine Or.inl ⟨?_, by rw [hstep, h2]⟩
        intro c hc
        rcases List.mem_cons.mp hc with rfl | hc
        · exact hg
        · exact h1 c hc
      · refine Or.inr ⟨x :: pre, c, post, by rw [e1]; rfl, by rw [hstep, e2], e3, ?_, e5⟩
        intro e he
        rcases List.mem_cons.mp he with rfl | he
        · exact JSNum.gt_of_gt_of_not_gt _ _ _ e3 hg hx.2
        · exact e4 e he

/-- Children whose scores do not beat the score held so far leave the child
held so far in place, also when such a score is `NaN`. -/
theorem bestChildLoop_keep {σ : Type} (m : MathImpl) (h : NodeStore σ) (ef : JSNum) :
    ∀ (cs : List Nat) (bs : JSNum) (b : Option Nat),
      (∀ c ∈ cs, ∃ s, getUCBScore m h c ef = .ok s ∧ JSNum.gt s bs = false) →
      bestChildLoop m h ef cs bs b = .ok b := by
  intro cs
  induction cs with
  | nil => intro bs b _; rfl
  | cons x xs ih =>
    intro bs b hall
    obtain ⟨s, hs1, hs2⟩ := hall x (List.mem_cons_self _ _)
    simp only [bestChildLoop, hs1, hs2, Bool.false_eq_true, if_false]
    exact ih bs b (fun c hc => hall c (List.mem_cons_of_mem _ hc))

/-- Visited children of finite score before the first unvisited child: the
loop reaches that child holding a score that is not `Infinity`. -/
theorem bestChildLoop_finite_then {σ : Type} (m : MathImpl) (h : NodeStore σ) (ef : JSNum)
    (rest : List Nat) :
    ∀ (pre : List Nat) (bs : JSNum) (b : Option Nat),
      (∀ c ∈ pre, ∃ q : ℚ, getUCBScore m h c ef = .ok (.fin q)) →
      bs ≠ .pinf → bs ≠ .nan →
      ∃ bs' b', bs' ≠ .pinf ∧ bs' ≠ .nan ∧
        bestChildLoop m h ef (pre ++ rest) bs b = bestChildLoop m h ef rest bs' b' := by
  intro pre
  induction pre with
  | nil => intro bs b _ h1 h2; exact ⟨bs, b, h1, h2, rfl⟩
  | cons x xs ih =>
    intro bs b hall h1 h2
    obtain ⟨q, hq⟩ := hall x (List.mem_cons_self _ _)
    have hxs : ∀ c ∈ xs, ∃ q : ℚ, getUCBScore m h c ef = .ok (.fin q) :=
      fun c hc => hall c (List.mem_cons_of_mem _ hc)
    by_cases hg : JSNum.gt (.fin q) bs = true
    · obtain ⟨bs', b', r1, r2, r3⟩ := ih (.fin q) (some x) hxs (by simp) (by simp)
      refine ⟨bs', b', r1, r2, ?_⟩
      simp only [List.cons_append, bestChildLoop, hq, hg, if_true]
      exact r3
    · obtain ⟨bs', b', r1, r2, r3⟩ := ih bs b hxs h1 h2
      refine ⟨bs', b', r1, r2, ?_⟩
      simp only [List.cons_append, bestChildLoop, hq, hg, Bool.false_eq_true, if_false]
      exact r3

theorem JSNum.pinf_gt (bs : JSNum) (h1 : bs ≠ .pinf) (h2 : bs ≠ .nan) :
    JSNum.gt .pinf bs = true := by
  cases bs with
  | nan => exact absurd rfl h2
  | pinf => exact absurd rfl h1
  | ninf => rfl
  | fin q => rfl

theorem getUCBScore_unvisited {σ : Type} (m : MathImpl) (h : NodeStore σ) (c : Nat)
    (ef : JSNum) (nc : Node σ) (hc : h[c]? = some nc) (h0 : nc.visits = 0) :
    getUCBScore m h c ef = .ok .pinf := by
  simp only [getUCBScore, hc, h0, if_true]

/-- The claim of C23 fails: in `sampleOdd` the root has a child, the UCB score
of that child is `NaN` (the root has `visits = 0`), and `getBestChild` returns
`null`. -/
theorem getBestChild_null_with_children :
    (∃ n, sampleOdd[0]? = some n ∧ n.children = [1]) ∧
    getUCBScore sampleMath sampleOdd 1 (.fin (7 / 5)) = .ok .nan ∧
    getBestChild sampleMath sampleOdd 0 (.fin (7 / 5)) = .ok none := by
  refine ⟨⟨_, rfl, rfl⟩, ?_, ?_⟩
  · with_unfolding_all rfl
  · with_unfolding_all rfl

/-- C23 (amended). `getBestChild(explorationFactor)` returns `null` when the
node has no children, and also when no child has a UCB score above
`-Infinity`.  For a node with children whose UCB scores are all numbers (no
`NaN`) above `-Infinity` it returns a child, the first in the order of
`children` whose score is maximal: its score is strictly greater than that of
every child before it and no child after it has a greater score.  And when
some child has `visits = 0` and every visited child has a finite UCB score, it
returns the first child with `visits = 0`. -/
theorem getBestChild_spec {σ : Type} (m : MathImpl) (h : NodeStore σ) (a : Nat) (n : Node σ)
    (ef : JSNum) (hn : h[a]? = some n) :
    (n.children = [] → getBestChild m h a ef = .ok none) ∧
    ((∀ c ∈ n.children, ∃ s, getUCBScore m h c ef = .ok s ∧ JSNum.gt s .ninf = false) →
      getBestChild m h a ef = .ok none) ∧
    (∀ ucb : Nat → JSNum, n.children ≠ [] →
      (∀ c ∈ n.children, getUCBScore m h c ef = .ok (ucb c) ∧ ucb c ≠ .nan ∧ ucb c ≠ .ninf) →
      ∃ pre c post, n.children = pre ++ c :: post ∧ getBestChild m h a ef = .ok (some c) ∧
        (∀ e ∈ pre, JSNum.gt (ucb c) (ucb e) = true) ∧
        (∀ e ∈ post, ¬ JSNum.gt (ucb e) (ucb c) = true)) ∧
    (∀ (pre : List Nat) (c0 : Nat) (post : List Nat), n.children = pre ++ c0 :: post →
      (∀ c ∈ pre, ∃ nc, h[c]? = some nc ∧ 0 < nc.visits) →
      (∃ n0, h[c0]? = some n0 ∧ n0.visits = 0) →
      (∀ c ∈ post, ∃ nc, h[c]? = some nc) →
      (∀ c nc, c ∈ n.children → h[c]? = some nc → 0 < nc.visits →
        ∃ q : ℚ, getUCBScore m h c ef = .ok (.fin q)) →
      getBestChild m h a ef = .ok (some c0)) := by
  refine ⟨?_, ?_, ?_, ?_⟩
  · intro hc
    simp only [getBestChild, hn, hc, bestChildLoop]
  · intro hall
    simp only [getBestChild, hn]
    exact bestChildLoop_keep m h ef n.children .ninf none hall
  · intro ucb hne hall
    simp only [getBestChild, hn]
    rcases bestChildLoop_spec m h ef ucb n.children .ninf none
      (fun c hc => ⟨(hall c hc).1, (hall c hc).2.1⟩) with ⟨h1, _⟩ | ⟨pre, c, post, e1, e2, _, e4, e5⟩
    · exfalso
      obtain ⟨x, xs, hx⟩ := List.exists_cons_of_ne_nil hne
      have hmem : x ∈ n.children := by rw [hx]; exact List.mem_cons_self _ _
      have h2 := h1 x hmem
      obtain ⟨_, k1, k2⟩ := hall x hmem
      cases hu : ucb x with
      | nan => exact k1 hu
      | ninf => exact k2 hu
      | pinf => rw [hu] at h2; exact h2 rfl
      | fin q => rw [hu] at h2; exact h2 rfl
    · exact ⟨pre, c, post, e1, e2, e4, e5⟩
  · intro pre c0 post hch hpre h0 hpost hfin
    obtain ⟨n0, hn0, hv0⟩ := h0
    simp only [getBestChild, hn, hch]
    obtain ⟨bs', b', r1, r2, r3⟩ := bestChildLoop_finite_then m h ef (c0 :: post) pre .ninf none
      (by
        intro c hc
        obtain ⟨nc, k1, k2⟩ := hpre c hc
        exact hfin c nc (by rw [hch]; exact List.mem_append_left _ hc) k1 k2)
      (by simp) (by simp)
    rw [r3]
    simp only [bestChildLoop, getUCBScore_unvisited m h c0 ef n0 hn0 hv0,
      JSNum.pinf_gt bs' r1 r2, if_true]
    refine bestChildLoop_keep m h ef post .pinf (some c0) ?_
    intro c hc
    obtain ⟨nc, k1⟩ := hpost c hc
    by_cases hv : nc.visits = 0
    · exact ⟨.pinf, getUCBScore_unvisited m h c ef nc k1 hv, rfl⟩
    · obtain ⟨q, hq⟩ := hfin c nc
        (by rw [hch]; exact List.mem_append_right _ (List.mem_cons_of_mem _ hc)) k1 (by omega)
      exact ⟨.fin q, hq, rfl⟩

/-- C23 (amended) on `sampleTree`: the root's only child is returned, and so is
the unvisited leaf `2` under node `1`; a node without children gives `null`. -/
theorem getBestChild_spec_witness :
    getBestChild sampleMath sampleTree 2 (.fin (7 / 5)) = .ok none ∧
    getBestChild sampleMath sampleTree 1 (.fin (7 / 5)) = .ok (some 2) :=
  ⟨(getBestChild_spec sampleMath sampleTree 2 _ (.fin (7 / 5)) rfl).1 rfl,
   (getBestChild_spec sampleMath sampleTree 1 _ (.fin (7 / 5)) rfl).2.2.2 [] 2 [] rfl
      (fun c hc => by simp at hc) ⟨_, rfl, rfl⟩ (fun c hc => by simp at hc)
      (by
        intro c nc hc hnc hv
        have hc2 : c ∈ [2] := hc
        simp only [List.mem_singleton] at hc2
        subst hc2
        cases hnc
        exact absurd hv (by decide))⟩

/-! ## Expansion -/

/-- `applyAction` never throws, and it touches neither the nodes nor the
controller nor the checkpoint. -/
theorem applyActionViaFrom_frame (env : Env) (fuel : Nat) (state : ProjectState)
    (action : JSValue) :
    ∀ (k retries : Nat) (w : World),
      (∀ message w', applyActionViaFrom env fuel state action k retries w ≠ .thrown message w') ∧
      (∀ s w', applyActionViaFrom env fuel state action k retries w = .ok s w' →
        w'.nodes = w.nodes ∧ w'.bestNode = w.bestNode ∧ w'.bestScore = w.bestScore ∧
        w'.saved = w.saved) := by
  intro k
  induction k with
  | zero =>
    intro retries w
    refine ⟨fun message w' hc => ?_, fun s w' hc => ?_⟩
    · simp only [applyActionViaFrom] at hc
      cases hc
    · simp only [applyActionViaFrom, Outcome.ok.injEq] at hc
      obtain ⟨_, rfl⟩ := hc
      exact ⟨rfl, rfl, rfl, rfl⟩
  | succ k ih =>
    intro retries w
    rw [applyActionViaFrom]
    rcases hatt : applyAttempt env (env.gateway w.calls (.apply action)) with ⟨thinking, r⟩
    cases r with
    | ok updatedCode =>
      cases hm : mergeInto fuel state updatedCode w.objs with
      | none =>
        constructor
        · intro message w' hc
          simp only [hm] at hc
          cases hc
        · intro s w' hc
          simp only [hm] at hc
          cases hc
      | some p =>
        obtain ⟨newState, h3⟩ := p
        constructor
        · intro message w' hc
          simp only [hm] at hc
          cases hc
        · intro s w' hc
          simp only [hm] at hc
          cases hc
          exact ⟨rfl, rfl, rfl, rfl⟩
    | error message =>
      by_cases hr : retries + 1 = maxRetries
      · constructor
        · intro message w' hc
          simp only [hr, if_true] at hc
          cases hc
        · intro s w' hc
          simp only [hr, if_true] at hc
          cases hc
          exact ⟨rfl, rfl, rfl, rfl⟩
      · simp only [hr, if_false]
        exact ih (retries + 1)
          { w with calls := w.calls + 1, events := withThinking w.events thinking }

/-- What the loop of `expand` leaves: one new node per action after the nodes
there were, each a `new Node(newState, node)` whose state is what
`applyAction` returned for its action in the world the loop had reached;
`node.children` extended by them in order; every other node as it was. -/
theorem expandLoop_spec (env : Env) (fuel : Nat) (a : Nat) :
    ∀ (items : List JSValue) (w w' : World) (n : Node ProjectState),
      w.nodes[a]? = some n → expandLoop env fuel a items w = .ok () w' →
      w'.nodes.length = w.nodes.length + items.length ∧
      (∀ b : Nat, b < w.nodes.length → b ≠ a → w'.nodes[b]? = w.nodes[b]?) ∧
      w'.nodes[a]? = some { n with
        children := n.children ++ List.range' w.nodes.length items.length } ∧
      (∀ (j : Nat) (action : JSValue), items[j]? = some action →
        ∃ wj s wj', expandLoop env fuel a (items.take j) w = .ok () wj ∧
          applyActionVia env fuel n.state action wj = .ok s wj' ∧
          w'.nodes[w.nodes.length + j]? = some (Node.new s (some a))) ∧
      w'.bestNode = w.bestNode ∧ w'.bestScore = w.bestScore ∧ w'.saved = w.saved := by
  intro items
  induction items with
  | nil =>
    intro w w' n hn he
    simp only [expandLoop, Outcome.ok.injEq, true_and] at he
    subst he
    refine ⟨rfl, fun _ _ _ => rfl, ?_, ?_, rfl, rfl, rfl⟩
    · simp only [List.range', List.append_nil]
      exact hn
    · intro j action hj
      simp at hj
  | cons x xs ih =>
    intro w w' n hn he
    have hal : a < w.nodes.length := (List.getElem?_eq_some.mp hn).1
    rw [expandLoop] at he
    simp only [hn] at he
    cases hap : applyActionVia env fuel n.state x w with
    | stuck => rw [hap] at he; cases he
    | thrown message w1 => rw [hap] at he; cases he
    | ok s w1 =>
      rw [hap] at he
      simp only at he
      obtain ⟨f1, f2, f3, f4⟩ :=
        (applyActionViaFrom_frame env fuel n.state x maxRetries 0 w).2 s w1 hap
      have hn2 : (updateNode (w1.nodes ++ [Node.new s (some a)]) a
          (fun m => { m with children := m.children ++ [w1.nodes.length] }))[a]? =
          some { n with children := n.children ++ [w.nodes.length] } := by
        rw [updateNode_get_self _ _ _ n (by
          rw [f1, List.getElem?_append_left hal]; exact hn), f1]
      obtain ⟨i1, i2, i3, i4, i5, i6, i7⟩ := ih _ w' _ hn2 he
      simp only [updateNode_length, List.length_append, List.length_singleton, f1] at i1 i2 i3 i4
      have hnew : ∀ b : Nat, b ≠ a → (updateNode (w.nodes ++ [Node.new s (some a)]) a
          (fun m => { m with children := m.children ++ [w.nodes.length] }))[b]? =
          (w.nodes ++ [Node.new s (some a)])[b]? :=
        fun b hb => updateNode_get_ne _ _ _ _ (Ne.symm hb)
      refine ⟨by simp only [List.length_cons]; omega, ?_, ?_, ?_, ?_, ?_, ?_⟩
      · intro b hb hba
        rw [i2 b (by omega) hba, hnew b hba]
        exact List.getElem?_append_left hb
      · rw [i3]
        simp only [List.length_cons, List.range'_succ, List.append_assoc, List.singleton_append]
      · intro j action hj
        cases j with
        | zero =>
          simp only [List.getElem?_cons_zero, Option.some.injEq] at hj
          subst hj
          refine ⟨w, s, w1, rfl, hap, ?_⟩
          rw [Nat.add_zero, i2 _ (by omega) (by omega), hnew _ (by omega)]
          exact List.getElem?_concat_length _ _
        | succ j =>
          simp only [List.getElem?_cons_succ] at hj
          obtain ⟨wj, s', wj', k1, k2, k3⟩ := i4 j action hj
          refine ⟨wj, s', wj', ?_, k2, ?_⟩
          · simp only [List.take_succ_cons]
            rw [expandLoop]
            simp only [hn, hap, f1]
            exact k1
          · rw [show w.nodes.length + (j + 1) = w.nodes.length + 1 + j by omega]
            exact k3
      · rw [i5]; exact f2
      · rw [i6]; exact f3
      · rw [i7]; exact f4

/-- The proposer touches neither the nodes nor the files nor the controller. -/
theorem getAvailableActionsFrom_frame (env : Env) :
    ∀ (k retries : Nat) (w : World) (v : JSValue) (w' : World),
      getAvailableActionsFrom env k retries w = .ok v w' →
      w'.nodes = w.nodes ∧ w'.objs = w.objs ∧ w'.bestNode = w.bestNode ∧
      w'.bestScore = w.bestScore ∧ w'.saved = w.saved := by
  intro k
  induction k with
  | zero =>
    intro retries w v w' hc
    simp only [getAvailableActionsFrom] at hc
    cases hc
    exact ⟨rfl, rfl, rfl, rfl, rfl⟩
  | succ k ih =>
    intro retries w v w' hc
    rw [getAvailableActionsFrom] at hc
    cases hg : env.gateway w.calls .propose with
    | error message => rw [hg] at hc; cases hc
    | ok text =>
      rw [hg] at hc
      simp only at hc
      cases hp : env.parse (extractJsonFromText text) with
      | some actions =>
        rw [hp] at hc
        cases hc
        exact ⟨rfl, rfl, rfl, rfl, rfl⟩
      | none =>
        rw [hp] at hc
        simp only at hc
        by_cases hr : retries + 1 = maxRetries
        · simp only [hr, if_true] at hc
          cases hc
          exact ⟨rfl, rfl, rfl, rfl, rfl⟩
        · simp only [hr, if_false] at hc
          obtain ⟨q1, q2, q3, q4, q5⟩ := ih _ _ _ _ hc
          exact ⟨q1, q2, q3, q4, q5⟩

/-- The loop of `expand` never throws. -/
theorem expandLoop_no_throw (env : Env) (fuel : Nat) (a : Nat) :
    ∀ (items : List JSValue) (w : World) (message : String) (w' : World),
      expandLoop env fuel a items w ≠ .thrown message w' := by
  intro items
  induction items with
  | nil => intro w message w' hc; cases hc
  | cons x xs ih =>
    intro w message w' hc
    rw [expandLoop] at hc
    cases hn : w.nodes[a]? with
    | none => rw [hn] at hc; cases hc
    | some n =>
      rw [hn] at hc
      simp only at hc
      cases hap : applyActionVia env fuel n.state x w with
      | stuck => rw [hap] at hc; cases hc
      | thrown m w1 =>
        exact (applyActionViaFrom_frame env fuel n.state x maxRetries 0 w).1 m w1 hap
      | ok s w1 =>
        rw [hap] at hc
        exact ih _ _ _ hc

/-- The loop of `expand` returns when each `applyAction` it calls does. -/
theorem expandLoop_returns (env : Env) (fuel : Nat) (a : Nat) :
    ∀ (items : List JSValue) (w : World) (n : Node ProjectState), w.nodes[a]? = some n →
      (∀ (j : Nat) (action : JSValue) (wj : World), items[j]? = some action →
        expandLoop env fuel a (items.take j) w = .ok () wj →
        applyActionVia env fuel n.state action wj ≠ .stuck) →
      ∃ w', expandLoop env fuel a items w = .ok () w' := by
  intro items
  induction items with
  | nil => intro w n _ _; exact ⟨w, rfl⟩
  | cons x xs ih =>
    intro w n hn hall
    have hal : a < w.nodes.length := (List.getElem?_eq_some.mp hn).1
    rw [expandLoop]
    simp only [hn]
    cases hap : applyActionVia env fuel n.state x w with
    | stuck => exact absurd hap (hall 0 x w (by simp) rfl)
    | thrown m w1 =>
      exact absurd hap ((applyActionViaFrom_frame env fuel n.state x maxRetries 0 w).1 m w1)
    | ok s w1 =>
      simp only
      obtain ⟨f1, _, _, _⟩ :=
        (applyActionViaFrom_frame env fuel n.state x maxRetries 0 w).2 s w1 hap
      refine ih _ { n with children := n.children ++ [w.nodes.length] } ?_ ?_
      · simp only
        rw [updateNode_get_self _ _ _ n (by
          rw [f1, List.getElem?_append_left hal]; exact hn), f1]
      · intro j action wj hj hw
        refine hall (j + 1) action wj (by simpa using hj) ?_
        simp only [List.take_succ_cons]
        rw [expandLoop]
        simp only [hn, hap]
        exact hw

/-- C25. When the proposer returns the list `items`, `expand` on the node `a`
never throws; when it returns, the store holds one new node per action, in
action order, after the nodes there were: the `j`-th is
`new Node(newState, a)` (parent `a`, no children, `visits = 0`, `score = 0`)
with `newState` the state `applyAction` returned for the `j`-th action; the
children of `a` are those it had (none for a leaf) followed by the new nodes in
order; every other node is as it was.  It returns when every `applyAction` it
calls returns; and for the empty list it returns at once, with no child added. -/
theorem expand_attaches (env : Env) (fuel : Nat) (a : Nat) (w w1 : World)
    (n : Node ProjectState) (items : List JSValue) (hn : w.nodes[a]? = some n)
    (hget : getAvailableActions env w = .ok (.arr items) w1) :
    (∀ message w', expand env fuel a w ≠ .thrown message w') ∧
    (∀ w', expand env fuel a w = .ok () w' →
      w'.nodes.length = w.nodes.length + items.length ∧
      (∀ b : Nat, b < w.nodes.length → b ≠ a → w'.nodes[b]? = w.nodes[b]?) ∧
      w'.nodes[a]? = some { n with
        children := n.children ++ List.range' w.nodes.length items.length } ∧
      (∀ (j : Nat) (action : JSValue), items[j]? = some action →
        ∃ wj s wj', expandLoop env fuel a (items.take j) w1 = .ok () wj ∧
          applyActionVia env fuel n.state action wj = .ok s wj' ∧
          w'.nodes[w.nodes.length + j]? = some (Node.new s (some a)) ∧
          (Node.new s (some a)).parent = some a ∧ (Node.new s (some a)).children = [] ∧
          (Node.new s (some a)).visits = 0 ∧ (Node.new s (some a)).score = .fin 0)) ∧
    ((∀ (j : Nat) (action : JSValue) (wj : World), items[j]? = some action →
        expandLoop env fuel a (items.take j) w1 = .ok () wj →
        applyActionVia env fuel n.state action wj ≠ .stuck) →
      ∃ w', expand env fuel a w = .ok () w') ∧
    (items = [] → expand env fuel a w = .ok () w1) := by
  obtain ⟨g1, _, _, _, _⟩ := getAvailableActionsFrom_frame env maxRetries 0 w _ w1 hget
  have hn1 : w1.nodes[a]? = some n := by rw [g1]; exact hn
  have hexp : expand env fuel a w = expandLoop env fuel a items w1 := by
    simp only [expand, hget, iterate]
  rw [hexp]
  refine ⟨expandLoop_no_throw env fuel a items w1, ?_, ?_, ?_⟩
  · intro w' he
    obtain ⟨i1, i2, i3, i4, _, _, _⟩ := expandLoop_spec env fuel a items w1 w' n hn1 he
    rw [g1] at i1 i2 i3 i4
    refine ⟨i1, i2, i3, ?_⟩
    intro j action hj
    obtain ⟨wj, s, wj', k1, k2, k3⟩ := i4 j action hj
    exact ⟨wj, s, wj', k1, k2, k3, rfl, rfl, rfl, rfl⟩
  · exact expandLoop_returns env fuel a items w1 n hn1
  · intro he
    subst he
    rfl

/-- C25 on `rootedWorld` and `helpfulGateway` (one action): `expand` returns. -/
theorem expand_attaches_witness :
    ∃ w', expand (sampleEnv helpfulGateway) 3 0 rootedWorld = .ok () w' :=
  (expand_attaches (sampleEnv helpfulGateway) 3 0 rootedWorld
      { rootedWorld with
        calls := 1,
        events := [.thinking (extractThinkingFromText
          "<thinking>one file</thinking><json>[\"create server/server.js\"]</json>".toList)] }
      (Node.new freshState none) [.str "create server/server.js"] rfl rfl).2.2.1
    (by
      intro j action wj hj hw hs
      cases j with
      | zero =>
        simp only [List.getElem?_cons_zero, Option.some.injEq] at hj
        subst hj
        simp only [List.take_zero, expandLoop, Outcome.ok.injEq, true_and] at hw
        subst hw
        cases hs
      | succ j => simp at hj)

/-! ## The steps of an iteration -/

/-- A backpropagation that returns has walked a parent chain. -/
theorem parentChain_of_backpropagate {σ : Type} :
    ∀ (fuel : Nat) (h : NodeStore σ) (a : Nat) (x : JSNum) (h' : NodeStore σ),
      backpropagate fuel h a x = some h' → ∃ l, parentChain fuel h a = some l := by
  intro fuel
  induction fuel with
  | zero => intro h a x h' hb; simp [backpropagate] at hb
  | succ f ih =>
    intro h a x h' hb
    simp only [backpropagate] at hb
    simp only [parentChain]
    cases hn : h[a]? with
    | none => simp [hn] at hb
    | some n =>
      rcases n with ⟨st, par, ch, vis, sc⟩
      simp only [hn] at hb ⊢
      cases par with
      | none => exact ⟨[a], rfl⟩
      | some p =>
        simp only at hb ⊢
        obtain ⟨l, hl⟩ := ih _ p x h' hb
        have hcongr := parentChain_congr h
          (h.set a ⟨st, some p, ch, vis + 1, JSNum.add sc x⟩)
          (by
            intro b
            by_cases hba : a = b
            · subst hba
              have hlt : a < h.length := (List.getElem?_eq_some.mp hn).1
              simp [List.getElem?_set, hlt, hn]
            · simp [List.getElem?_set, hba]) f p
        rw [hcongr] at hl
        exact ⟨a :: l, by simp [hl]⟩

/-- A backpropagation that returns has given its starting node one more visit. -/
theorem backpropagate_start {σ : Type} (fuel : Nat) (h : NodeStore σ) (a : Nat) (x : JSNum)
    (h' : NodeStore σ) (hb : backpropagate fuel h a x = some h') :
    ∃ n n', h[a]? = some n ∧ h'[a]? = some n' ∧ n'.visits = n.visits + 1 := by
  obtain ⟨l, hl⟩ := parentChain_of_backpropagate fuel h a x h' hb
  obtain ⟨h'', e1, e2, _⟩ := backpropagate_chain fuel h a x l hl
  rw [hb] at e1
  cases e1
  obtain ⟨t, rfl⟩ := parentChain_cons fuel h a l hl
  obtain ⟨n, k1, k2⟩ := e2 a (List.mem_cons_self _ _)
  exact ⟨n, _, k1, k2, rfl⟩

/-- Selection returns a node of the store that has no children. -/
theorem select_leaf_of_ok {σ : Type} (m : MathImpl) (ef : JSNum) (h : NodeStore σ) :
    ∀ (fuel a b : Nat), select m ef h fuel a = some (.ok b) →
      ∃ n, h[b]? = some n ∧ n.children = [] := by
  intro fuel
  induction fuel with
  | zero => intro a b hs; simp [select] at hs
  | succ f ih =>
    intro a b hs
    rw [select] at hs
    cases hn : h[a]? with
    | none => rw [hn] at hs; cases hs
    | some n =>
      rw [hn] at hs
      simp only at hs
      by_cases hc : n.children = []
      · simp only [hc, if_true, Option.some.injEq, Except.ok.injEq] at hs
        subst hs
        exact ⟨n, hn, hc⟩
      · simp only [hc, if_false] at hs
        cases hg : getBestChild m h a ef with
        | error e => rw [hg] at hs; simp at hs
        | ok r =>
          rw [hg] at hs
          cases r with
          | none => simp at hs
          | some c => exact ih c b hs

/-- A turn of the loop of `search` is its first three steps, then the
backpropagation, the update of the best node and the checkpoint. -/
theorem iteration_eq (env : Env) (fuel : Nat) (ctl : Controller) (root : Nat)
    (numIterations i : Nat) (w : World) :
    iteration env fuel ctl root numIterations i w =
      match simulated env fuel ctl root numIterations i w with
      | .stuck => .stuck
      | .thrown message w2 => .thrown message w2
      | .ok (node, score) w2 =>
        match backpropagate fuel w2.nodes node score with
        | none => .stuck
        | some nodes' =>
          if (i + 1) % ctl.saveInterval = 0 then
            saveState fuel root (i + 1)
              (if JSNum.gt score w2.bestScore then
                { w2 with nodes := nodes', bestScore := score, bestNode := some node }
              else { w2 with nodes := nodes' })
          else
            .ok ()
              (if JSNum.gt score w2.bestScore then
                { w2 with nodes := nodes', bestScore := score, bestNode := some node }
              else { w2 with nodes := nodes' }) := by
  unfold iteration simulated
  cases select env.math ctl.explorationFactor w.nodes fuel root with
  | none => rfl
  | some r =>
    cases r with
    | error e => rfl
    | ok node =>
      simp only
      cases expand env fuel node _ with
      | stuck => rfl
      | thrown m w1 => rfl
      | ok u w1 =>
        simp only
        cases simulate env fuel node w1 with
        | stuck => rfl
        | thrown m w2 => rfl
        | ok score w2 => rfl

/-- Writing the checkpoint changes the checkpoint file only. -/
theorem saveState_frame (fuel root it : Nat) (w w' : World)
    (hs : saveState fuel root it w = .ok () w') :
    w'.nodes = w.nodes ∧ w'.objs = w.objs ∧ w'.bestNode = w.bestNode ∧
      w'.bestScore = w.bestScore := by
  unfold saveState at hs
  cases h1 : serializeNode fuel w.nodes root with
  | none => rw [h1] at hs; cases hs
  | some rootTree =>
    rw [h1] at hs
    simp only at hs
    cases h2 : saveTree fuel w.objs rootTree with
    | none => rw [h2] at hs; cases hs
    | some savedRoot =>
      rw [h2] at hs
      simp only at hs
      cases h3 : w.bestNode with
      | none => rw [h3] at hs; cases hs
      | some b =>
        rw [h3] at hs
        simp only at hs
        cases h4 : serializeNode fuel w.nodes b with
        | none => rw [h4] at hs; cases hs
        | some bestTree =>
          rw [h4] at hs
          simp only at hs
          cases h5 : saveTree fuel w.objs bestTree with
          | none => rw [h5] at hs; cases hs
          | some savedBest =>
            rw [h5] at hs
            cases hs
            refine ⟨rfl, rfl, ?_, rfl⟩
            simp only [h3]

/-- What a turn of the loop of `search` that returns has done. -/
theorem iteration_steps (env : Env) (fuel : Nat) (ctl : Controller) (root : Nat)
    (numIterations i : Nat) (w w' : World)
    (hi : iteration env fuel ctl root numIterations i w = .ok () w') :
    ∃ node score w2 nodes', simulated env fuel ctl root numIterations i w = .ok (node, score) w2 ∧
      backpropagate fuel w2.nodes node score = some nodes' ∧ w'.nodes = nodes' ∧
      w'.objs = w2.objs ∧
      w'.bestScore = (if JSNum.gt score w2.bestScore then score else w2.bestScore) ∧
      w'.bestNode = (if JSNum.gt score w2.bestScore then some node else w2.bestNode) := by
  rw [iteration_eq] at hi
  cases hsim : simulated env fuel ctl root numIterations i w with
  | stuck => rw [hsim] at hi; cases hi
  | thrown m w2 => rw [hsim] at hi; cases hi
  | ok v w2 =>
    obtain ⟨node, score⟩ := v
    rw [hsim] at hi
    simp only at hi
    cases hb : backpropagate fuel w2.nodes node score with
    | none => rw [hb] at hi; cases hi
    | some nodes' =>
      rw [hb] at hi
      simp only at hi
      refine ⟨node, score, w2, nodes', rfl, hb, ?_⟩
      by_cases hsi : (i + 1) % ctl.saveInterval = 0
      · simp only [hsi, if_true] at hi
        obtain ⟨s1, s2, s3, s4⟩ := saveState_frame _ _ _ _ _ hi
        by_cases hg : JSNum.gt score w2.bestScore = true
        · simp only [hg, if_true] at s1 s2 s3 s4 ⊢
          exact ⟨s1, s2, s4, s3⟩
        · simp only [hg, Bool.false_eq_true, if_false] at s1 s2 s3 s4 ⊢
          exact ⟨s1, s2, s4, s3⟩
      · simp only [hsi, if_false, Outcome.ok.injEq, true_and] at hi
        subst hi
        by_cases hg : JSNum.gt score w2.bestScore = true
        · simp only [hg, if_true]
          exact ⟨trivial, trivial, trivial, trivial⟩
        · simp only [hg, Bool.false_eq_true, if_false]
          exact ⟨trivial, trivial, trivial, trivial⟩

/-- The terminal check touches neither the nodes nor the files nor the controller. -/
theorem isTerminalState_frame (env : Env) (w : World) :
    (isTerminalState env w).2.nodes = w.nodes ∧ (isTerminalState env w).2.objs = w.objs ∧
    (isTerminalState env w).2.bestNode = w.bestNode ∧
    (isTerminalState env w).2.bestScore = w.bestScore ∧
    (isTerminalState env w).2.saved = w.saved := by
  unfold isTerminalState
  cases env.gateway w.calls .terminal with
  | error e => exact ⟨rfl, rfl, rfl, rfl, rfl⟩
  | ok text =>
    simp only
    cases env.parse (extractJsonFromText text) with
    | none => exact ⟨rfl, rfl, rfl, rfl, rfl⟩
    | some result =>
      simp only
      cases JSValue.prop "isTerminal" result <;> exact ⟨rfl, rfl, rfl, rfl, rfl⟩

/-- The evaluation touches neither the nodes nor the files nor the controller,
and its score is a number. -/
theorem evaluateState_frame (env : Env) (w : World) :
    (evaluateState env w).2.nodes = w.nodes ∧ (evaluateState env w).2.objs = w.objs ∧
    (evaluateState env w).2.bestNode = w.bestNode ∧
    (evaluateState env w).2.bestScore = w.bestScore ∧
    (evaluateState env w).2.saved = w.saved ∧ (evaluateState env w).1 ≠ .nan := by
  unfold evaluateState
  cases env.gateway w.calls .evaluate with
  | error e => exact ⟨rfl, rfl, rfl, rfl, rfl, by simp⟩
  | ok text =>
    refine ⟨rfl, rfl, rfl, rfl, rfl, ?_⟩
    simp only
    by_cases hn : parseFloat (extractJsonFromText text) = .nan
    · simp [hn]
    · simp [hn]

/-- The loop of `expand` touches neither the controller nor the checkpoint. -/
theorem expandLoop_frame (env : Env) (fuel : Nat) (a : Nat) :
    ∀ (items : List JSValue) (w w' : World), expandLoop env fuel a items w = .ok () w' →
      w'.bestNode = w.bestNode ∧ w'.bestScore = w.bestScore ∧ w'.saved = w.saved := by
  intro items
  induction items with
  | nil =>
    intro w w' he
    simp only [expandLoop, Outcome.ok.injEq, true_and] at he
    subst he
    exact ⟨rfl, rfl, rfl⟩
  | cons x xs ih =>
    intro w w' he
    rw [expandLoop] at he
    cases hn : w.nodes[a]? with
    | none => rw [hn] at he; cases he
    | some n =>
      rw [hn] at he
      simp only at he
      cases hap : applyActionVia env fuel n.state x w with
      | stuck => rw [hap] at he; cases he
      | thrown m w1 => rw [hap] at he; cases he
      | ok s w1 =>
        rw [hap] at he
        obtain ⟨_, f2, f3, f4⟩ :=
          (applyActionViaFrom_frame env fuel n.state x maxRetries 0 w).2 s w1 hap
        obtain ⟨i1, i2, i3⟩ := ih _ _ he
        exact ⟨i1.trans f2, i2.trans f3, i3.trans f4⟩

/-- Expansion touches neither the controller nor the checkpoint. -/
theorem expand_frame (env : Env) (fuel : Nat) (a : Nat) (w w' : World)
    (he : expand env fuel a w = .ok () w') :
    w'.bestNode = w.bestNode ∧ w'.bestScore = w.bestScore ∧ w'.saved = w.saved := by
  unfold expand at he
  cases hg : getAvailableActions env w with
  | stuck => rw [hg] at he; cases he
  | thrown m w1 => rw [hg] at he; cases he
  | ok actions w1 =>
    rw [hg] at he
    simp only at he
    obtain ⟨_, _, g3, g4, g5⟩ := getAvailableActionsFrom_frame env maxRetries 0 w _ w1 hg
    cases hi : iterate actions with
    | error e => rw [hi] at he; cases he
    | ok items =>
      rw [hi] at he
      obtain ⟨i1, i2, i3⟩ := expandLoop_frame env fuel a items w1 w' he
      exact ⟨i1.trans g3, i2.trans g4, i3.trans g5⟩

/-- The rollout touches neither the nodes nor the controller nor the
checkpoint, and its score is a number. -/
theorem simulateLoop_frame (env : Env) (fuel : Nat) (node : Nat) :
    ∀ (turns : Nat) (w : World) (s : JSNum) (w' : World),
      simulateLoop env fuel node turns w = .ok s w' →
      w'.nodes = w.nodes ∧ w'.bestNode = w.bestNode ∧ w'.bestScore = w.bestScore ∧
      w'.saved = w.saved ∧ s ≠ .nan := by
  intro turns
  induction turns with
  | zero => intro w s w' hs; cases hs
  | succ t ih =>
    intro w s w' hs
    rw [simulateLoop] at hs
    obtain ⟨t1, _, t3, t4, t5⟩ := isTerminalState_frame env w
    by_cases ht : (isTerminalState env w).1.truthy = true
    · simp only [ht, if_true, Outcome.ok.injEq] at hs
      obtain ⟨e1, _, e3, e4, e5, e6⟩ := evaluateState_frame env (isTerminalState env w).2
      obtain ⟨rfl, rfl⟩ := hs
      exact ⟨e1.trans t1, e3.trans t3, e4.trans t4, e5.trans t5, e6⟩
    · simp only [ht, Bool.false_eq_true, if_false] at hs
      cases hg : getAvailableActions env (isTerminalState env w).2 with
      | stuck => rw [hg] at hs; cases hs
      | thrown m w1 => rw [hg] at hs; cases hs
      | ok actions w1 =>
        rw [hg] at hs
        simp only at hs
        obtain ⟨g1, _, g3, g4, g5⟩ := getAvailableActionsFrom_frame env maxRetries 0 _ _ w1 hg
        cases hp : pickAction env w1.draws actions with
        | none => rw [hp] at hs; cases hs
        | some r =>
          rw [hp] at hs
          cases r with
          | error e => cases hs
          | ok randomAction =>
            simp only at hs
            cases hn : w1.nodes[node]? with
            | none => rw [hn] at hs; cases hs
            | some n =>
              rw [hn] at hs
              simp only at hs
              cases hap : applyActionVia env fuel n.state randomAction
                  { w1 with draws := w1.draws + 1 } with
              | stuck => rw [hap] at hs; cases hs
              | thrown m w2 => rw [hap] at hs; cases hs
              | ok st w2 =>
                rw [hap] at hs
                obtain ⟨f1, f2, f3, f4⟩ :=
                  (applyActionViaFrom_frame env fuel n.state randomAction maxRetries 0 _).2
                    st w2 hap
                obtain ⟨i1, i2, i3, i4, i5⟩ := ih _ _ _ hs
                exact ⟨((i1.trans f1).trans g1).trans t1, ((i2.trans f2).trans g3).trans t3,
                  ((i3.trans f3).trans g4).trans t4, ((i4.trans f4).trans g5).trans t5, i5⟩

/-- The first three steps of an iteration: the selected leaf is a node of the
store without children; the steps leave the controller as it was; the score is
a number. -/
theorem simulated_spec (env : Env) (fuel : Nat) (ctl : Controller) (root : Nat)
    (numIterations i : Nat) (w : World) (node : Nat) (score : JSNum) (w2 : World)
    (hs : simulated env fuel ctl root numIterations i w = .ok (node, score) w2) :
    (∃ n, w.nodes[node]? = some n ∧ n.children = []) ∧
    select env.math ctl.explorationFactor w.nodes fuel root = some (.ok node) ∧
    (∃ w1, expand env fuel node { w with events := w.events ++
        [.iteration (i + 1) numIterations,
         .progress (JSNum.mul (JSNum.div (JSNum.ofNat i) (JSNum.ofNat numIterations))
           (JSNum.ofNat 100))] } = .ok () w1 ∧
      simulate env fuel node w1 = .ok score w2 ∧ w2.nodes = w1.nodes) ∧
    w2.bestNode = w.bestNode ∧ w2.bestScore = w.bestScore ∧ w2.saved = w.saved ∧
    score ≠ .nan := by
  unfold simulated at hs
  cases hsel : select env.math ctl.explorationFactor w.nodes fuel root with
  | none => rw [hsel] at hs; cases hs
  | some r =>
    rw [hsel] at hs
    cases r with
    | error e => cases hs
    | ok nd =>
      simp only at hs
      cases hexp : expand env fuel nd { w with events := w.events ++
          [.iteration (i + 1) numIterations,
           .progress (JSNum.mul (JSNum.div (JSNum.ofNat i) (JSNum.ofNat numIterations))
             (JSNum.ofNat 100))] } with
      | stuck => rw [hexp] at hs; cases hs
      | thrown m w1 => rw [hexp] at hs; cases hs
      | ok u w1 =>
        rw [hexp] at hs
        simp only at hs
        cases hsim : simulate env fuel nd w1 with
        | stuck => rw [hsim] at hs; cases hs
        | thrown m w2' => rw [hsim] at hs; cases hs
        | ok sc w2' =>
          rw [hsim] at hs
          simp only [Outcome.ok.injEq, Prod.mk.injEq] at hs
          obtain ⟨⟨rfl, rfl⟩, rfl⟩ := hs
          obtain ⟨e1, e2, e3⟩ := expand_frame env fuel nd _ w1 hexp
          obtain ⟨s1, s2, s3, s4, s5⟩ := simulateLoop_frame env fuel nd fuel w1 sc w2' hsim
          exact ⟨select_leaf_of_ok env.math ctl.explorationFactor w.nodes fuel root nd hsel,
            rfl, ⟨w1, hexp, hsim, s1⟩, s2.trans e1, s3.trans e2, s4.trans e3, s5⟩

/-- The claim of C26 fails: in the one iteration of this search the expansion
creates a child (node `1`), and it is the selected leaf (the root, node `0`)
that ends the iteration with one visit; the new child has none. -/
theorem simulation_not_from_child :
    ∃ w', search (sampleEnv helpfulGateway) 3 jobController 0 freshState 1 sampleWorld =
        .ok freshState w' ∧
      (∃ r, w'.nodes[0]? = some r ∧ r.children = [1] ∧ r.visits = 1) ∧
      (∃ c, w'.nodes[1]? = some c ∧ c.parent = some 0 ∧ c.visits = 0) := by
  obtain ⟨w', h1, _, _, _, h5, h6, _⟩ :=
    search_fresh_iteration (sampleEnv helpfulGateway) 3 jobController sampleWorld freshState 0
      (.str "create server/server.js")
      "<thinking>one file</thinking><json>[\"create server/server.js\"]</json>".toList
      "<json>\x7b\"isTerminal\": true\x7d</json>".toList
      "<thinking>good</thinking><json>0.9</json>".toList
      (some []) (.obj [("server/server.js", .str "...")]) [("server/server.js", .str "...")]
      (.obj [("isTerminal", .bool true)]) (.bool true) (9 / 10)
      rfl rfl rfl rfl rfl rfl rfl rfl rfl rfl rfl rfl rfl rfl (by with_unfolding_all rfl)
      (by decide)
  exact ⟨w', h1, ⟨_, h5, rfl, rfl⟩, ⟨_, h6, rfl, rfl⟩⟩

/-- A search for one iteration that returns has run the turn `0` of its loop
from the new root. -/
theorem iteration_of_search (env : Env) (fuel : Nat) (ctl : Controller)
    (initialState finalState : ProjectState) (w w' : World) (hs : w.saved = .absent)
    (h1 : search env fuel ctl 0 initialState 1 w = .ok finalState w') :
    ∃ w1, iteration env fuel ctl w.nodes.length 1 0
      { w with nodes := w.nodes ++ [Node.new initialState none] } = .ok () w1 := by
  have hload := loadStateIfExists_absent w.nodes.length
    { w with nodes := w.nodes ++ [Node.new initialState none] } hs
  simp only [search, hload, search_single_turn] at h1
  cases hit : iteration env fuel ctl w.nodes.length 1 0
      { w with nodes := w.nodes ++ [Node.new initialState none] } with
  | ok u w1 => exact ⟨w1, rfl⟩
  | stuck => rw [hit] at h1; cases h1
  | thrown m w1 => rw [hit] at h1; cases h1

/-- The first turn of the search from `rootedWorld` returns. -/
theorem iteration_rooted :
    ∃ w', iteration (sampleEnv helpfulGateway) 3 jobController 0 1 0 rootedWorld = .ok () w' := by
  obtain ⟨w', h1, _⟩ :=
    search_fresh_iteration (sampleEnv helpfulGateway) 3 jobController sampleWorld freshState 0
      (.str "create server/server.js")
      "<thinking>one file</thinking><json>[\"create server/server.js\"]</json>".toList
      "<json>\x7b\"isTerminal\": true\x7d</json>".toList
      "<thinking>good</thinking><json>0.9</json>".toList
      (some []) (.obj [("server/server.js", .str "...")]) [("server/server.js", .str "...")]
      (.obj [("isTerminal", .bool true)]) (.bool true) (9 / 10)
      rfl rfl rfl rfl rfl rfl rfl rfl rfl rfl rfl rfl rfl rfl (by with_unfolding_all rfl)
      (by decide)
  exact iteration_of_search (sampleEnv helpfulGateway) 3 jobController freshState freshState
    sampleWorld w' rfl h1

/-- C26 (amended). In every turn of the loop of `search` that returns, whether
or not the expansion creates children, the simulation starts from the selected
leaf itself (a node that was in the tree before the expansion, so none of the
new children) and the score is backpropagated from that leaf, which ends the
turn with one more visit than it had. -/
theorem iteration_simulates_leaf (env : Env) (fuel : Nat) (ctl : Controller) (root : Nat)
    (numIterations i : Nat) (w w' : World)
    (hi : iteration env fuel ctl root numIterations i w = .ok () w') :
    ∃ node score w1 w2,
      select env.math ctl.explorationFactor w.nodes fuel root = some (.ok node) ∧
      node < w.nodes.length ∧
      expand env fuel node { w with events := w.events ++
        [.iteration (i + 1) numIterations,
         .progress (JSNum.mul (JSNum.div (JSNum.ofNat i) (JSNum.ofNat numIterations))
           (JSNum.ofNat 100))] } = .ok () w1 ∧
      simulate env fuel node w1 = .ok score w2 ∧
      backpropagate fuel w2.nodes node score = some w'.nodes ∧
      (∃ n n', w2.nodes[node]? = some n ∧ w'.nodes[node]? = some n' ∧
        n'.visits = n.visits + 1) := by
  obtain ⟨node, score, w2, nodes', hsim, hb, hn, _⟩ :=
    iteration_steps env fuel ctl root numIterations i w w' hi
  obtain ⟨⟨n, k1, _⟩, k2, ⟨w1, k3, k4, _⟩, _⟩ :=
    simulated_spec env fuel ctl root numIterations i w node score w2 hsim
  subst hn
  exact ⟨node, score, w1, w2, k2, (List.getElem?_eq_some.mp k1).1, k3, k4, hb,
    backpropagate_start fuel w2.nodes node score _ hb⟩

/-- C26 (amended) on the first turn of the search from `rootedWorld`. -/
theorem iteration_simulates_leaf_witness :
    ∃ w', iteration (sampleEnv helpfulGateway) 3 jobController 0 1 0 rootedWorld = .ok () w' ∧
      ∃ node score w1 w2,
        select sampleMath jobController.explorationFactor rootedWorld.nodes 3 0 =
          some (.ok node) ∧
        node < rootedWorld.nodes.length ∧
        expand (sampleEnv helpfulGateway) 3 node { rootedWorld with
          events := rootedWorld.events ++
          [.iteration (0 + 1) 1,
           .progress (JSNum.mul (JSNum.div (JSNum.ofNat 0) (JSNum.ofNat 1))
             (JSNum.ofNat 100))] } = .ok () w1 ∧
        simulate (sampleEnv helpfulGateway) 3 node w1 = .ok score w2 ∧
        backpropagate 3 w2.nodes node score = some w'.nodes ∧
        (∃ n n', w2.nodes[node]? = some n ∧ w'.nodes[node]? = some n' ∧
          n'.visits = n.visits + 1) := by
  obtain ⟨w', hw⟩ := iteration_rooted
  exact ⟨w', hw, iteration_simulates_leaf (sampleEnv helpfulGateway) 3 jobController 0 1 0
    rootedWorld w' hw⟩

/-! ## Best tracking -/

theorem JSNum.gt_irrefl (a : JSNum) : JSNum.gt a a = false := by
  cases a <;> simp [JSNum.gt]

theorem JSNum.gt_asymm (a b : JSNum) (h : JSNum.gt a b = true) : JSNum.gt b a = false := by
  cases a <;> cases b <;> simp_all [JSNum.gt]
  exact le_of_lt h

/-- What is not greater than a number that is not greater than `r` is not
greater than `r`. -/
theorem JSNum.not_gt_trans (a b r : JSNum) (h1 : JSNum.gt a b = false)
    (h2 : JSNum.gt b r = false) (hb : b ≠ .nan) : JSNum.gt a r = false := by
  cases h : JSNum.gt a r with
  | false => rfl
  | true =>
    have := JSNum.gt_of_gt_of_not_gt a r b h (by simp [h2]) hb
    rw [this] at h1
    cases h1

/-- The best score along the iterations `is`: it is the score held at the
start or one of the simulation scores, and none of them is greater. -/
theorem runIterations_best (env : Env) (fuel : Nat) (ctl : Controller) (root : Nat)
    (numIterations : Nat) :
    ∀ (is : List Nat) (w w' : World),
      runIterations env fuel ctl root numIterations is w = .ok () w' → w.bestScore ≠ .nan →
      (simulationScores env fuel ctl root numIterations is w).length = is.length ∧
      (w'.bestScore = w.bestScore ∨
        w'.bestScore ∈ simulationScores env fuel ctl root numIterations is w) ∧
      JSNum.gt w.bestScore w'.bestScore = false ∧
      (∀ s ∈ simulationScores env fuel ctl root numIterations is w,
        JSNum.gt s w'.bestScore = false ∧ s ≠ .nan) ∧
      w'.bestScore ≠ .nan := by
  intro is
  induction is with
  | nil =>
    intro w w' hr hb
    simp only [runIterations, Outcome.ok.injEq, true_and] at hr
    subst hr
    exact ⟨rfl, Or.inl rfl, JSNum.gt_irrefl _, fun s hs => by simp [simulationScores] at hs, hb⟩
  | cons i rest ih =>
    intro w w' hr hb
    rw [runIterations] at hr
    cases hit : iteration env fuel ctl root numIterations i w with
    | stuck => rw [hit] at hr; cases hr
    | thrown m w1 => rw [hit] at hr; cases hr
    | ok u w1 =>
      rw [hit] at hr
      simp only at hr
      obtain ⟨node, score, w2, nodes', hsim, _, _, _, hbs, _⟩ :=
        iteration_steps env fuel ctl root numIterations i w w1 hit
      obtain ⟨_, _, _, _, k5, _, k7⟩ :=
        simulated_spec env fuel ctl root numIterations i w node score w2 hsim
      rw [k5] at hbs
      have hS : simulationScores env fuel ctl root numIterations (i :: rest) w =
          score :: simulationScores env fuel ctl root numIterations rest w1 := by
        rw [simulationScores]
        simp only [hsim, hit]
      have hb1 : w1.bestScore ≠ .nan := by
        rw [hbs]
        by_cases hg : JSNum.gt score w.bestScore = true
        · simp only [hg, if_true]; exact k7
        · simp only [hg, Bool.false_eq_true, if_false]; exact hb
      have hs1 : JSNum.gt score w1.bestScore = false := by
        rw [hbs]
        by_cases hg : JSNum.gt score w.bestScore = true
        · simp only [hg, if_true]; exact JSNum.gt_irrefl _
        · simp only [hg, Bool.false_eq_true, if_false]
      have hb0 : JSNum.gt w.bestScore w1.bestScore = false := by
        rw [hbs]
        by_cases hg : JSNum.gt score w.bestScore = true
        · simp only [hg, if_true]; exact JSNum.gt_asymm _ _ hg
        · simp only [hg, Bool.false_eq_true, if_false]; exact JSNum.gt_irrefl _
      have hor : w1.bestScore = w.bestScore ∨ w1.bestScore = score := by
        rw [hbs]
        by_cases hg : JSNum.gt score w.bestScore = true
        · simp only [hg, if_true]; exact Or.inr trivial
        · simp only [hg, Bool.false_eq_true, if_false]; exact Or.inl trivial
      obtain ⟨i1, i2, i3, i4, i5⟩ := ih w1 w' hr hb1
      rw [hS]
      refine ⟨by simp only [List.length_cons, i1], ?_, ?_, ?_, i5⟩
      · rcases i2 with i2 | i2
        · rcases hor with hor | hor
          · exact Or.inl (i2.trans hor)
          · exact Or.inr (by rw [i2, hor]; exact List.mem_cons_self _ _)
        · exact Or.inr (List.mem_cons_of_mem _ i2)
      · exact JSNum.not_gt_trans _ _ _ hb0 i3 hb1
      · intro s hs
        rcases List.mem_cons.mp hs with rfl | hs
        · exact ⟨JSNum.not_gt_trans _ _ _ hs1 i3 hb1, k7⟩
        · exact i4 s hs

/-- C24. In a turn of the loop of `search` that returns, `bestScore` becomes the
greater of its former value and the score of the turn's simulation, and
`bestNode` becomes the simulated node when that score is strictly greater than
the former `bestScore` and stays as it was otherwise (also on a tie); so
`bestScore` never decreases.  And after a run of `N ≥ 1` iterations that starts
with `bestScore = -Infinity`, `bestScore` is one of the `N` simulation scores
and none of them is greater. -/
theorem best_tracking (env : Env) (fuel : Nat) (ctl : Controller) (root : Nat)
    (numIterations : Nat) :
    (∀ (i : Nat) (w w' : World), iteration env fuel ctl root numIterations i w = .ok () w' →
      ∃ node score w2, simulated env fuel ctl root numIterations i w = .ok (node, score) w2 ∧
        w'.bestScore = (if JSNum.gt score w.bestScore then score else w.bestScore) ∧
        w'.bestNode = (if JSNum.gt score w.bestScore then some node else w.bestNode) ∧
        JSNum.gt w.bestScore w'.bestScore = false) ∧
    (∀ (is : List Nat) (w w' : World),
      runIterations env fuel ctl root numIterations is w = .ok () w' →
      w.bestScore = .ninf → is ≠ [] →
      (simulationScores env fuel ctl root numIterations is w).length = is.length ∧
      w'.bestScore ∈ simulationScores env fuel ctl root numIterations is w ∧
      ∀ s ∈ simulationScores env fuel ctl root numIterations is w,
        JSNum.gt s w'.bestScore = false) := by
  constructor
  · intro i w w' hit
    obtain ⟨node, score, w2, nodes', hsim, _, _, _, hbs, hbn⟩ :=
      iteration_steps env fuel ctl root numIterations i w w' hit
    obtain ⟨_, _, _, k4, k5, _, _⟩ :=
      simulated_spec env fuel ctl root numIterations i w node score w2 hsim
    rw [k5] at hbs hbn
    rw [k4] at hbn
    refine ⟨node, score, w2, hsim, hbs, hbn, ?_⟩
    rw [hbs]
    by_cases hg : JSNum.gt score w.bestScore = true
    · simp only [hg, if_true]; exact JSNum.gt_asymm _ _ hg
    · simp only [hg, Bool.false_eq_true, if_false]; exact JSNum.gt_irrefl _
  · intro is w w' hr hb hne
    obtain ⟨i1, i2, _, i4, _⟩ :=
      runIterations_best env fuel ctl root numIterations is w w' hr (by rw [hb]; simp)
    refine ⟨i1, ?_, fun s hs => (i4 s hs).1⟩
    rcases i2 with i2 | i2
    · rw [hb] at i2
      cases hS : simulationScores env fuel ctl root numIterations is w with
      | nil =>
        rw [hS] at i1
        cases is with
        | nil => exact absurd rfl hne
        | cons a l => simp at i1
      | cons s rest =>
        have hs := i4 s (by rw [hS]; exact List.mem_cons_self _ _)
        rw [i2] at hs ⊢
        have : s = .ninf := by
          cases s with
          | nan => exact absurd rfl hs.2
          | pinf => exact absurd hs.1 (by simp [JSNum.gt])
          | ninf => rfl
          | fin q => exact absurd hs.1 (by simp [JSNum.gt])
        rw [this]
        exact List.mem_cons_self _ _
    · exact i2

/-- C24 on the first turn of the search from `rootedWorld`. -/
theorem best_tracking_witness :
    ∃ w', iteration (sampleEnv helpfulGateway) 3 jobController 0 1 0 rootedWorld = .ok () w' ∧
      ∃ node score w2,
        simulated (sampleEnv helpfulGateway) 3 jobController 0 1 0 rootedWorld =
          .ok (node, score) w2 ∧
        w'.bestScore = (if JSNum.gt score rootedWorld.bestScore then score
          else rootedWorld.bestScore) ∧
        w'.bestNode = (if JSNum.gt score rootedWorld.bestScore then some node
          else rootedWorld.bestNode) ∧
        JSNum.gt rootedWorld.bestScore w'.bestScore = false := by
  obtain ⟨w', hw⟩ := iteration_rooted
  exact ⟨w', hw, (best_tracking (sampleEnv helpfulGateway) 3 jobController 0 1).1 0
    rootedWorld w' hw⟩

/-! ## The visit counts of the search tree -/

/-- The visits of the node at `c`, `0` when there is none. -/
theorem visitsSum_congr {σ : Type} (h h' : NodeStore σ) :
    ∀ cs : List Nat, (∀ c ∈ cs, (h'[c]?).map Node.visits = (h[c]?).map Node.visits) →
      visitsSum h' cs = visitsSum h cs := by
  intro cs
  induction cs with
  | nil => intro _; rfl
  | cons c rest ih =>
    intro hall
    have hc := hall c (List.mem_cons_self _ _)
    have hr := ih (fun d hd => hall d (List.mem_cons_of_mem _ hd))
    simp only [visitsSum, hr]
    cases h1 : h[c]? with
    | none =>
      cases h2 : h'[c]? with
      | none => rfl
      | some m' => rw [h1, h2] at hc; cases hc
    | some m =>
      cases h2 : h'[c]? with
      | none => rw [h1, h2] at hc; cases hc
      | some m' =>
        rw [h1, h2] at hc
        simp only [Option.map_some', Option.some.injEq] at hc
        simp only [hc]

/-- Giving the node `a` one more visit adds one to the sum over a list that
holds `a` once, and nothing to the sum over a list that does not hold it. -/
theorem visitsSum_bump {σ : Type} (h : NodeStore σ) (a : Nat) (n n' : Node σ)
    (hn : h[a]? = some n) (hv : n'.visits = n.visits + 1) :
    ∀ cs : List Nat, cs.Nodup →
      visitsSum (h.set a n') cs = visitsSum h cs + (if a ∈ cs then 1 else 0) := by
  have hlt : a < h.length := (List.getElem?_eq_some.mp hn).1
  intro cs
  induction cs with
  | nil => intro _; rfl
  | cons c rest ih =>
    intro hnd
    obtain ⟨hc, hrest⟩ := List.nodup_cons.mp hnd
    have hr := ih hrest
    by_cases hca : c = a
    · subst hca
      have hset : (h.set c n')[c]? = some n' := by simp [List.getElem?_set, hlt]
      simp only [visitsSum, hr, hset, hn]
      rw [if_neg hc, if_pos (List.mem_cons_self _ _), hv]
      omega
    · have hne : a ≠ c := fun e => hca e.symm
      simp only [visitsSum, hr, List.mem_cons, hne, false_or]
      rw [List.getElem?_set_ne hne]
      omega

theorem visitsSum_zero {σ : Type} (h : NodeStore σ) :
    ∀ cs : List Nat, (∀ c ∈ cs, ∃ m, h[c]? = some m ∧ m.visits = 0) → visitsSum h cs = 0 := by
  intro cs
  induction cs with
  | nil => intro _; rfl
  | cons c rest ih =>
    intro hall
    obtain ⟨m, hm, hv⟩ := hall c (List.mem_cons_self _ _)
    simp only [visitsSum, hm, hv, ih (fun d hd => hall d (List.mem_cons_of_mem _ hd))]

/-- The child the loop of `getBestChild` returns is one of the children, or
the child held at the start. -/
theorem bestChildLoop_mem {σ : Type} (m : MathImpl) (h : NodeStore σ) (ef : JSNum) :
    ∀ (cs : List Nat) (bs : JSNum) (b : Option Nat) (c : Nat),
      bestChildLoop m h ef cs bs b = .ok (some c) → c ∈ cs ∨ b = some c := by
  intro cs
  induction cs with
  | nil =>
    intro bs b c hb
    simp only [bestChildLoop, Except.ok.injEq] at hb
    exact Or.inr hb
  | cons x xs ih =>
    intro bs b c hb
    rw [bestChildLoop] at hb
    cases hu : getUCBScore m h x ef with
    | error e => rw [hu] at hb; cases hb
    | ok s =>
      rw [hu] at hb
      simp only at hb
      by_cases hg : JSNum.gt s bs = true
      · simp only [hg, if_true] at hb
        rcases ih _ _ _ hb with h1 | h1
        · exact Or.inl (List.mem_cons_of_mem _ h1)
        · simp only [Option.some.injEq] at h1
          exact Or.inl (h1 ▸ List.mem_cons_self _ _)
      · simp only [hg, Bool.false_eq_true, if_false] at hb
        rcases ih _ _ _ hb with h1 | h1
        · exact Or.inl (List.mem_cons_of_mem _ h1)
        · exact Or.inr h1

/-- Selection from a node of the tree ends at a node of the tree. -/
theorem select_in_tree {σ : Type} (m : MathImpl) (ef : JSNum) (h : NodeStore σ) (root : Nat)
    (hshape : treeShape h root) :
    ∀ (fuel a b : Nat), root ≤ a → select m ef h fuel a = some (.ok b) → root ≤ b := by
  intro fuel
  induction fuel with
  | zero => intro a b _ hs; simp [select] at hs
  | succ f ih =>
    intro a b ha hs
    rw [select] at hs
    cases hn : h[a]? with
    | none => rw [hn] at hs; cases hs
    | some n =>
      rw [hn] at hs
      simp only at hs
      by_cases hc : n.children = []
      · simp only [hc, if_true, Option.some.injEq, Except.ok.injEq] at hs
        exact hs ▸ ha
      · simp only [hc, if_false] at hs
        cases hg : getBestChild m h a ef with
        | error e => rw [hg] at hs; simp at hs
        | ok r =>
          rw [hg] at hs
          cases r with
          | none => simp at hs
          | some c =>
            simp only at hs
            simp only [getBestChild, hn] at hg
            rcases bestChildLoop_mem m h ef _ _ _ _ hg with h1 | h1
            · obtain ⟨_, k2, _⟩ := hshape.2 a n ha hn
              exact ih c b (by have := (k2 c h1).1; omega) hs
            · cases h1

/-- Replacing a node by one with the same parent and children keeps the shape. -/
theorem treeShape_set {σ : Type} (h : NodeStore σ) (root a : Nat) (n n' : Node σ)
    (hshape : treeShape h root) (hn : h[a]? = some n) (hp : n'.parent = n.parent)
    (hc : n'.children = n.children) : treeShape (h.set a n') root := by
  have hlt : a < h.length := (List.getElem?_eq_some.mp hn).1
  have hself : (h.set a n')[a]? = some n' := by simp [List.getElem?_set, hlt]
  have hother : ∀ b : Nat, b ≠ a → (h.set a n')[b]? = h[b]? :=
    fun b hb => List.getElem?_set_ne (Ne.symm hb)
  have hpar : ∀ (c : Nat) (m : Node σ) (p : Option Nat), h[c]? = some m → m.parent = p →
      ∃ m', (h.set a n')[c]? = some m' ∧ m'.parent = p := by
    intro c m p hm hmp
    by_cases hca : c = a
    · subst hca
      rw [hn] at hm
      cases hm
      exact ⟨n', hself, hp.trans hmp⟩
    · exact ⟨m, by rw [hother c hca]; exact hm, hmp⟩
  obtain ⟨⟨r, hr, hrp⟩, hall⟩ := hshape
  refine ⟨hpar root r none hr hrp, ?_⟩
  intro b nb hb hnb
  by_cases hba : b = a
  · subst hba
    rw [hself] at hnb
    cases hnb
    obtain ⟨k1, k2, k3⟩ := hall b n hb hn
    rw [hc, hp]
    refine ⟨k1, ?_, k3⟩
    intro c hcm
    obtain ⟨j1, m, j2, j3⟩ := k2 c hcm
    exact ⟨j1, hpar c m _ j2 j3⟩
  · rw [hother b hba] at hnb
    obtain ⟨k1, k2, k3⟩ := hall b nb hb hnb
    refine ⟨k1, ?_, k3⟩
    intro c hcm
    obtain ⟨j1, m, j2, j3⟩ := k2 c hcm
    exact ⟨j1, hpar c m _ j2 j3⟩

/-- Backpropagation from a node of the tree, when every node has at least as
many visits as its children together, the starting node being allowed one
visit less: afterwards the counts are in order everywhere, the shape is as it
was, and the root has one more visit. -/
theorem backpropagate_inv {σ : Type} (root : Nat) :
    ∀ (fuel : Nat) (h : NodeStore σ) (a : Nat) (x : JSNum) (h' : NodeStore σ),
      treeShape h root → root ≤ a →
      (∀ (b : Nat) (nb : Node σ), root ≤ b → h[b]? = some nb →
        visitsSum h nb.children ≤ nb.visits + (if b = a then 1 else 0) ∧
        (b ≠ a → nb.children ≠ [] → 1 ≤ nb.visits)) →
      backpropagate fuel h a x = some h' →
      treeShape h' root ∧ visitsInv h' root ∧
      (∃ r r', h[root]? = some r ∧ h'[root]? = some r' ∧ r'.visits = r.visits + 1) ∧
      h'.length = h.length := by
  intro fuel
  induction fuel with
  | zero => intro h a x h' _ _ _ hb; simp [backpropagate] at hb
  | succ f ih =>
    intro h a x h' hshape ha hinv hb
    rw [backpropagate] at hb
    cases hn : h[a]? with
    | none => rw [hn] at hb; cases hb
    | some n =>
      rw [hn] at hb
      rcases n with ⟨st, par, ch, vis, sc⟩
      simp only at hb
      have hlt : a < h.length := (List.getElem?_eq_some.mp hn).1
      have hself : (h.set a ⟨st, par, ch, vis + 1, JSNum.add sc x⟩)[a]? =
          some ⟨st, par, ch, vis + 1, JSNum.add sc x⟩ := by simp [List.getElem?_set, hlt]
      have hother : ∀ b : Nat, b ≠ a →
          (h.set a ⟨st, par, ch, vis + 1, JSNum.add sc x⟩)[b]? = h[b]? :=
        fun b hb => List.getElem?_set_ne (Ne.symm hb)
      have hshape1 : treeShape (h.set a ⟨st, par, ch, vis + 1, JSNum.add sc x⟩) root :=
        treeShape_set h root a _ _ hshape hn rfl rfl
      obtain ⟨ka1, ka2, ka3⟩ := hshape.2 a _ ha hn
      simp only at ka1 ka2 ka3
      have hnotself : a ∉ ch := fun hm => by have := (ka2 a hm).1; omega
      have hsum : ∀ (cs : List Nat), cs.Nodup →
          visitsSum (h.set a ⟨st, par, ch, vis + 1, JSNum.add sc x⟩) cs =
            visitsSum h cs + (if a ∈ cs then 1 else 0) :=
        visitsSum_bump h a _ _ hn rfl
      obtain ⟨r, hr, hrp⟩ := hshape.1
      cases par with
      | none =>
        simp only [Option.some.injEq] at hb
        subst hb
        have haroot : a = root := by
          by_contra hne
          obtain ⟨p, hp, _⟩ := ka3 hne
          cases hp
        have hroot' : (h.set a ⟨st, none, ch, vis + 1, JSNum.add sc x⟩)[root]? =
            some ⟨st, none, ch, vis + 1, JSNum.add sc x⟩ := by rw [← haroot]; exact hself
        refine ⟨hshape1, ?_, ⟨_, _, hr, hroot', ?_⟩, by simp⟩
        · intro b nb hrb hnb
          by_cases hba : b = a
          · rw [hba, hself] at hnb
            cases hnb
            have h0 := (hinv a _ ha hn).1
            simp only [if_true] at h0
            simp only
            rw [hsum ch ka1, if_neg hnotself]
            exact ⟨by omega, fun _ => by omega⟩
          · rw [hother b hba] at hnb
            obtain ⟨i1, i2⟩ := hinv b nb hrb hnb
            simp only [hba, if_false, Nat.add_zero] at i1
            obtain ⟨kb1, kb2, _⟩ := hshape.2 b nb hrb hnb
            have hnot : a ∉ nb.children := by
              intro hm
              obtain ⟨_, m, hm1, hm2⟩ := kb2 a hm
              rw [hn] at hm1
              cases hm1
              cases hm2
            rw [hsum nb.children kb1, if_neg hnot]
            exact ⟨by omega, i2 hba⟩
        · rw [haroot] at hn
          rw [hr] at hn
          cases hn
          rfl
      | some p =>
        simp only at hb
        have haroot : a ≠ root := by
          intro he
          rw [he, hr] at hn
          cases hn
          cases hrp
        obtain ⟨p', hp', hp1, hp2⟩ := ka3 haroot
        simp only [Option.some.injEq] at hp'
        subst hp'
        obtain ⟨i1, i2, ⟨r1, r2, j1, j2, j3⟩, i4⟩ := ih _ p x h' hshape1 hp1 (by
          intro b nb hrb hnb
          by_cases hba : b = a
          · rw [hba, hself] at hnb
            cases hnb
            have h0 := (hinv a _ ha hn).1
            simp only [if_true] at h0
            have hbp : ¬ b = p := by rw [hba]; exact Nat.ne_of_gt hp2
            simp only
            rw [hsum ch ka1, if_neg hnotself, if_neg hbp]
            exact ⟨by omega, fun _ _ => by omega⟩
          · rw [hother b hba] at hnb
            obtain ⟨q1, q2⟩ := hinv b nb hrb hnb
            simp only [hba, if_false, Nat.add_zero] at q1
            obtain ⟨kb1, kb2, _⟩ := hshape.2 b nb hrb hnb
            rw [hsum nb.children kb1]
            by_cases hm : a ∈ nb.children
            · obtain ⟨_, m, hm1, hm2⟩ := kb2 a hm
              rw [hn] at hm1
              cases hm1
              simp only [Option.some.injEq] at hm2
              simp only [hm, if_true, hm2]
              exact ⟨by omega, fun hne => absurd rfl hne⟩
            · simp only [hm, if_false, Nat.add_zero]
              exact ⟨by omega, fun _ => q2 hba⟩)
          hb
        refine ⟨i1, i2, ⟨r, r2, hr, j2, ?_⟩, by rw [i4]; simp⟩
        rw [hother root (Ne.symm haroot), hr] at j1
        cases j1
        exact j3

/-- What `expand` leaves in the store: some number of new nodes after the
nodes there were, each a new child of the expanded node; the expanded node
with these children added; every other node as it was. -/
theorem expand_nodes (env : Env) (fuel : Nat) (a : Nat) (w w1 : World) (n : Node ProjectState)
    (hn : w.nodes[a]? = some n) (he : expand env fuel a w = .ok () w1) :
    ∃ k, w1.nodes.length = w.nodes.length + k ∧
      (∀ b : Nat, b < w.nodes.length → b ≠ a → w1.nodes[b]? = w.nodes[b]?) ∧
      w1.nodes[a]? = some { n with children := n.children ++ List.range' w.nodes.length k } ∧
      (∀ j : Nat, j < k → ∃ s, w1.nodes[w.nodes.length + j]? = some (Node.new s (some a))) := by
  unfold expand at he
  cases hg : getAvailableActions env w with
  | stuck => rw [hg] at he; cases he
  | thrown m w0 => rw [hg] at he; cases he
  | ok actions w0 =>
    rw [hg] at he
    simp only at he
    obtain ⟨g1, _⟩ := getAvailableActionsFrom_frame env maxRetries 0 w _ w0 hg
    cases hi : iterate actions with
    | error e => rw [hi] at he; cases he
    | ok items =>
      rw [hi] at he
      simp only at he
      obtain ⟨i1, i2, i3, i4, _⟩ := expandLoop_spec env fuel a items w0 w1 n (by rw [g1]; exact hn) he
      rw [g1] at i1 i2 i3 i4
      refine ⟨items.length, i1, i2, i3, ?_⟩
      intro j hj
      obtain ⟨_, s, _, _, _, k3⟩ := i4 j (items.get ⟨j, hj⟩) (List.getElem?_eq_getElem hj)
      exact ⟨s, k3⟩

/-- New children under a leaf keep the shape of the tree, and the visit counts
in order but for the expanded node, which may still be unvisited. -/
theorem expand_inv {σ : Type} (h h1 : NodeStore σ) (root a k : Nat) (n : Node σ)
    (hshape : treeShape h root) (hvis : visitsInv h root) (ha : root ≤ a)
    (hn : h[a]? = some n) (hleaf : n.children = [])
    (hold : ∀ b : Nat, b < h.length → b ≠ a → h1[b]? = h[b]?)
    (hnode : h1[a]? = some { n with children := n.children ++ List.range' h.length k })
    (hnew : ∀ j : Nat, j < k → ∃ s, h1[h.length + j]? = some (Node.new s (some a)))
    (hlen : h1.length = h.length + k) :
    treeShape h1 root ∧
    (∀ (b : Nat) (nb : Node σ), root ≤ b → h1[b]? = some nb →
      visitsSum h1 nb.children ≤ nb.visits + (if b = a then 1 else 0) ∧
      (b ≠ a → nb.children ≠ [] → 1 ≤ nb.visits)) := by
  have hal : a < h.length := (List.getElem?_eq_some.mp hn).1
  rw [hleaf, List.nil_append] at hnode
  -- an old node keeps its parent and its visits
  have hkeep : ∀ (c : Nat) (m : Node σ), h[c]? = some m →
      ∃ m', h1[c]? = some m' ∧ m'.parent = m.parent ∧ m'.visits = m.visits := by
    intro c m hm
    by_cases hca : c = a
    · rw [hca] at hm ⊢
      rw [hn] at hm
      cases hm
      exact ⟨_, hnode, rfl, rfl⟩
    · exact ⟨m, by rw [hold c (List.getElem?_eq_some.mp hm).1 hca]; exact hm, rfl, rfl⟩
  have hsumold : ∀ (b : Nat) (nb : Node σ), root ≤ b → h[b]? = some nb →
      visitsSum h1 nb.children = visitsSum h nb.children := by
    intro b nb hb hnb
    refine visitsSum_congr h h1 nb.children ?_
    intro c hc
    obtain ⟨_, m, hm, _⟩ := (hshape.2 b nb hb hnb).2.1 c hc
    obtain ⟨m', hm', _, hv⟩ := hkeep c m hm
    rw [hm, hm']
    simp only [Option.map_some', hv]
  have hnewnode : ∀ c : Nat, h.length ≤ c → c < h.length + k →
      ∃ s, h1[c]? = some (Node.new s (some a)) := by
    intro c h1c h2c
    obtain ⟨s, hs⟩ := hnew (c - h.length) (by omega)
    rw [show h.length + (c - h.length) = c by omega] at hs
    exact ⟨s, hs⟩
  obtain ⟨⟨r, hr, hrp⟩, hall⟩ := hshape
  constructor
  · constructor
    · obtain ⟨m', hm', hp, _⟩ := hkeep root r hr
      exact ⟨m', hm', hp.trans hrp⟩
    · intro b nb hb hnb
      by_cases hbl : b < h.length
      · by_cases hba : b = a
        · rw [hba, hnode] at hnb
          cases hnb
          obtain ⟨_, _, k3⟩ := hall a n ha hn
          refine ⟨List.nodup_range' _ _, ?_, fun hne => by rw [hba] at hne ⊢; exact k3 hne⟩
          intro c hc
          simp only [List.mem_range'_1] at hc
          obtain ⟨s, hs⟩ := hnewnode c hc.1 hc.2
          rw [hba]
          exact ⟨by omega, _, hs, rfl⟩
        · rw [hold b hbl hba] at hnb
          obtain ⟨k1, k2, k3⟩ := hall b nb hb hnb
          refine ⟨k1, ?_, k3⟩
          intro c hc
          obtain ⟨j1, m, j2, j3⟩ := k2 c hc
          obtain ⟨m', hm', hp, _⟩ := hkeep c m j2
          exact ⟨j1, m', hm', hp.trans j3⟩
      · have hbk : b < h.length + k := by
          rw [← hlen]; exact (List.getElem?_eq_some.mp hnb).1
        obtain ⟨s, hs⟩ := hnewnode b (by omega) hbk
        rw [hs] at hnb
        cases hnb
        refine ⟨List.nodup_nil, fun c hc => by simp [Node.new] at hc, ?_⟩
        intro _
        exact ⟨a, rfl, ha, lt_of_lt_of_le hal (Nat.le_of_not_lt hbl)⟩
  · intro b nb hb hnb
    by_cases hbl : b < h.length
    · by_cases hba : b = a
      · rw [hba, hnode] at hnb
        cases hnb
        simp only
        rw [visitsSum_zero h1 (List.range' h.length k) (by
          intro c hc
          simp only [List.mem_range'_1] at hc
          obtain ⟨s, hs⟩ := hnewnode c hc.1 hc.2
          exact ⟨_, hs, rfl⟩)]
        exact ⟨Nat.zero_le _, fun hne => absurd hba hne⟩
      · rw [hold b hbl hba] at hnb
        obtain ⟨v1, v2⟩ := hvis b nb hb hnb
        rw [hsumold b nb hb hnb]
        simp only [hba, if_false, Nat.add_zero]
        exact ⟨v1, fun _ => v2⟩
    · have hbk : b < h.length + k := by
        rw [← hlen]; exact (List.getElem?_eq_some.mp hnb).1
      obtain ⟨s, hs⟩ := hnewnode b (by omega) hbk
      rw [hs] at hnb
      cases hnb
      simp only [Node.new, visitsSum]
      exact ⟨Nat.zero_le _, fun _ hne => absurd rfl hne⟩

/-- A turn of the loop of `search` that returns keeps the shape of the tree and
the visit counts in order, and gives the root one more visit. -/
theorem iteration_inv (env : Env) (fuel : Nat) (ctl : Controller) (root : Nat)
    (numIterations i : Nat) (w w' : World)
    (hshape : treeShape w.nodes root) (hvis : visitsInv w.nodes root)
    (hi : iteration env fuel ctl root numIterations i w = .ok () w') :
    treeShape w'.nodes root ∧ visitsInv w'.nodes root ∧
    (∃ r r', w.nodes[root]? = some r ∧ w'.nodes[root]? = some r' ∧
      r'.visits = r.visits + 1) := by
  obtain ⟨node, score, w2, nodes', hsim, hb, hn', _⟩ :=
    iteration_steps env fuel ctl root numIterations i w w' hi
  obtain ⟨⟨n, k1, kleaf⟩, k2, ⟨w1, k3, _, k5⟩, _⟩ :=
    simulated_spec env fuel ctl root numIterations i w node score w2 hsim
  have hroot : root ≤ node :=
    select_in_tree env.math ctl.explorationFactor w.nodes root hshape fuel root node
      (le_refl _) k2
  obtain ⟨k, e1, e2, e3, e4⟩ := expand_nodes env fuel node
    { w with events := w.events ++
      [.iteration (i + 1) numIterations,
       .progress (JSNum.mul (JSNum.div (JSNum.ofNat i) (JSNum.ofNat numIterations))
         (JSNum.ofNat 100))] } w1 n k1 k3
  simp only at e1 e2 e3 e4
  obtain ⟨s1, s2⟩ := expand_inv w.nodes w1.nodes root node k n hshape hvis hroot k1 kleaf
    e2 e3 e4 e1
  rw [k5] at hb
  obtain ⟨b1, b2, ⟨r1, r2, j1, j2, j3⟩, _⟩ :=
    backpropagate_inv root fuel w1.nodes node score nodes' s1 hroot s2 hb
  subst hn'
  refine ⟨b1, b2, ?_⟩
  obtain ⟨r, hr, _⟩ := hshape.1
  refine ⟨r, r2, hr, j2, ?_⟩
  rw [j3]
  by_cases hrn : root = node
  · rw [hrn] at j1 hr
    rw [k1] at hr
    cases hr
    rw [e3] at j1
    cases j1
    rfl
  · rw [e2 root (List.getElem?_eq_some.mp hr).1 hrn, hr] at j1
    cases j1
    rfl

/-- A run of iterations keeps the shape of the tree and the visit counts in
order, and gives the root one visit per iteration. -/
theorem runIterations_inv (env : Env) (fuel : Nat) (ctl : Controller) (root : Nat)
    (numIterations : Nat) :
    ∀ (is : List Nat) (w w' : World), treeShape w.nodes root → visitsInv w.nodes root →
      runIterations env fuel ctl root numIterations is w = .ok () w' →
      treeShape w'.nodes root ∧ visitsInv w'.nodes root ∧
      (∃ r r', w.nodes[root]? = some r ∧ w'.nodes[root]? = some r' ∧
        r'.visits = r.visits + is.length) := by
  intro is
  induction is with
  | nil =>
    intro w w' hshape hvis hr
    simp only [runIterations, Outcome.ok.injEq, true_and] at hr
    subst hr
    obtain ⟨r, hr, _⟩ := hshape.1
    exact ⟨hshape, hvis, r, r, hr, hr, rfl⟩
  | cons i rest ih =>
    intro w w' hshape hvis hr
    rw [runIterations] at hr
    cases hit : iteration env fuel ctl root numIterations i w with
    | stuck => rw [hit] at hr; cases hr
    | thrown m w1 => rw [hit] at hr; cases hr
    | ok u w1 =>
      rw [hit] at hr
      simp only at hr
      obtain ⟨s1, s2, r, r1, j1, j2, j3⟩ :=
        iteration_inv env fuel ctl root numIterations i w w1 hshape hvis hit
      obtain ⟨t1, t2, r1', r2, l1, l2, l3⟩ := ih w1 w' s1 s2 hr
      rw [j2] at l1
      cases l1
      exact ⟨t1, t2, r, r2, j1, l2, by rw [l3, j3, List.length_cons]; omega⟩

/-- A new root alone is a tree whose visit counts are in order. -/
theorem fresh_root_inv {σ : Type} (h : NodeStore σ) (st : σ) :
    treeShape (h ++ [Node.new st none]) h.length ∧
    visitsInv (h ++ [Node.new st none]) h.length := by
  have hroot : (h ++ [Node.new st none])[h.length]? = some (Node.new st none) :=
    List.getElem?_concat_length _ _
  have honly : ∀ (a : Nat) (n : Node σ), h.length ≤ a →
      (h ++ [Node.new st none])[a]? = some n → a = h.length ∧ n = Node.new st none := by
    intro a n ha hn
    have hlt := (List.getElem?_eq_some.mp hn).1
    simp only [List.length_append, List.length_singleton] at hlt
    have : a = h.length := by omega
    subst this
    rw [hroot] at hn
    cases hn
    exact ⟨rfl, rfl⟩
  constructor
  · refine ⟨⟨_, hroot, rfl⟩, ?_⟩
    intro a n ha hn
    obtain ⟨e1, e2⟩ := honly a n ha hn
    subst e2
    exact ⟨List.nodup_nil, fun c hc => by simp [Node.new] at hc, fun hne => absurd e1 hne⟩
  · intro a n ha hn
    obtain ⟨_, e2⟩ := honly a n ha hn
    subst e2
    exact ⟨Nat.zero_le _, fun hne => absurd rfl hne⟩

/-- C27. Starting from a fresh single-node tree, after any number of
iterations of `search` that have returned: every node of the tree has at
least as many visits as its children together, and at least one visit when it
has a child; the root has as many visits as iterations have run.  So a child
with `visits > 0` has a parent (the node that lists it) with `visits ≥ 1`, and
the argument of the square root in its UCB score,
`Math.log(parent.visits) / visits`, is a number that is not negative
(`Math.log` being non-negative from `1` on). -/
theorem visit_count_invariant (env : Env) (fuel : Nat) (ctl : Controller)
    (numIterations : Nat) (is : List Nat) (w w' : World) (initialState : ProjectState)
    (hr : runIterations env fuel ctl w.nodes.length numIterations is
      { w with nodes := w.nodes ++ [Node.new initialState none] } = .ok () w') :
    visitsInv w'.nodes w.nodes.length ∧
    (∃ r, w'.nodes[w.nodes.length]? = some r ∧ r.visits = is.length) ∧
    (∀ (a : Nat) (n : Node ProjectState) (c : Nat) (m : Node ProjectState),
      w.nodes.length ≤ a → w'.nodes[a]? = some n → c ∈ n.children →
      w'.nodes[c]? = some m → 0 < m.visits →
      m.parent = some a ∧ 1 ≤ n.visits ∧
      ((∀ x : ℚ, 1 ≤ x → 0 ≤ env.math.log x) →
        ∃ q : ℚ, 0 ≤ q ∧
          JSNum.div (mathLog env.math (JSNum.ofNat n.visits)) (JSNum.ofNat m.visits) =
            .fin q)) := by
  obtain ⟨f1, f2⟩ := fresh_root_inv w.nodes initialState
  obtain ⟨s1, s2, r, r', j1, j2, j3⟩ :=
    runIterations_inv env fuel ctl w.nodes.length numIterations is _ w' f1 f2 hr
  refine ⟨s2, ⟨r', j2, ?_⟩, ?_⟩
  · have hroot : (w.nodes ++ [Node.new initialState none])[w.nodes.length]? =
        some (Node.new initialState none) := List.getElem?_concat_length _ _
    simp only at j1
    rw [hroot] at j1
    cases j1
    rw [j3]
    simp [Node.new]
  · intro a n c m ha hn hc hm hv
    obtain ⟨_, k2, _⟩ := s1.2 a n ha hn
    obtain ⟨_, m', hm', hp⟩ := k2 c hc
    rw [hm] at hm'
    cases hm'
    have hne : n.children ≠ [] := fun he => by rw [he] at hc; cases hc
    have h1 : 1 ≤ n.visits := (s2 a n ha hn).2 hne
    refine ⟨hp, h1, ?_⟩
    intro hlog
    have hpq : (1 : ℚ) ≤ (n.visits : ℚ) := by exact_mod_cast h1
    have hp0 : ¬ ((n.visits : ℚ) < 0) := by linarith
    have hp1 : ¬ ((n.visits : ℚ) = 0) := by linarith
    have hvpos : (0 : ℚ) < (m.visits : ℚ) := by exact_mod_cast hv
    have hvq : ((m.visits : ℕ) : ℚ) ≠ 0 := ne_of_gt hvpos
    refine ⟨env.math.log (n.visits : ℚ) / (m.visits : ℚ),
      div_nonneg (hlog _ hpq) (le_of_lt hvpos), ?_⟩
    simp only [JSNum.ofNat, mathLog, hp0, hp1, if_false, JSNum.div, hvq]

/-- Witness for C27: the one-iteration run from `rootedWorld`, a fresh
single-node tree, returns; the visit counts of its tree are in order and the
root has one visit. -/
theorem visit_count_invariant_witness :
    ∃ w', runIterations (sampleEnv helpfulGateway) 3 jobController 0 1 [0] rootedWorld =
        .ok () w' ∧
      visitsInv w'.nodes 0 ∧ (∃ r, w'.nodes[0]? = some r ∧ r.visits = 1) := by
  obtain ⟨w', hw⟩ := iteration_rooted
  have hr : runIterations (sampleEnv helpfulGateway) 3 jobController 0 1 [0] rootedWorld =
      .ok () w' := by
    simp only [runIterations, hw]
  have hv := visit_count_invariant (sampleEnv helpfulGateway) 3 jobController 1 [0]
    { rootedWorld with nodes := [] } w' freshState hr
  exact ⟨w', hr, hv.1, hv.2.1⟩

/-! ## The selection loop -/

/-- A child listed by a represented node is the root of one of the subtrees,
and its `parent` is that node. -/
theorem representsChildren_mem {σ : Type} (h : NodeStore σ) (a : Nat) :
    ∀ (refs : List Nat) (ts : List (SerializedNode σ)), representsChildren h a refs ts →
      ∀ c ∈ refs, ∃ tc, tc ∈ ts ∧ represents h c tc ∧ ∃ m, h[c]? = some m ∧ m.parent = some a := by
  intro refs
  induction refs with
  | nil => intro ts _ c hc; cases hc
  | cons r rest ih =>
    intro ts hr c hc
    cases ts with
    | nil => simp only [representsChildren] at hr
    | cons t ts =>
      simp only [representsChildren] at hr
      obtain ⟨hm, ht, hrest⟩ := hr
      rcases List.mem_cons.mp hc with e | e
      · rw [e]
        exact ⟨t, List.mem_cons_self _ _, ht, hm⟩
      · obtain ⟨tc, h1, h2, h3⟩ := ih ts hrest c e
        exact ⟨tc, List.mem_cons_of_mem _ h1, h2, h3⟩

/-- A represented node that lists a child has a subtree. -/
theorem representsChildren_ne_nil {σ : Type} (h : NodeStore σ) (a : Nat) (refs : List Nat)
    (ts : List (SerializedNode σ)) (hr : representsChildren h a refs ts) (hne : refs ≠ []) :
    ts ≠ [] := by
  cases refs with
  | nil => exact absurd rfl hne
  | cons r rest =>
    cases ts with
    | nil => simp only [representsChildren] at hr
    | cons t ts => exact List.cons_ne_nil _ _

/-- Each tree of a searchable list is searchable. -/
theorem searchableAll_mem {σ : Type} :
    ∀ (ts : List (SerializedNode σ)), searchableAll ts → ∀ t ∈ ts, searchable t := by
  intro ts
  induction ts with
  | nil => intro _ t ht; cases ht
  | cons x xs ih =>
    intro hs t ht
    simp only [searchableAll] at hs
    rcases List.mem_cons.mp ht with e | e
    · rw [e]; exact hs.1
    · exact ih hs.2 t e

/-- A tree of a list is less deep than the list. -/
theorem treeDepth_lt_forestDepth {σ : Type} :
    ∀ (ts : List (SerializedNode σ)), ∀ t ∈ ts, treeDepth t < forestDepth ts := by
  intro ts
  induction ts with
  | nil => intro t ht; cases ht
  | cons x xs ih =>
    intro t ht
    simp only [forestDepth]
    rcases List.mem_cons.mp ht with e | e
    · rw [e]
      exact lt_of_lt_of_le (Nat.lt_succ_self _) (le_max_left _ _)
    · exact lt_of_lt_of_le (ih t e) (le_max_right _ _)

/-- With a finite exploration factor, a visited node of finite score under a
visited parent has a finite UCB score. -/
theorem getUCBScore_visited_finite {σ : Type} (m : MathImpl)
    (hlog : ∀ x : ℚ, 1 ≤ x → 0 ≤ m.log x) (h : NodeStore σ) (c p : Nat) (nc pn : Node σ)
    (q s : ℚ) (hc : h[c]? = some nc) (hv : 0 < nc.visits) (hs : nc.score = .fin s)
    (hp : nc.parent = some p) (hpn : h[p]? = some pn) (hpv : 1 ≤ pn.visits) :
    ∃ u : ℚ, getUCBScore m h c (.fin q) = .ok (.fin u) := by
  have hv0 : nc.visits ≠ 0 := Nat.ne_of_gt hv
  have hpq : (1 : ℚ) ≤ (pn.visits : ℚ) := by exact_mod_cast hpv
  have hp0 : ¬ ((pn.visits : ℚ) < 0) := by linarith
  have hp1 : ¬ ((pn.visits : ℚ) = 0) := by linarith
  have hvpos : (0 : ℚ) < (nc.visits : ℚ) := by exact_mod_cast hv
  have hvq : ((nc.visits : ℕ) : ℚ) ≠ 0 := ne_of_gt hvpos
  have hnn : ¬ (m.log (pn.visits : ℚ) / (nc.visits : ℚ) < 0) :=
    not_lt.mpr (div_nonneg (hlog _ hpq) (le_of_lt hvpos))
  refine ⟨s / (nc.visits : ℚ) + q * m.sqrt (m.log (pn.visits : ℚ) / (nc.visits : ℚ)), ?_⟩
  simp only [getUCBScore, hc, hv0, if_false, hp, hpn, hs, JSNum.ofNat, mathLog, hp0, hp1,
    JSNum.div, hvq, mathSqrt, hnn, JSNum.mul, JSNum.add]

/-- When every child scores a number above `-Infinity`, the loop of
`getBestChild` ends with a child as soon as it has one child to look at or
holds one already. -/
theorem bestChildLoop_some {σ : Type} (m : MathImpl) (h : NodeStore σ) (ef : JSNum) :
    ∀ (cs : List Nat) (bs : JSNum) (b : Option Nat),
      (∀ c ∈ cs, ∃ s, getUCBScore m h c ef = .ok s ∧ s ≠ .nan ∧ s ≠ .ninf) →
      (b = none → bs = .ninf) → (cs ≠ [] ∨ b ≠ none) →
      ∃ c, bestChildLoop m h ef cs bs b = .ok (some c) := by
  intro cs
  induction cs with
  | nil =>
    intro bs b _ _ hne
    rcases hne with hne | hne
    · exact absurd rfl hne
    · cases b with
      | none => exact absurd rfl hne
      | some c => exact ⟨c, rfl⟩
  | cons x xs ih =>
    intro bs b hall hb _
    obtain ⟨s, hs, hs1, hs2⟩ := hall x (List.mem_cons_self _ _)
    have hxs : ∀ c ∈ xs, ∃ s, getUCBScore m h c ef = .ok s ∧ s ≠ .nan ∧ s ≠ .ninf :=
      fun c hc => hall c (List.mem_cons_of_mem _ hc)
    by_cases hg : JSNum.gt s bs = true
    · simp only [bestChildLoop, hs, hg, if_true]
      exact ih s (some x) hxs (fun e => by cases e) (Or.inr (fun e => by cases e))
    · simp only [bestChildLoop, hs, hg, if_false]
      have hbn : b ≠ none := by
        intro e
        rw [hb e] at hg
        apply hg
        cases s with
        | nan => exact absurd rfl hs1
        | ninf => exact absurd rfl hs2
        | pinf => rfl
        | fin v => rfl
      exact ih bs b hxs hb (Or.inr hbn)

/-- On a searchable tree and with a finite exploration factor, `getBestChild`
of a node that has children returns one of them. -/
theorem getBestChild_of_searchable {σ : Type} (m : MathImpl)
    (hlog : ∀ x : ℚ, 1 ≤ x → 0 ≤ m.log x) (q : ℚ) (h : NodeStore σ) (a : Nat) (n : Node σ)
    (ts : List (SerializedNode σ)) (hn : h[a]? = some n) (hv : 1 ≤ n.visits)
    (hr : representsChildren h a n.children ts) (hs : searchableAll ts)
    (hne : n.children ≠ []) :
    ∃ c, getBestChild m h a (.fin q) = .ok (some c) ∧ c ∈ n.children := by
  have hall : ∀ c ∈ n.children,
      ∃ s, getUCBScore m h c (.fin q) = .ok s ∧ s ≠ .nan ∧ s ≠ .ninf := by
    intro c hc
    obtain ⟨tc, h1, h2, mc, h3, h4⟩ := representsChildren_mem h a n.children ts hr c hc
    have hsc := searchableAll_mem ts hs tc h1
    cases tc with
    | mk st v sc cs =>
      simp only [represents] at h2
      obtain ⟨nc, k1, _, k3, k4, _⟩ := h2
      rw [h3] at k1
      cases k1
      simp only [searchable] at hsc
      obtain ⟨⟨s, e⟩, _, _⟩ := hsc
      by_cases h0 : mc.visits = 0
      · exact ⟨.pinf, getUCBScore_unvisited m h c (.fin q) mc h3 h0, by simp, by simp⟩
      · obtain ⟨u, hu⟩ := getUCBScore_visited_finite m hlog h c a mc n q s h3
          (Nat.pos_of_ne_zero h0) (k4.trans e) h4 hn hv
        exact ⟨.fin u, hu, by simp, by simp⟩
  obtain ⟨c, hc⟩ := bestChildLoop_some m h (.fin q) n.children .ninf none hall (fun _ => rfl)
    (Or.inl hne)
  have hg : getBestChild m h a (.fin q) = .ok (some c) := by
    simp only [getBestChild, hn]
    exact hc
  refine ⟨c, hg, ?_⟩
  rcases bestChildLoop_mem m h (.fin q) n.children .ninf none c hc with e | e
  · exact e
  · cases e

/-- The selection loop on a represented searchable tree, with a finite
exploration factor and a budget above the depth of the tree. -/
theorem select_of_searchable {σ : Type} (m : MathImpl)
    (hlog : ∀ x : ℚ, 1 ≤ x → 0 ≤ m.log x) (q : ℚ) (h : NodeStore σ) :
    ∀ (fuel a : Nat) (t : SerializedNode σ), represents h a t → searchable t →
      treeDepth t < fuel →
      ∃ b, select m (.fin q) h fuel a = some (.ok b) ∧
        (∃ n, h[b]? = some n ∧ n.children = []) ∧
        Relation.ReflTransGen (childOf h) a b := by
  intro fuel
  induction fuel with
  | zero => intro a t _ _ hd; exact absurd hd (Nat.not_lt_zero _)
  | succ f ih =>
    intro a t hr hs hd
    cases t with
    | mk st v sc cs =>
      simp only [represents] at hr
      obtain ⟨n, hn, _, hv, _, hch⟩ := hr
      simp only [searchable] at hs
      obtain ⟨_, hvis, hall⟩ := hs
      by_cases hc : n.children = []
      · refine ⟨a, ?_, ⟨n, hn, hc⟩, Relation.ReflTransGen.refl⟩
        simp only [select, hn, hc, if_true]
      · have hcs : cs ≠ [] := representsChildren_ne_nil h a n.children cs hch hc
        have hv1 : 1 ≤ n.visits := by rw [hv]; exact hvis hcs
        obtain ⟨c, hg, hmem⟩ :=
          getBestChild_of_searchable m hlog q h a n cs hn hv1 hch hall hc
        obtain ⟨tc, h1, h2, _⟩ := representsChildren_mem h a n.children cs hch c hmem
        have hdc : treeDepth tc < f := by
          have h3 := treeDepth_lt_forestDepth cs tc h1
          simp only [treeDepth] at hd
          exact Nat.lt_of_lt_of_le h3 (Nat.le_of_lt_succ hd)
        obtain ⟨b, e1, e2, e3⟩ := ih c tc h2 (searchableAll_mem cs hall tc h1) hdc
        refine ⟨b, ?_, e2, Relation.ReflTransGen.head ⟨n, hn, hmem⟩ e3⟩
        simp only [select, hn, hc, if_false, hg]
        exact e1

/-- The store `sampleTree` holds the tree `sampleSerialized` at its root. -/
theorem sampleTree_represents : represents sampleTree 0 sampleSerialized := by
  simp only [sampleSerialized, represents, representsChildren]
  exact ⟨_, rfl, rfl, rfl, rfl, ⟨_, rfl, rfl⟩, ⟨_, rfl, rfl, rfl, rfl, ⟨_, rfl, rfl⟩,
    ⟨_, rfl, rfl, rfl, rfl, trivial⟩, trivial⟩, trivial⟩

/-- The scores of `sampleSerialized` are finite and its inner nodes visited. -/
theorem sampleSerialized_searchable : searchable sampleSerialized := by
  simp only [sampleSerialized, searchable, searchableAll]
  exact ⟨⟨_, rfl⟩, fun _ => by decide, ⟨⟨_, rfl⟩, fun _ => by decide,
    ⟨⟨_, rfl⟩, fun hne => absurd rfl hne, trivial⟩, trivial⟩, trivial⟩

/-- The visit counts of `sampleTree` are in order. -/
theorem sampleTree_visitsInv : visitsInv sampleTree 0 := by
  intro a n _ hn
  have hlt : a < 3 := (List.getElem?_eq_some.mp hn).1
  match a, hlt, hn with
  | 0, _, hn =>
    have e : n = ⟨"root", none, [1], 3, .fin 2⟩ := (Option.some.inj hn).symm
    subst e
    exact ⟨by decide, fun _ => by decide⟩
  | 1, _, hn =>
    have e : n = ⟨"mid", some 0, [2], 1, .fin 1⟩ := (Option.some.inj hn).symm
    subst e
    exact ⟨by decide, fun _ => by decide⟩
  | 2, _, hn =>
    have e : n = ⟨"leaf", some 1, [], 0, .fin 0⟩ := (Option.some.inj hn).symm
    subst e
    exact ⟨by decide, fun hne => absurd rfl hne⟩

/-- The claim of C28 fails when the exploration factor is not a finite number.
`sampleTree` is a finite tree whose visit counts are in order and whose scores
are finite; with the factor `-Infinity` the visited child of the root scores
`-Infinity`, with the factor `NaN` it scores `NaN`: neither is `> -Infinity`,
`getBestChild` returns `null` on the root, and the loop throws on
`node.children` of `null`. -/
theorem select_null_dereference :
    represents sampleTree 0 sampleSerialized ∧ searchable sampleSerialized ∧
    visitsInv sampleTree 0 ∧
    getUCBScore sampleMath sampleTree 1 .ninf = .ok .ninf ∧
    getBestChild sampleMath sampleTree 0 .ninf = .ok none ∧
    select sampleMath .ninf sampleTree 3 0 =
      some (.error "TypeError: Cannot read properties of null (reading 'children')") ∧
    getUCBScore sampleMath sampleTree 1 .nan = .ok .nan ∧
    getBestChild sampleMath sampleTree 0 .nan = .ok none ∧
    select sampleMath .nan sampleTree 3 0 =
      some (.error "TypeError: Cannot read properties of null (reading 'children')") := by
  refine ⟨sampleTree_represents, sampleSerialized_searchable, sampleTree_visitsInv,
    ?_, ?_, ?_, ?_, ?_, ?_⟩
  · with_unfolding_all rfl
  · with_unfolding_all rfl
  · with_unfolding_all rfl
  · with_unfolding_all rfl
  · with_unfolding_all rfl
  · with_unfolding_all rfl

/-- C28 (amended). For a finite exploration factor, on every finite tree `t`
laid out in the store from `root` whose nodes have finite scores and at least
one visit when they have a child: the loop
`while (node.children.length > 0) node = node.getBestChild(explorationFactor)`
finds a child at every step (never `null`), and with a budget of one test of
the loop condition more than the depth of the tree (so after at most that many
replacements of `node`) it stops at a node without children that is reached
from the root along `children`.  (`Math.log` is taken non-negative on
arguments `≥ 1`; finite arithmetic is exact.) -/
theorem select_safe {σ : Type} (m : MathImpl) (hlog : ∀ x : ℚ, 1 ≤ x → 0 ≤ m.log x)
    (q : ℚ) (h : NodeStore σ) (root : Nat) (t : SerializedNode σ)
    (hrep : represents h root t) (hs : searchable t) :
    ∃ b, select m (.fin q) h (treeDepth t + 1) root = some (.ok b) ∧
      (∃ n, h[b]? = some n ∧ n.children = []) ∧
      Relation.ReflTransGen (childOf h) root b :=
  select_of_searchable m hlog q h (treeDepth t + 1) root t hrep hs (Nat.lt_succ_self _)

/-- Witness for C28: `sampleTree` with the factor `1.4`; the loop goes from the
root to the leaf `2`. -/
theorem select_safe_witness :
    ∃ b, select sampleMath (.fin (7 / 5)) sampleTree (treeDepth sampleSerialized + 1) 0 =
        some (.ok b) ∧
      (∃ n, sampleTree[b]? = some n ∧ n.children = []) ∧
      Relation.ReflTransGen (childOf sampleTree) 0 b :=
  select_safe sampleMath (fun x hx => by simp only [sampleMath]; linarith) (7 / 5) sampleTree 0
    sampleSerialized sampleTree_represents sampleSerialized_searchable

end SaasQuick
